import Mathlib

/-!
# Bitonic integer sorting (CLE1_T1G6/prog2): a shallow embedding

The C program keeps one `int` array in a monitor and sorts it with a bitonic network that a
distributor thread hands out, chunk by chunk, to a pool of workers that is halved after each round.
The sorting routine of the message-passing variant (CLE2_T1G6/prob2) and the character functions
and the scan of the vowel count (CLE1_T1G6/prog1, CLE2_T1G6/prog1) are embedded as well.

* the sequence is a `List Int`; the values are only compared and exchanged, never computed with;
* indices and sizes are `Nat` (every size that reaches the network is non-negative);
* `unsigned int` cells of the range table are `Nat` reduced modulo `2 ^ 32`;
* a C function that updates the array through `int **` and returns a status becomes a function
  returning the new array together with the status;
* a read outside the array gives 0 and a write outside the array is dropped, where C leaves the
  behaviour undefined; the theorems on the contents of a block assume that the block lies inside
  the array.
-/

namespace Bitonic

/-! ## Array access -/

/-- Read `*(*sequence + i)`. -/
def ld (seq : List Int) (i : Nat) : Int := seq.getD i 0

/-- Counted loop `for (i = 0; i < n; i++) s = body i s`. -/
def forLoop {σ : Type} (n : Nat) (body : Nat → σ → σ) (s : σ) : σ :=
  match n with
  | 0 => s
  | k + 1 => body k (forLoop k body s)

/-! ## prog2Utils.c -/

/-- Source `CAPS` (prog2Utils.c:36-50): compare the cells `pos1` and `pos2` and exchange them when
they are out of order for `dir`. The C function always returns 0 and no caller reads that value,
so the embedding returns the array only. -/
def CAPS (seq : List Int) (pos1 pos2 : Nat) (dir : Int) : List Int :=
  if dir ≥ 0 then
    if ld seq pos1 > ld seq pos2 then
      let tmp := ld seq pos1
      (seq.set pos1 (ld seq pos2)).set pos2 tmp
    else seq
  else if ld seq pos1 < ld seq pos2 then
    let tmp := ld seq pos1
    (seq.set pos1 (ld seq pos2)).set pos2 tmp
  else seq

/-- Floor of the binary logarithm by repeated halving, at most `depth` times. -/
def log2Floor : Nat → Nat → Nat
  | 0, _ => 0
  | depth + 1, n => if n ≥ 2 then log2Floor depth (n / 2) + 1 else 0

/-- Floor of the square root, found bit by bit from bit `b - 1` downwards. -/
def isqrtBits (n : Nat) : Nat → Nat → Nat
  | 0, r => r
  | b + 1, r =>
    if (r + 2 ^ b) * (r + 2 ^ b) ≤ n then isqrtBits n b (r + 2 ^ b) else isqrtBits n b r

/-- Floor of the square root of a number below `2 ^ 256`. -/
def isqrt (n : Nat) : Nat := isqrtBits n 128 0

/-- The `float` held by `fVar = sqrt((double)n)` in `isSquare`, as the numerator of a fraction
with denominator `2 ^ 23`: the square root is rounded to nearest to the 53 significant bits of a
`double`, then to nearest-even to the 24 significant bits of a `float`. -/
def sqrtFloat (n : Nat) : Nat :=
  if n = 0 then 0 else
  let e := log2Floor 64 (isqrt n)
  let s := 52 - e
  let m0 := isqrt (n * 4 ^ s)
  let m := if (2 * m0 + 1) * (2 * m0 + 1) < 4 * (n * 4 ^ s) then m0 + 1 else m0
  let q0 := m / 2 ^ 29
  let r := m % 2 ^ 29
  let q := if r > 2 ^ 28 ∨ (r = 2 ^ 28 ∧ q0 % 2 = 1) then q0 + 1 else q0
  q * 2 ^ e

/-- Conversion of that `float` to `int` (truncation). -/
def floatToInt (f : Nat) : Int := ((f / 2 ^ 23 : Nat) : Int)

/-- Source `isSquare` (prog2Utils.c:59-66): `iVar` receives the truncated `fVar` and is then
compared with the truncated `fVar`. -/
def isSquare (n : Nat) : Bool :=
  let fVar := sqrtFloat n
  let iVar := floatToInt fVar
  if iVar = floatToInt fVar then true else false

/-- The loop bound `(int)log2((double)N)` of `bitonicMerge`: the floor of the binary logarithm for
`N ≥ 1`; for `N = 0` the C expression converts minus infinity and the loop is not entered. -/
def ilog2 (N : Nat) : Nat := log2Floor N N

/-- The `for (t = 0; t < v; t++)` loop of `bitonicMerge` (prog2Utils.c:90-93). -/
def mergeGroup (seq : List Int) (low u v : Nat) (dir : Int) : List Int :=
  forLoop v (fun t s => CAPS s (low + t + u) (low + t + u + v) dir) seq

/-- The `while (n < nL)` loop of `bitonicMerge` (prog2Utils.c:87-96); the state is the array and
the offset `u`. -/
def mergeLevel (seq : List Int) (low v nL : Nat) (dir : Int) : List Int × Nat :=
  forLoop nL (fun _ su => (mergeGroup su.1 low su.2 v dir, su.2 + (v <<< 1))) (seq, 0)

/-- The `for (m = 0; m < k; m++)` loop of `bitonicMerge` (prog2Utils.c:86-99); the state is the
array, `v` and `nL`. -/
def mergeLevels (k : Nat) (seq : List Int) (low v nL : Nat) (dir : Int) :
    List Int × Nat × Nat :=
  forLoop k (fun _ st => ((mergeLevel st.1 low st.2.1 st.2.2 dir).1, st.2.1 >>> 1, st.2.2 <<< 1))
    (seq, v, nL)

/-- Source `bitonicMerge` (prog2Utils.c:77-101): the new array and the exit status. -/
def bitonicMerge (seq : List Int) (low N : Nat) (dir : Int) : List Int × Int :=
  if N ≥ 2 ∧ !isSquare N then (seq, 1)
  else
    let v := N >>> 1
    let nL := 1
    let k := ilog2 N
    ((mergeLevels k seq low v nL dir).1, 0)

/-- Source `bitonicSort` (prog2Utils.c:112-128) with an explicit recursion depth, which
`bitonicSort` below sets to `N`. -/
def bitonicSortAux : Nat → List Int → Nat → Nat → Int → List Int × Int
  | 0, seq, _, _, _ => (seq, 0)
  | depth + 1, seq, low, N, dir =>
    if N ≤ 1 then (seq, 0)
    else if !isSquare N then (seq, 1)
    else
      let k := N / 2
      let r1 := bitonicSortAux depth seq low k 1
      let r2 := bitonicSortAux depth r1.1 (low + k) k (-1)
      let r3 := bitonicMerge r2.1 low N dir
      let err := 0 + r1.2 + r2.2 + r3.2
      if err ≠ 0 then (r3.1, 1) else (r3.1, 0)

/-- Source `bitonicSort` (prog2Utils.c:112-128): the new array and the exit status. -/
def bitonicSort (seq : List Int) (low N : Nat) (dir : Int) : List Int × Int :=
  bitonicSortAux N seq low N dir

/-! ## probConst.h -/

/-- Worker command: order non-bitonic sequence decreasing. -/
def ORDER_NON_BITONIC_DCR : Int := -2
/-- Worker command: order bitonic sequence decreasing. -/
def ORDER_BITONIC_DCR : Int := -1
/-- Worker command: worker is available (finished or waiting for work). -/
def AVAILABLE : Int := 0
/-- Worker command: order bitonic sequence increasing. -/
def ORDER_BITONIC_INCR : Int := 1
/-- Worker command: order non-bitonic sequence increasing. -/
def ORDER_NON_BITONIC_INCR : Int := 2
/-- Worker command: the work of the worker is done. -/
def DIE : Int := 3

/-! ## prog2SM.c and prog2.c

The threads are put in sequence: inside one call of `distributeRanges` the distributor assigns
the ranges, then, where the C distributor waits on `allWorkersFinished`, every worker that is still
alive runs one turn of its life cycle, in the order of the worker ids, then the distributor closes
the round. -/

/-- Conversion of an `int` to `unsigned int`. -/
def toU32 (x : Int) : Nat := (x % 4294967296).toNat

/-- Conversion of an `unsigned int` expression to `int`. -/
def toInt32 (u : Nat) : Int :=
  if u % 4294967296 < 2147483648 then ((u % 4294967296 : Nat) : Int)
  else ((u % 4294967296 : Nat) : Int) - 4294967296

/-- The shared region of prog2SM.c (the lock and the condition variables left out) together with
the two globals `nThreads` and `dir` of prog2.c. -/
structure Monitor where
  /-- the sequence as an array of integers -/
  sequence : List Int
  /-- for each worker the first and the last index of its range, as `unsigned int` -/
  workerRange : List (Nat × Nat)
  /-- the command of each worker -/
  workerCommand : List Int
  /-- size of the sequence (a non-negative `int`) -/
  sequenceSize : Nat
  /-- number of workers waiting for work -/
  waitingWorkers : Int
  /-- number of workers that finished their chunk -/
  finishedWorkers : Int
  /-- number of worker threads -/
  nThreads : Nat
  /-- sorting order, positive for increasing -/
  dir : Int
  deriving DecidableEq

/-- Source `initialization` (prog2SM.c:98-130). -/
def initialization (nThreads : Nat) (dir : Int) : Monitor :=
  { sequence := []
    workerRange := List.replicate nThreads (0, 0)
    workerCommand := List.replicate nThreads AVAILABLE
    sequenceSize := 0
    waitingWorkers := 0
    finishedWorkers := 0
    nThreads := nThreads
    dir := dir }

/-- Source `readFromFileAndStore` (prog2SM.c:164-199); `file` is the list of the integers that
follow the size in the file. -/
def readFromFileAndStore (m : Monitor) (file : List Int) : Monitor :=
  { m with sequenceSize := file.length, sequence := file }

/-- The command chosen for worker `i` in `distributeRanges` (prog2SM.c:235-244). -/
def chooseCommand (activeWorkers nThreads : Nat) (dir : Int) (i : Nat) : Int :=
  if activeWorkers = 1 ∧ activeWorkers = nThreads then
    (if dir < 0 then ORDER_NON_BITONIC_DCR else ORDER_NON_BITONIC_INCR)
  else if activeWorkers = 1 then
    (if dir < 0 then ORDER_BITONIC_DCR else ORDER_BITONIC_INCR)
  else if activeWorkers = nThreads then
    (if i % 2 = 0 then ORDER_NON_BITONIC_INCR else ORDER_NON_BITONIC_DCR)
  else (if i % 2 = 0 then ORDER_BITONIC_INCR else ORDER_BITONIC_DCR)

/-- One turn of the assignment loop of `distributeRanges` (prog2SM.c:231-247); the state is the
region and `currSeqPointer`. -/
def assignStep (activeWorkers : Nat) (chunkSize : Int) (i : Nat) (st : Monitor × Int) :
    Monitor × Int :=
  if st.1.workerCommand.getD i 0 = AVAILABLE then
    let r0 := toU32 st.2
    let r1 := toU32 (st.2 + chunkSize - 1)
    ({ st.1 with
        workerRange := st.1.workerRange.set i (r0, r1)
        workerCommand := st.1.workerCommand.set i
          (chooseCommand activeWorkers st.1.nThreads st.1.dir i) },
      toInt32 (r1 + 1))
  else st

/-- First part of `distributeRanges` (prog2SM.c:228-250): ranges and commands for the workers
that are alive, `finishedWorkers` reset. -/
def assignRanges (m : Monitor) (activeWorkers : Nat) : Monitor :=
  let chunkSize : Int := ((m.sequenceSize / activeWorkers : Nat) : Int)
  let currSeqPointer : Int := 0
  let m1 := (forLoop m.nThreads (assignStep activeWorkers chunkSize) (m, currSeqPointer)).1
  { m1 with finishedWorkers := 0 }

/-- Source `fetchSubSequence` (prog2SM.c:306-359): the quit flag, the region, and the outputs
`command`, `chunkSize` and the index of the first cell of `chunk`. The test for `DIE` is made
before the wait and the outputs are read after it; the assignment made in between never writes a
cell holding `DIE` and never writes `DIE`, so both are read here from the state after it. -/
def fetchSubSequence (m : Monitor) (workerID : Nat) : Bool × Monitor × Int × Int × Nat :=
  if m.workerCommand.getD workerID 0 = DIE then (true, m, 0, 0, 0)
  else
    let m1 := { m with waitingWorkers := m.waitingWorkers + 1 }
    let m2 := { m1 with waitingWorkers := m1.waitingWorkers - 1 }
    let command := m2.workerCommand.getD workerID 0
    let r := m2.workerRange.getD workerID (0, 0)
    let chunkSize := toInt32 ((r.2 + 4294967296 - r.1 + 1) % 4294967296)
    (false, m2, command, chunkSize, r.1)

/-- Source `signalFinished` (prog2SM.c:368-401). -/
def signalFinished (m : Monitor) (workerID : Nat) : Monitor :=
  { m with
    finishedWorkers := m.finishedWorkers + 1
    workerCommand := m.workerCommand.set workerID AVAILABLE }

/-- The sorting step of a worker (prog2.c:222-225) on the chunk that starts at cell `chunk`. The
chunk pointer is the index of its first cell, so `bitonicSort(&chunk, 0, ...)` works on the cells
from `chunk + 0`. -/
def sortChunk (seq : List Int) (command chunkSize : Int) (chunk : Nat) : List Int :=
  let localDir : Int := if command < 0 then -1 else 1
  if command = ORDER_NON_BITONIC_DCR ∨ command = ORDER_NON_BITONIC_INCR then
    (bitonicSort seq (chunk + 0) chunkSize.toNat localDir).1
  else if command = ORDER_BITONIC_DCR ∨ command = ORDER_BITONIC_INCR then
    (bitonicMerge seq (chunk + 0) chunkSize.toNat localDir).1
  else seq

/-- One turn of the life cycle of a worker (prog2.c:213-229). -/
def worker (m : Monitor) (id : Nat) : Monitor :=
  let f := fetchSubSequence m id
  let quit := f.1
  let m1 := f.2.1
  let command := f.2.2.1
  let chunkSize := f.2.2.2.1
  let chunk := f.2.2.2.2
  if quit then m1
  else signalFinished { m1 with sequence := sortChunk m1.sequence command chunkSize chunk } id

/-- The workers at work during one round, in the order of their ids. -/
def runWorkers (m : Monitor) : Monitor :=
  forLoop m.nThreads (fun id s => worker s id) m

/-- Last part of `distributeRanges` (prog2SM.c:273-276): who lives on and who dies. -/
def demote (m : Monitor) (activeWorkers : Nat) : Monitor :=
  { m with
    workerCommand := forLoop m.nThreads
      (fun i c => c.set i (if i < activeWorkers then AVAILABLE else DIE)) m.workerCommand }

/-- Source `distributeRanges` (prog2SM.c:210-292): the region and `*activeWorkers` after the
call. -/
def distributeRanges (m : Monitor) (activeWorkers : Nat) : Monitor × Nat :=
  let m1 := assignRanges m activeWorkers
  let m2 := runWorkers m1
  let activeWorkers := activeWorkers / 2
  (demote m2 activeWorkers, activeWorkers)

/-- The `while (true)` loop of `distributor` (prog2.c:191-195), run for at most `fuel` rounds:
the final region and the number of calls of `distributeRanges`. -/
def distributorLoop : Nat → Monitor → Nat → Option (Monitor × Nat)
  | 0, _, _ => none
  | fuel + 1, m, nActiveWorkers =>
    let r := distributeRanges m nActiveWorkers
    if r.2 = 0 then some (r.1, 1)
    else (distributorLoop fuel r.1 r.2).map (fun x => (x.1, x.2 + 1))

/-- Source `distributor` (prog2.c:186-199) after `initialization`. -/
def distributor (fuel : Nat) (file : List Int) (nThreads : Nat) (dir : Int) :
    Option (Monitor × Nat) :=
  distributorLoop fuel (readFromFileAndStore (initialization nThreads dir) file) nThreads

/-- What `validateSequence` prints: the error line with the position and the two elements, or
the line `Everything is OK!`. -/
inductive Report where
  | error (i : Nat) (a b : Int)
  | ok
  deriving DecidableEq

/-- The scanning loop of `validateSequence` (prog2SM.c:420-434), entered at index `i` with
`left` turns to go before `i` reaches `sequenceSize - 1`: the value of `i` when the loop is left,
by its test or by `break`, and what was printed. -/
def validateScan (seq : List Int) (dir : Int) : Nat → Nat → Nat × List Report
  | 0, i => (i, [])
  | left + 1, i =>
    if dir < 0 then
      if ld seq i < ld seq (i + 1) then (i, [Report.error i (ld seq i) (ld seq (i + 1))])
      else validateScan seq dir left (i + 1)
    else
      if ld seq i > ld seq (i + 1) then (i, [Report.error i (ld seq i) (ld seq (i + 1))])
      else validateScan seq dir left (i + 1)

/-- Source `validateSequence` (prog2SM.c:409-443): the region and what was printed. -/
def validateSequence (m : Monitor) : Monitor × List Report :=
  let r := validateScan m.sequence m.dir ((m.sequenceSize : Int) - 1).toNat 0
  let i := r.1
  if (i : Int) = (m.sequenceSize : Int) - 1 then (m, r.2 ++ [Report.ok]) else (m, r.2)

/-! ### The condition waits of prog2SM.c

A thread that called `pthread_cond_wait` goes on when the call returns, after a signal, after a
broadcast or spuriously. For each wait the functions below give what the thread does from that
return on, up to its next wait or to the end of the operation: `none` when it calls
`pthread_cond_wait` again. -/

/-- Return of the wait on `allWorkersWaiting` in `distributeRanges` (prog2SM.c:218-258): the
`while` tests `waitingWorkers < *activeWorkers` again. -/
def distributeRanges_wakeWaiting (m : Monitor) (activeWorkers : Nat) : Option Monitor :=
  if m.waitingWorkers < activeWorkers then none else some (assignRanges m activeWorkers)

/-- Return of the wait on `allWorkersFinished` in `distributeRanges` (prog2SM.c:260-292): the
`while` tests `finishedWorkers != *activeWorkers` again. -/
def distributeRanges_wakeFinished (m : Monitor) (activeWorkers : Nat) : Option (Monitor × Nat) :=
  if m.finishedWorkers ≠ activeWorkers then none
  else some (demote m (activeWorkers / 2), activeWorkers / 2)

/-- Source `fetchSubSequence` up to its wait on `waitForWork` (prog2SM.c:306-337): the quit flag
and the region. -/
def fetchSubSequence_wait (m : Monitor) (workerID : Nat) : Bool × Monitor :=
  if m.workerCommand.getD workerID 0 = DIE then (true, m)
  else (false, { m with waitingWorkers := m.waitingWorkers + 1 })

/-- Return of the wait on `waitForWork` in `fetchSubSequence` (prog2SM.c:337-358): the call is not
in a loop and nothing is tested, the worker reads its outputs and leaves. -/
def fetchSubSequence_wake (m : Monitor) (workerID : Nat) : Option (Monitor × Int × Int × Nat) :=
  let m2 := { m with waitingWorkers := m.waitingWorkers - 1 }
  let command := m2.workerCommand.getD workerID 0
  let r := m2.workerRange.getD workerID (0, 0)
  let chunkSize := toInt32 ((r.2 + 4294967296 - r.1 + 1) % 4294967296)
  some (m2, command, chunkSize, r.1)

/-- Return of the wait on `waitForWork` in `signalFinished` (prog2SM.c:387-400): the call is not
in a loop and nothing is tested, the worker leaves. -/
def signalFinished_wake (m : Monitor) (_workerID : Nat) : Option Monitor :=
  some m

/-! ## CLE2_T1G6/prob2/utils.c -/

/-- The `for (i = low; i < low + k; i++)` loop of `bitonic_merge` (utils.c:163-169). -/
def bitonic_mergePass (arr : List Int) (low k : Nat) : List Int :=
  forLoop k (fun t a =>
    let i := low + t
    if (1 : Int) = (if ld a i > ld a (i + k) then 1 else 0) then
      let temp := ld a i
      (a.set i (ld a (i + k))).set (i + k) temp
    else a) arr

/-- Source `bitonic_merge` (utils.c:160-173) with an explicit recursion depth. -/
def bitonic_mergeAux : Nat → List Int → Nat → Nat → Int → List Int
  | 0, arr, _, _, _ => arr
  | depth + 1, arr, low, cnt, dir =>
    if cnt > 1 then
      let k := cnt / 2
      let arr1 := bitonic_mergePass arr low k
      let arr2 := bitonic_mergeAux depth arr1 low k dir
      bitonic_mergeAux depth arr2 (low + k) k dir
    else arr

/-- Source `bitonic_merge` (utils.c:160-173). -/
def bitonic_merge (arr : List Int) (low cnt : Nat) (dir : Int) : List Int :=
  bitonic_mergeAux cnt arr low cnt dir

/-- Source `bitonic_sort_recursive` (utils.c:175-182) with an explicit recursion depth. -/
def bitonic_sort_recursiveAux : Nat → List Int → Nat → Nat → Int → List Int
  | 0, arr, _, _, _ => arr
  | depth + 1, arr, low, cnt, dir =>
    if cnt > 1 then
      let k := cnt / 2
      let arr1 := bitonic_sort_recursiveAux depth arr low k 1
      let arr2 := bitonic_sort_recursiveAux depth arr1 (low + k) k 0
      bitonic_merge arr2 low cnt dir
    else arr

/-- Source `bitonic_sort_recursive` (utils.c:175-182). -/
def bitonic_sort_recursive (arr : List Int) (low cnt : Nat) (dir : Int) : List Int :=
  bitonic_sort_recursiveAux cnt arr low cnt dir

/-! ## CLE2_T1G6/prog1/prog1Utils.c

A UTF8 character is the list of its bytes, each a `Nat` below 256, with its size. -/

/-- Source `getLetterSize` (prog1Utils.c:30-37): the size in bytes of the UTF8 character that
starts with `byte`. -/
def getLetterSize (byte : Nat) : Nat :=
  if byte &&& 0xF8 = 0xF0 then 4
  else if byte &&& 0xF0 = 0xE0 then 3
  else if byte &&& 0xE0 = 0xC0 then 2
  else if byte &&& 0x80 = 0x00 then 1
  else 1

/-- Source `isAlpha` (prog1Utils.c:47-61). -/
def isAlpha (bytes : List Nat) (size : Int) : Bool :=
  let b0 := bytes.getD 0 0
  let b1 := bytes.getD 1 0
  if size = 1 then
    if (b0 ≥ 0x41 ∧ b0 ≤ 0x90) ∨ (b0 ≥ 0x61 ∧ b0 ≤ 0x7A) then true else false
  else if size = 2 then
    if b0 = 0xC3 then
      if (b1 ≤ 0xB6 ∧ b1 ≥ 0x98) ∨ (b1 ≤ 0x96 ∧ b1 ≥ 0x80) ∨ (b1 ≤ 0xBF ∧ b1 ≥ 0xB8) then true
      else false
    else false
  else false

/-- Source `isSeparator` (prog1Utils.c:71-90); the characters of the source are written by their
codes. -/
def isSeparator (bytes : List Nat) (size : Int) : Bool :=
  let b0 := bytes.getD 0 0
  let b1 := bytes.getD 1 0
  let b2 := bytes.getD 2 0
  if size = 1 then
    if b0 = 0x9 ∨ b0 = 0xD ∨ b0 = 0xA ∨ b0 = 0x20 ∨ b0 = 0x22 ∨ b0 = 0x21 ∨ b0 = 0x2D ∨
        b0 = 0x5B ∨ b0 = 0x5D ∨ b0 = 0x28 ∨ b0 = 0x29 ∨ b0 = 0x2E ∨ b0 = 0x2C ∨ b0 = 0x3A ∨
        b0 = 0x3B ∨ b0 = 0x3F then true
    else false
  else if size = 3 then
    if b0 = 0xE2 ∧ b1 = 0x80 then
      if b2 = 0x9C ∨ b2 = 0x9D ∨ b2 = 0x93 ∨ b2 = 0xA6 then true else false
    else false
  else false

/-- Source `isVowel` (prog1Utils.c:99-145): `0x78`, the letter x, when the character is not a
vowel. -/
def isVowel (bytes : List Nat) (size : Int) : Nat :=
  let b0 := bytes.getD 0 0
  let b1 := bytes.getD 1 0
  if size = 1 then
    if b0 = 0x61 ∨ b0 = 0x65 ∨ b0 = 0x69 ∨ b0 = 0x6F ∨ b0 = 0x75 ∨ b0 = 0x79 then b0
    else if b0 = 0x41 then 0x61
    else if b0 = 0x45 then 0x65
    else if b0 = 0x49 then 0x69
    else if b0 = 0x4F then 0x6F
    else if b0 = 0x55 then 0x75
    else if b0 = 0x59 then 0x79
    else 0x78
  else if size = 2 then
    if b0 = 0xC3 then
      if (b1 ≤ 0xA6 ∧ b1 ≥ 0xA0) ∨ (b1 ≤ 0x86 ∧ b1 ≥ 0x80) then 0x61
      else if (b1 ≤ 0xAB ∧ b1 ≥ 0xA8) ∨ (b1 ≤ 0x8B ∧ b1 ≥ 0x88) then 0x65
      else if (b1 ≤ 0xAF ∧ b1 ≥ 0xAC) ∨ (b1 ≤ 0x8F ∧ b1 ≥ 0x8C) then 0x69
      else if (b1 ≤ 0xB6 ∧ b1 ≥ 0xB2) ∨ (b1 ≤ 0x96 ∧ b1 ≥ 0x92) ∨ b1 = 0xB8 ∨ b1 = 0xB0 ∨
          b1 = 0x98 then 0x6F
      else if (b1 ≤ 0xBC ∧ b1 ≥ 0xB9) ∨ (b1 ≤ 0x99 ∧ b1 ≥ 0x9C) then 0x75
      else if b1 = 0xBF ∨ b1 = 0xBD ∨ b1 = 0x9D then 0x79
      else 0x78
    else 0x78
  else 0x78

/-! ## Notions used to state the properties -/

/-- Value left in the first cell of a compared pair: the smaller one when ascending. -/
def loV (dir a b : Int) : Int := if 0 ≤ dir then min a b else max a b

/-- Value left in the second cell of a compared pair: the larger one when ascending. -/
def hiV (dir a b : Int) : Int := if 0 ≤ dir then max a b else min a b

/-- Threshold test in the direction of the sort: `x` is at or beyond `c`. -/
def up (dir c x : Int) : Prop := if 0 ≤ dir then c ≤ x else x ≤ c

/-- A predicate on `[0, n)` whose true cells, or whose false cells, form one interval `[p, q)`:
the shape of a thresholded bitonic sequence. -/
def Bit01 (Q : Nat → Prop) (n : Nat) : Prop :=
  ∃ p q, p ≤ q ∧ q ≤ n ∧
    ((∀ i, i < n → (Q i ↔ p ≤ i ∧ i < q)) ∨ (∀ i, i < n → (¬ Q i ↔ p ≤ i ∧ i < q)))

/-- What the remaining levels of the network do to the block `[b, b + n)` of `seq`, seen through
the threshold `c`: a block entirely beyond the threshold stays so, a block entirely before it stays
so, and a block of bitonic shape comes out sorted. Here `r` is the array after the levels. -/
def BlockOK (dir c : Int) (seq r : List Int) (b n : Nat) : Prop :=
  ((∀ i, b ≤ i → i < b + n → up dir c (ld seq i)) → ∀ i, b ≤ i → i < b + n → up dir c (ld r i)) ∧
  ((∀ i, b ≤ i → i < b + n → ¬ up dir c (ld seq i)) →
    ∀ i, b ≤ i → i < b + n → ¬ up dir c (ld r i)) ∧
  (Bit01 (fun t => up dir c (ld seq (b + t))) n →
    ∀ i j, b ≤ i → i ≤ j → j < b + n → up dir c (ld r i) → up dir c (ld r j))

/-- The block `[low, low + n)` of the array is in order for `dir`. -/
def ChunkOrdered (seq : List Int) (low n : Nat) (dir : Int) : Prop :=
  ∀ i j, low ≤ i → i ≤ j → j < low + n → up dir (ld seq i) (ld seq j)

/-- The region at the start of a round with `a` active workers: `W` worker slots, a sequence of
`N` cells, and the workers below `a` available while the others are dead. -/
def RoundInv (m : Monitor) (W N a : Nat) : Prop :=
  m.nThreads = W ∧ m.workerCommand.length = W ∧ m.workerRange.length = W ∧
  m.sequenceSize = N ∧ m.sequence.length = N ∧ a ≤ W ∧
  ∀ i, i < W → m.workerCommand.getD i 0 = if i < a then AVAILABLE else DIE

/-- The sequence after the first `i` workers of a round with `a` active workers did their
work. -/
def roundSeq (a W : Nat) (dir : Int) (N i : Nat) (seq : List Int) : List Int :=
  forLoop i (fun j s => sortChunk s (chooseCommand a W dir j) ((N / a : Nat) : Int) (j * (N / a)))
    seq

/-- The region and the active count after `r` calls of `distributeRanges`. -/
def roundStart (file : List Int) (W : Nat) (dir : Int) : Nat → Monitor × Nat
  | 0 => (readFromFileAndStore (initialization W dir) file, W)
  | r + 1 => distributeRanges (roundStart file W dir r).1 (roundStart file W dir r).2

/-- Cell `x` lies in the chunk that worker `workerID` fetches (and the worker is not told to
quit). -/
def inChunk (m : Monitor) (workerID x : Nat) : Prop :=
  (fetchSubSequence m workerID).1 = false ∧
  (fetchSubSequence m workerID).2.2.2.2 ≤ x ∧
  (x : Int) < (fetchSubSequence m workerID).2.2.2.2 + (fetchSubSequence m workerID).2.2.2.1

/-- The direction in which the chunk of worker `j` is left by a round with `a` active workers:
the global one for a single worker, else up for an even id and down for an odd one. -/
def roundDir (a : Nat) (dir : Int) (j : Nat) : Int :=
  if a = 1 then (if dir < 0 then -1 else 1) else if j % 2 = 0 then 1 else -1

/-- Every chunk of a round with `a` active workers is in order, in the direction of its
worker. -/
def RoundPost (seq : List Int) (N a : Nat) (dir : Int) : Prop :=
  ∀ j, j < a → ChunkOrdered seq (j * (N / a)) (N / a) (roundDir a dir j)

/-- The adjacent pair at `i` is out of order for `dir`, as `validateSequence` tests it. -/
def outOfOrder (seq : List Int) (dir : Int) (i : Nat) : Prop :=
  if dir < 0 then ld seq i < ld seq (i + 1) else ld seq i > ld seq (i + 1)

/-- The cells `[low, low + N)` of the array. -/
def slice (seq : List Int) (low N : Nat) : List Int := (seq.drop low).take N

/-- Bitonic sequence: non-decreasing then non-increasing, or a rotation of such a sequence. -/
def IsBitonic (l : List Int) : Prop :=
  ∃ (a b : List Int) (r : Nat), List.Sorted (· ≤ ·) a ∧ List.Sorted (· ≥ ·) b ∧ l = (a ++ b).rotate r

/-- The region of round `r + 1` after the assignment and after the first `t` workers, in the
order of their ids, did their turn. -/
def roundWorking (file : List Int) (W : Nat) (dir : Int) (r t : Nat) : Monitor :=
  forLoop t (fun id s => worker s id)
    (assignRanges (roundStart file W dir r).1 (roundStart file W dir r).2)

/-! ## The calls of `CAPS`

The loops of `bitonicMerge` and the recursion of `bitonicSort` once more, keeping instead of the
array the list of the calls of `CAPS` they make: the two positions and the direction. -/

/-- The calls made by the `for (t = 0; t < v; t++)` loop of `bitonicMerge`
(prog2Utils.c:90-93), in order. -/
def mergeGroupCalls (low u v : Nat) (dir : Int) : List (Nat × Nat × Int) :=
  forLoop v (fun t l => l ++ [(low + t + u, low + t + u + v, dir)]) []

/-- The calls made by the `while (n < nL)` loop of `bitonicMerge` (prog2Utils.c:87-96), one list
for each turn, and the offset `u`. -/
def mergeLevelCalls (low v nL : Nat) (dir : Int) : List (List (Nat × Nat × Int)) × Nat :=
  forLoop nL (fun _ gu => (gu.1 ++ [mergeGroupCalls low gu.2 v dir], gu.2 + (v <<< 1))) ([], 0)

/-- The calls made by the `for (m = 0; m < k; m++)` loop of `bitonicMerge`
(prog2Utils.c:86-99), one list of groups for each turn, with `v` and `nL`. -/
def mergeLevelsCalls (k low v nL : Nat) (dir : Int) :
    List (List (List (Nat × Nat × Int))) × Nat × Nat :=
  forLoop k (fun _ st =>
    (st.1 ++ [(mergeLevelCalls low st.2.1 st.2.2 dir).1], st.2.1 >>> 1, st.2.2 <<< 1))
    ([], v, nL)

/-- The calls of `CAPS` made by `bitonicMerge` (prog2Utils.c:77-101): level by level, and in a
level group by group. -/
def bitonicMergeCalls (low N : Nat) (dir : Int) : List (List (List (Nat × Nat × Int))) :=
  if N ≥ 2 ∧ !isSquare N then []
  else
    let v := N >>> 1
    let nL := 1
    let k := ilog2 N
    (mergeLevelsCalls k low v nL dir).1

/-- The calls of `CAPS` made by `bitonicSort` (prog2Utils.c:112-128), in order, with the same
recursion depth as `bitonicSortAux`. -/
def bitonicSortCallsAux : Nat → Nat → Nat → Int → List (Nat × Nat × Int)
  | 0, _, _, _ => []
  | depth + 1, low, N, dir =>
    if N ≤ 1 then []
    else if !isSquare N then []
    else
      let k := N / 2
      bitonicSortCallsAux depth low k 1 ++ bitonicSortCallsAux depth (low + k) k (-1) ++
        (bitonicMergeCalls low N dir).flatten.flatten

/-- The calls of `CAPS` made by `bitonicSort` (prog2Utils.c:112-128), in order. -/
def bitonicSortCalls (low N : Nat) (dir : Int) : List (Nat × Nat × Int) :=
  bitonicSortCallsAux N low N dir

/-- The calls of `CAPS` of a list made one after another on the array. -/
def runCalls (calls : List (Nat × Nat × Int)) (seq : List Int) : List Int :=
  calls.foldl (fun s c => CAPS s c.1 c.2.1 c.2.2) seq

/-- The calls of `CAPS` made by the sorting step of a worker (prog2.c:222-225). -/
def sortChunkCalls (command chunkSize : Int) (chunk : Nat) : List (Nat × Nat × Int) :=
  let localDir : Int := if command < 0 then -1 else 1
  if command = ORDER_NON_BITONIC_DCR ∨ command = ORDER_NON_BITONIC_INCR then
    bitonicSortCalls (chunk + 0) chunkSize.toNat localDir
  else if command = ORDER_BITONIC_DCR ∨ command = ORDER_BITONIC_INCR then
    (bitonicMergeCalls (chunk + 0) chunkSize.toNat localDir).flatten.flatten
  else []

/-- The sorting steps of the workers of `order`, one after another in that order, in a round
with `a` active workers out of `W` on a sequence of `N` cells. -/
def roundInOrder (a W : Nat) (dir : Int) (N : Nat) (order : List Nat) (seq : List Int) :
    List Int :=
  order.foldl
    (fun s j => sortChunk s (chooseCommand a W dir j) ((N / a : Nat) : Int) (j * (N / a))) seq

/-! ## The scan of a text chunk (CLE1_T1G6/prog1/prog1.c, CLE2_T1G6/prog1/prog1.c)

The worker of the vowel count scans its chunk with the same code in both programs
(CLE1 prog1.c:203-246, CLE2 prog1.c:266-309). The chunk is the list of the bytes of its buffer, a
read beyond the buffer gives 0; the `unsigned int` counters are `Nat` reduced modulo `2 ^ 32`;
the index `i` is a `Nat`. -/

/-- Number of defined vowels (probConst.h:28). -/
def VOWELNUM : Nat := 6

/-- The characters considered vowels (prog1.c:32): a, e, i, o, u, y. -/
def vowels : List Nat := [0x61, 0x65, 0x69, 0x6F, 0x75, 0x79]

/-- The statement `x++` on an `unsigned int`. -/
def incU32 (x : Nat) : Nat := (x + 1) % 4294967296

/-- The variables of the scan. -/
structure Scan where
  /-- index of the next byte of the chunk -/
  i : Nat
  /-- number of words met so far -/
  wordCountPartial : Nat
  /-- for each vowel the number of words met so far that hold it -/
  vowelCountPartial : List Nat
  /-- for each vowel whether the current word already held it -/
  firstOccur : List Bool
  /-- whether the scan is inside a word -/
  inWord : Bool
  /-- number of characters met so far -/
  letterCount : Nat
  deriving DecidableEq

/-- The variables before the scan (prog1.c:204-212). -/
def scanInit : Scan :=
  { i := 0
    wordCountPartial := 0
    vowelCountPartial := List.replicate VOWELNUM 0
    firstOccur := List.replicate VOWELNUM false
    inWord := false
    letterCount := 0 }

/-- The loop `for (j = 1; j < size; j++) letter[j] = chunk[++i]` (prog1.c:218): the letter and
the index `i` after it. -/
def readLetter (chunk : List Nat) (byte size i : Nat) : List Nat × Nat :=
  forLoop (size - 1)
    (fun t st => (st.1.set (t + 1) (chunk.getD (st.2 + 1) 0), st.2 + 1)) ([byte, 0, 0, 0], i)

/-- One turn of the loop over the vowels for a character inside a word (prog1.c:225-228); the
state is `vowelCountPartial` and `firstOccur`. -/
def countInWordStep (character j : Nat) (vf : List Nat × List Bool) : List Nat × List Bool :=
  if character = vowels.getD j 0 ∧ vf.2.getD j false = false then
    (vf.1.set j (incU32 (vf.1.getD j 0)), vf.2.set j true)
  else vf

/-- The loop over the vowels for a character inside a word (prog1.c:224-229). -/
def countInWord (character : Nat) (vf : List Nat × List Bool) : List Nat × List Bool :=
  forLoop VOWELNUM (countInWordStep character) vf

/-- One turn of the loop over the vowels for the first character of a word
(prog1.c:238-242). -/
def countWordStartStep (character j : Nat) (vf : List Nat × List Bool) : List Nat × List Bool :=
  let fo := vf.2.set j false
  if character = vowels.getD j 0 then (vf.1.set j (incU32 (vf.1.getD j 0)), fo.set j true)
  else (vf.1, fo)

/-- The loop over the vowels for the first character of a word (prog1.c:237-243). -/
def countWordStart (character : Nat) (vf : List Nat × List Bool) : List Nat × List Bool :=
  forLoop VOWELNUM (countWordStartStep character) vf

/-- One turn of the loop `for (i = 0; i < chunkSize; i++)` of the scan (prog1.c:213-246), with
its `i++`. In the test `isAlpha(letter, size) || ((letter[0] == 0x5F) && (size = 1))` the
assignment `size = 1` is made when `isAlpha` fails on a letter that starts with `0x5F`, and its
value is true. -/
def scanTurn (chunk : List Nat) (s : Scan) : Scan :=
  let letterCount := incU32 s.letterCount
  let byte := chunk.getD s.i 0
  let size := getLetterSize byte
  let rd := readLetter chunk byte size s.i
  let letter := rd.1
  let i := rd.2
  if s.inWord then
    if isSeparator letter (size : Int) then
      { s with i := i + 1, inWord := false, letterCount := letterCount }
    else
      let character := isVowel letter (size : Int)
      let r := countInWord character (s.vowelCountPartial, s.firstOccur)
      { s with i := i + 1, vowelCountPartial := r.1, firstOccur := r.2, letterCount := letterCount }
  else
    if isAlpha letter (size : Int) ∨ letter.getD 0 0 = 0x5F then
      let size : Int := if isAlpha letter (size : Int) then (size : Int) else 1
      let character := isVowel letter size
      let r := countWordStart character (s.vowelCountPartial, s.firstOccur)
      { i := i + 1
        wordCountPartial := incU32 s.wordCountPartial
        vowelCountPartial := r.1
        firstOccur := r.2
        inWord := true
        letterCount := letterCount }
    else { s with i := i + 1, letterCount := letterCount }

/-- The loop `for (i = 0; i < chunkSize; i++)` of the scan, run for at most `turns` turns. -/
def scanLoop : Nat → List Nat → Nat → Scan → Scan
  | 0, _, _, s => s
  | turns + 1, chunk, chunkSize, s =>
    if s.i < chunkSize then scanLoop turns chunk chunkSize (scanTurn chunk s) else s

/-- The scan of a chunk (prog1.c:204-246): each turn moves `i` forward, so `chunkSize` turns are
enough. -/
def scan (chunk : List Nat) (chunkSize : Nat) : Scan :=
  scanLoop chunkSize chunk chunkSize scanInit

/-- What the scan keeps true between two turns: the two tables have `VOWELNUM` cells, the words
are no more than the bytes read, and each vowel has been counted in no more words than were met,
in one less while the current word still lacks it. -/
def ScanInv (chunkSize : Nat) (s : Scan) : Prop :=
  s.vowelCountPartial.length = VOWELNUM ∧ s.firstOccur.length = VOWELNUM ∧
  s.wordCountPartial ≤ s.i ∧ s.i ≤ chunkSize + 3 ∧
  ∀ j, j < VOWELNUM →
    s.vowelCountPartial.getD j 0 + (if s.inWord = true ∧ s.firstOccur.getD j false = false then 1 else 0)
      ≤ s.wordCountPartial

/-! ## Reading and writing cells -/

theorem ld_set (seq : List Int) (i j : Nat) (x : Int) :
    ld (seq.set i x) j = if i = j ∧ i < seq.length then x else ld seq j := by
  unfold ld
  simp only [List.getD_eq_getElem?_getD, List.getElem?_set]
  by_cases hij : i = j
  · subst hij
    by_cases hi : i < seq.length
    · simp [hi]
    · simp [hi, List.getElem?_eq_none (not_lt.mp hi)]
  · simp [hij]

theorem ld_of_le (seq : List Int) (i : Nat) (h : seq.length ≤ i) : ld seq i = 0 := by
  unfold ld
  simp [List.getElem?_eq_none h]

theorem CAPS_length (seq : List Int) (i j : Nat) (dir : Int) :
    (CAPS seq i j dir).length = seq.length := by
  unfold CAPS
  split_ifs <;> simp

/-- The two cells after `CAPS`, for an ascending direction: the smaller value first. -/
theorem CAPS_up (seq : List Int) (i j : Nat) (dir : Int) (hd : 0 ≤ dir)
    (hi : i < seq.length) (hj : j < seq.length) (hij : i ≠ j) :
    ld (CAPS seq i j dir) i = min (ld seq i) (ld seq j) ∧
    ld (CAPS seq i j dir) j = max (ld seq i) (ld seq j) := by
  unfold CAPS
  have hji : ¬ j = i := fun h => hij h.symm
  by_cases h : ld seq i > ld seq j
  · simp only [ge_iff_le, hd, if_true, h, ld_set, List.length_set, hi, hj, hij, hji, and_self,
      and_true, true_and, if_false, false_and]
    exact ⟨(min_eq_right (le_of_lt h)).symm, (max_eq_left (le_of_lt h)).symm⟩
  · simp only [ge_iff_le, hd, if_true, h, if_false]
    exact ⟨(min_eq_left (not_lt.mp h)).symm, (max_eq_right (not_lt.mp h)).symm⟩

/-- The two cells after `CAPS`, for a descending direction: the larger value first. -/
theorem CAPS_down (seq : List Int) (i j : Nat) (dir : Int) (hd : dir < 0)
    (hi : i < seq.length) (hj : j < seq.length) (hij : i ≠ j) :
    ld (CAPS seq i j dir) i = max (ld seq i) (ld seq j) ∧
    ld (CAPS seq i j dir) j = min (ld seq i) (ld seq j) := by
  unfold CAPS
  have hji : ¬ j = i := fun h => hij h.symm
  have hd' : ¬ dir ≥ 0 := not_le.mpr hd
  by_cases h : ld seq i < ld seq j
  · simp only [hd', if_false, h, if_true, ld_set, List.length_set, hi, hj, hij, hji, and_self,
      and_true, true_and, false_and]
    exact ⟨(max_eq_right (le_of_lt h)).symm, (min_eq_left (le_of_lt h)).symm⟩
  · simp only [hd', if_false, h]
    exact ⟨(max_eq_left (not_lt.mp h)).symm, (min_eq_right (not_lt.mp h)).symm⟩

/-- Cells other than the two compared ones are not written by `CAPS`. -/
theorem CAPS_other (seq : List Int) (i j k : Nat) (dir : Int) (hi : k ≠ i) (hj : k ≠ j) :
    ld (CAPS seq i j dir) k = ld seq k := by
  unfold CAPS
  have h1 : ¬ i = k := fun h => hi h.symm
  have h2 : ¬ j = k := fun h => hj h.symm
  split_ifs <;> simp [ld_set, h1, h2]

/-- After `CAPS` the two cells are in order for `dir`, whatever the indices. -/
theorem CAPS_ordered (seq : List Int) (i j : Nat) (dir : Int) :
    (0 ≤ dir → ld (CAPS seq i j dir) i ≤ ld (CAPS seq i j dir) j) ∧
    (dir < 0 → ld (CAPS seq i j dir) j ≤ ld (CAPS seq i j dir) i) := by
  unfold CAPS
  constructor
  · intro hd
    simp only [ge_iff_le, hd, if_true]
    by_cases h : ld seq i > ld seq j
    · simp only [h, if_true, ld_set, List.length_set]
      by_cases hi : i < seq.length <;> by_cases hj : j < seq.length <;> by_cases hij : i = j <;>
        simp_all [ld_of_le, eq_comm] <;> omega
    · simp only [h, if_false]
      exact not_lt.mp h
  · intro hd
    have hd' : ¬ dir ≥ 0 := not_le.mpr hd
    simp only [hd', if_false]
    by_cases h : ld seq i < ld seq j
    · simp only [h, if_true, ld_set, List.length_set]
      by_cases hi : i < seq.length <;> by_cases hj : j < seq.length <;> by_cases hij : i = j <;>
        simp_all [ld_of_le, eq_comm] <;> omega
    · simp only [h, if_false]
      exact not_lt.mp h

/-! ## Thresholded bitonic shapes -/

theorem bit01_const_true (Q : Nat → Prop) (n : Nat) (h : ∀ i, i < n → Q i) : Bit01 Q n :=
  ⟨0, n, Nat.zero_le _, le_refl _, Or.inl fun i hi => ⟨fun _ => ⟨Nat.zero_le _, hi⟩, fun _ => h i hi⟩⟩

theorem bit01_const_false (Q : Nat → Prop) (n : Nat) (h : ∀ i, i < n → ¬ Q i) : Bit01 Q n :=
  ⟨0, n, Nat.zero_le _, le_refl _, Or.inr fun i hi => ⟨fun _ => ⟨Nat.zero_le _, hi⟩, fun _ => h i hi⟩⟩

theorem halfclean (Q : Nat → Prop) (v : Nat) (h : Bit01 Q (2 * v)) :
    Bit01 (fun t => Q t ∧ Q (t + v)) v ∧ Bit01 (fun t => Q t ∨ Q (t + v)) v ∧
    ((∀ t, t < v → ¬ (Q t ∧ Q (t + v))) ∨ (∀ t, t < v → (Q t ∨ Q (t + v)))) := by
  obtain ⟨p, q, hpq, hq, h | h⟩ := h
  · by_cases hc : q ≤ p + v
    · have hlo : ∀ t, t < v → ¬ (Q t ∧ Q (t + v)) := by
        intro t ht
        rw [h t (by omega), h (t + v) (by omega)]; omega
      refine ⟨bit01_const_false _ _ hlo, ?_, Or.inl hlo⟩
      by_cases h1 : q ≤ v
      · exact ⟨p, q, hpq, h1, Or.inl fun t ht => by
          beta_reduce
          rw [h t (by omega), h (t + v) (by omega)]; omega⟩
      · by_cases h2 : v ≤ p
        · exact ⟨p - v, q - v, by omega, by omega, Or.inl fun t ht => by
            beta_reduce
            rw [h t (by omega), h (t + v) (by omega)]; omega⟩
        · exact ⟨q - v, p, by omega, by omega, Or.inr fun t ht => by
            beta_reduce
            rw [h t (by omega), h (t + v) (by omega)]; omega⟩
    · have hhi : ∀ t, t < v → (Q t ∨ Q (t + v)) := by
        intro t ht
        rw [h t (by omega), h (t + v) (by omega)]; omega
      refine ⟨?_, bit01_const_true _ _ hhi, Or.inr hhi⟩
      exact ⟨p, q - v, by omega, by omega, Or.inl fun t ht => by
        beta_reduce
        rw [h t (by omega), h (t + v) (by omega)]; omega⟩
  · have h' : ∀ i, i < 2 * v → (Q i ↔ ¬ (p ≤ i ∧ i < q)) := fun i hi => by
      rw [← h i hi]; exact not_not.symm
    by_cases hc : q ≤ p + v
    · have hhi : ∀ t, t < v → (Q t ∨ Q (t + v)) := by
        intro t ht
        rw [h' t (by omega), h' (t + v) (by omega)]; omega
      refine ⟨?_, bit01_const_true _ _ hhi, Or.inr hhi⟩
      by_cases h1 : q ≤ v
      · exact ⟨p, q, hpq, h1, Or.inr fun t ht => by
          beta_reduce
          rw [h' t (by omega), h' (t + v) (by omega)]; omega⟩
      · by_cases h2 : v ≤ p
        · exact ⟨p - v, q - v, by omega, by omega, Or.inr fun t ht => by
            beta_reduce
            rw [h' t (by omega), h' (t + v) (by omega)]; omega⟩
        · exact ⟨q - v, p, by omega, by omega, Or.inl fun t ht => by
            beta_reduce
            rw [h' t (by omega), h' (t + v) (by omega)]; omega⟩
    · have hlo : ∀ t, t < v → ¬ (Q t ∧ Q (t + v)) := by
        intro t ht
        rw [h' t (by omega), h' (t + v) (by omega)]; omega
      refine ⟨bit01_const_false _ _ hlo, ?_, Or.inl hlo⟩
      exact ⟨p, q - v, by omega, by omega, Or.inr fun t ht => by
        beta_reduce
        rw [h' t (by omega), h' (t + v) (by omega)]; omega⟩

theorem bit01_congr (Q R : Nat → Prop) (n : Nat) (h : ∀ i, i < n → (Q i ↔ R i))
    (hQ : Bit01 Q n) : Bit01 R n := by
  obtain ⟨p, q, hpq, hq, hQ | hQ⟩ := hQ
  · exact ⟨p, q, hpq, hq, Or.inl fun i hi => by rw [← h i hi]; exact hQ i hi⟩
  · exact ⟨p, q, hpq, hq, Or.inr fun i hi => by rw [← h i hi]; exact hQ i hi⟩

theorem up_loV (dir c a b : Int) : up dir c (loV dir a b) ↔ up dir c a ∧ up dir c b := by
  unfold up loV
  split_ifs
  · exact le_min_iff
  · exact max_le_iff

theorem up_hiV (dir c a b : Int) : up dir c (hiV dir a b) ↔ up dir c a ∨ up dir c b := by
  unfold up hiV
  split_ifs
  · exact le_max_iff
  · exact min_le_iff

theorem exists_threshold_up (Q : Nat → Prop) : ∀ m, (∀ i j, i ≤ j → j < m → Q i → Q j) →
    ∃ p, p ≤ m ∧ ∀ i, i < m → (Q i ↔ p ≤ i) := by
  intro m
  induction m with
  | zero => exact fun _ => ⟨0, le_refl _, fun i hi => absurd hi (Nat.not_lt_zero _)⟩
  | succ m ih =>
    intro h
    obtain ⟨p, hp, hP⟩ := ih (fun i j hij hj => h i j hij (by omega))
    by_cases hpm : p < m
    · refine ⟨p, by omega, fun i hi => ?_⟩
      by_cases him : i < m
      · exact hP i him
      · have : i = m := by omega
        subst this
        exact ⟨fun _ => by omega, fun _ => h p i (by omega) (by omega) ((hP p hpm).mpr (le_refl _))⟩
    · by_cases hQ : Q m
      · refine ⟨m, by omega, fun i hi => ?_⟩
        by_cases him : i < m
        · rw [hP i him]; omega
        · have : i = m := by omega
          subst this
          exact ⟨fun _ => le_refl _, fun _ => hQ⟩
      · refine ⟨m + 1, le_refl _, fun i hi => ?_⟩
        by_cases him : i < m
        · rw [hP i him]; omega
        · have : i = m := by omega
          subst this
          exact ⟨fun h' => absurd h' hQ, fun h' => by omega⟩

theorem exists_threshold_down (Q : Nat → Prop) (lo : Nat) : ∀ m,
    (∀ i j, lo ≤ i → i ≤ j → j < lo + m → Q j → Q i) →
    ∃ q, lo ≤ q ∧ q ≤ lo + m ∧ ∀ i, lo ≤ i → i < lo + m → (Q i ↔ i < q) := by
  intro m
  induction m with
  | zero => exact fun _ => ⟨lo, le_refl _, le_refl _, fun i h1 h2 => by omega⟩
  | succ m ih =>
    intro h
    obtain ⟨q, hq1, hq2, hP⟩ := ih (fun i j hi hij hj => h i j hi hij (by omega))
    by_cases hQ : Q (lo + m)
    · refine ⟨lo + m + 1, by omega, by omega, fun i h1 h2 => ?_⟩
      exact ⟨fun _ => h2, fun _ => h i (lo + m) h1 (by omega) (by omega) hQ⟩
    · refine ⟨q, hq1, by omega, fun i h1 h2 => ?_⟩
      by_cases him : i < lo + m
      · exact hP i h1 him
      · have : i = lo + m := by omega
        subst this
        exact ⟨fun h' => absurd h' hQ, fun h' => by omega⟩

/-- A predicate that is upward closed on `[0, na)` and downward closed on `[na, na + m)` holds
exactly on one interval. -/
theorem interval_of_up_down (Q : Nat → Prop) (na m : Nat)
    (hup : ∀ i j, i ≤ j → j < na → Q i → Q j)
    (hdown : ∀ i j, na ≤ i → i ≤ j → j < na + m → Q j → Q i) :
    ∃ p q, p ≤ q ∧ q ≤ na + m ∧ ∀ i, i < na + m → (Q i ↔ p ≤ i ∧ i < q) := by
  obtain ⟨p, hp, hP⟩ := exists_threshold_up Q na hup
  obtain ⟨q, hq1, hq2, hR⟩ := exists_threshold_down Q na m hdown
  refine ⟨p, q, by omega, hq2, fun i hi => ?_⟩
  by_cases hia : i < na
  · rw [hP i hia]; omega
  · rw [hR i (by omega) hi]; omega

theorem bit01_not (Q : Nat → Prop) (n : Nat) (h : Bit01 (fun i => ¬ Q i) n) : Bit01 Q n := by
  obtain ⟨p, q, hpq, hq, h | h⟩ := h
  · exact ⟨p, q, hpq, hq, Or.inr h⟩
  · exact ⟨p, q, hpq, hq, Or.inl fun i hi => by rw [← h i hi]; exact not_not.symm⟩

theorem mod_add_lt (i r n : Nat) (hi : i < n) (hr : r < n) :
    (i + r) % n = if i + r < n then i + r else i + r - n := by
  split_ifs with h
  · exact Nat.mod_eq_of_lt h
  · rw [Nat.mod_eq_sub_mod (by omega)]
    exact Nat.mod_eq_of_lt (by omega)

theorem bit01_rotate_ones (Q : Nat → Prop) (n r p q : Nat) (hr : r < n) (hpq : p ≤ q) (hq : q ≤ n)
    (h : ∀ i, i < n → (Q i ↔ p ≤ i ∧ i < q)) : Bit01 (fun i => Q ((i + r) % n)) n := by
  have key : ∀ i, i < n → (Q ((i + r) % n) ↔
      (i + r < n ∧ p ≤ i + r ∧ i + r < q) ∨ (n ≤ i + r ∧ p + n ≤ i + r ∧ i + r < q + n)) := by
    intro i hi
    rw [mod_add_lt i r n hi hr]
    split_ifs with hc
    · rw [h _ hc]; omega
    · rw [h _ (by omega)]; omega
  by_cases h1 : r ≤ p
  · exact ⟨p - r, q - r, by omega, by omega, Or.inl fun i hi => by
      beta_reduce
      rw [key i hi]; omega⟩
  · by_cases h2 : q ≤ r
    · exact ⟨p + n - r, q + n - r, by omega, by omega, Or.inl fun i hi => by
        beta_reduce
        rw [key i hi]; omega⟩
    · exact ⟨q - r, p + n - r, by omega, by omega, Or.inr fun i hi => by
        beta_reduce
        rw [key i hi]; omega⟩

theorem bit01_rotate (Q : Nat → Prop) (n r : Nat) (h : Bit01 Q n) :
    Bit01 (fun i => Q ((i + r) % n)) n := by
  by_cases hn : n = 0
  · subst hn
    exact ⟨0, 0, le_refl _, le_refl _, Or.inl fun i hi => absurd hi (Nat.not_lt_zero _)⟩
  have hr : r % n < n := Nat.mod_lt _ (Nat.pos_of_ne_zero hn)
  have hmod : ∀ i, (i + r) % n = (i + r % n) % n := fun i => by rw [Nat.add_mod_mod]
  obtain ⟨p, q, hpq, hq, h | h⟩ := h
  · have := bit01_rotate_ones Q n (r % n) p q hr hpq hq h
    exact bit01_congr _ _ n (fun i _ => by rw [hmod i]) this
  · have := bit01_rotate_ones (fun i => ¬ Q i) n (r % n) p q hr hpq hq h
    exact bit01_not _ n (bit01_congr _ _ n (fun i _ => by beta_reduce; rw [hmod i]) this)

/-- The compared pair after `CAPS`, in either direction. -/
theorem CAPS_pair (seq : List Int) (i j : Nat) (dir : Int)
    (hi : i < seq.length) (hj : j < seq.length) (hij : i ≠ j) :
    ld (CAPS seq i j dir) i = loV dir (ld seq i) (ld seq j) ∧
    ld (CAPS seq i j dir) j = hiV dir (ld seq i) (ld seq j) := by
  unfold loV hiV
  by_cases hd : 0 ≤ dir
  · simpa [hd] using CAPS_up seq i j dir hd hi hj hij
  · simpa [hd] using CAPS_down seq i j dir (not_le.mp hd) hi hj hij

/-! ## The loops of `bitonicMerge` -/

theorem forLoop_succ_first {σ : Type} (f : σ → σ) (n : Nat) (s : σ) :
    forLoop (n + 1) (fun _ => f) s = forLoop n (fun _ => f) (f s) := by
  induction n with
  | zero => rfl
  | succ n ih =>
    show f (forLoop (n + 1) (fun _ => f) s) = f (forLoop n (fun _ => f) (f s))
    rw [ih]

/-- The first `T` steps of the inner loop on the group at offset `u`. -/
theorem mergeGroup_steps (seq : List Int) (low u v : Nat) (dir : Int)
    (hb : low + u + 2 * v ≤ seq.length) (T : Nat) (hT : T ≤ v) :
    (forLoop T (fun t s => CAPS s (low + t + u) (low + t + u + v) dir) seq).length = seq.length ∧
    (∀ t, t < T →
      ld (forLoop T (fun t s => CAPS s (low + t + u) (low + t + u + v) dir) seq) (low + u + t)
        = loV dir (ld seq (low + u + t)) (ld seq (low + u + t + v)) ∧
      ld (forLoop T (fun t s => CAPS s (low + t + u) (low + t + u + v) dir) seq) (low + u + t + v)
        = hiV dir (ld seq (low + u + t)) (ld seq (low + u + t + v))) ∧
    (∀ k, (∀ t, t < T → k ≠ low + u + t ∧ k ≠ low + u + t + v) →
      ld (forLoop T (fun t s => CAPS s (low + t + u) (low + t + u + v) dir) seq) k = ld seq k) := by
  induction T with
  | zero =>
    refine ⟨rfl, fun t ht => absurd ht (Nat.not_lt_zero _), fun k _ => rfl⟩
  | succ T ih =>
    obtain ⟨hlen, hval, hfr⟩ := ih (by omega)
    show (CAPS _ _ _ dir).length = _ ∧ (∀ t, t < T + 1 → ld (CAPS _ _ _ dir) _ = _ ∧
      ld (CAPS _ _ _ dir) _ = _) ∧ (∀ k, _ → ld (CAPS _ _ _ dir) k = _)
    refine ⟨by rw [CAPS_length, hlen], ?_, ?_⟩
    · intro t ht
      by_cases htT : t = T
      · subst htT
        have hp := CAPS_pair (forLoop t (fun t s => CAPS s (low + t + u) (low + t + u + v) dir) seq)
          (low + t + u) (low + t + u + v) dir (by omega) (by omega) (by omega)
        have e1 := hfr (low + t + u) (fun t' ht' => by omega)
        have e2 := hfr (low + t + u + v) (fun t' ht' => by omega)
        rw [e1, e2] at hp
        have a1 : low + u + t = low + t + u := by omega
        rw [a1]
        exact hp
      · have ht' : t < T := by omega
        rw [CAPS_other _ _ _ _ _ (by omega) (by omega), CAPS_other _ _ _ _ _ (by omega) (by omega)]
        exact hval t ht'
    · intro k hk
      have hkT := hk T (by omega)
      rw [CAPS_other _ _ _ _ _ (by omega) (by omega)]
      exact hfr k (fun t ht => hk t (by omega))

/-- One group of one level: the pairs `(t, t + v)` of the group are put in order, the rest of
the array is not written. -/
theorem mergeGroup_spec (seq : List Int) (low u v : Nat) (dir : Int)
    (hb : low + u + 2 * v ≤ seq.length) :
    (mergeGroup seq low u v dir).length = seq.length ∧
    (∀ t, t < v →
      ld (mergeGroup seq low u v dir) (low + u + t)
        = loV dir (ld seq (low + u + t)) (ld seq (low + u + t + v)) ∧
      ld (mergeGroup seq low u v dir) (low + u + t + v)
        = hiV dir (ld seq (low + u + t)) (ld seq (low + u + t + v))) ∧
    (∀ k, k < low + u ∨ low + u + 2 * v ≤ k → ld (mergeGroup seq low u v dir) k = ld seq k) := by
  obtain ⟨h1, h2, h3⟩ := mergeGroup_steps seq low u v dir hb v (le_refl _)
  exact ⟨h1, h2, fun k hk => h3 k (fun t ht => by omega)⟩

theorem succ_mul_le (g G b : Nat) (h : g < G) : g * b + b ≤ G * b := by
  have := Nat.mul_le_mul_right b (Nat.succ_le_of_lt h)
  rwa [Nat.succ_mul] at this

/-- The first `G` groups of one level. -/
theorem mergeLevel_steps (seq : List Int) (low v nL : Nat) (dir : Int)
    (hb : low + nL * (2 * v) ≤ seq.length) (G : Nat) (hG : G ≤ nL) :
    (forLoop G (fun _ su => (mergeGroup su.1 low su.2 v dir, su.2 + (v <<< 1))) (seq, 0)).2
      = G * (2 * v) ∧
    (forLoop G (fun _ su => (mergeGroup su.1 low su.2 v dir, su.2 + (v <<< 1))) (seq, 0)).1.length
      = seq.length ∧
    (∀ g t, g < G → t < v →
      ld (forLoop G (fun _ su => (mergeGroup su.1 low su.2 v dir, su.2 + (v <<< 1))) (seq, 0)).1
          (low + g * (2 * v) + t)
        = loV dir (ld seq (low + g * (2 * v) + t)) (ld seq (low + g * (2 * v) + t + v)) ∧
      ld (forLoop G (fun _ su => (mergeGroup su.1 low su.2 v dir, su.2 + (v <<< 1))) (seq, 0)).1
          (low + g * (2 * v) + t + v)
        = hiV dir (ld seq (low + g * (2 * v) + t)) (ld seq (low + g * (2 * v) + t + v))) ∧
    (∀ k, k < low ∨ low + G * (2 * v) ≤ k →
      ld (forLoop G (fun _ su => (mergeGroup su.1 low su.2 v dir, su.2 + (v <<< 1))) (seq, 0)).1 k
        = ld seq k) := by
  induction G with
  | zero => exact ⟨by simp [forLoop], rfl, fun g t hg => absurd hg (Nat.not_lt_zero _), fun k _ => rfl⟩
  | succ G ih =>
    obtain ⟨hu, hlen, hval, hfr⟩ := ih (by omega)
    have hGb : G * (2 * v) + 2 * v ≤ nL * (2 * v) := succ_mul_le G nL (2 * v) (by omega)
    have hsucc : (G + 1) * (2 * v) = G * (2 * v) + 2 * v := Nat.succ_mul _ _
    obtain ⟨g1, g2, g3⟩ := mergeGroup_spec
      (forLoop G (fun _ su => (mergeGroup su.1 low su.2 v dir, su.2 + (v <<< 1))) (seq, 0)).1
      low (G * (2 * v)) v dir (by rw [hlen]; omega)
    show (_ + (v <<< 1)) = _ ∧ (mergeGroup _ low _ v dir).length = _ ∧
      (∀ g t, g < G + 1 → t < v → ld (mergeGroup _ low _ v dir) _ = _ ∧
        ld (mergeGroup _ low _ v dir) _ = _) ∧
      (∀ k, _ → ld (mergeGroup _ low _ v dir) k = _)
    rw [hu]
    refine ⟨by rw [Nat.shiftLeft_eq]; omega, by rw [g1, hlen], ?_, ?_⟩
    · intro g t hg ht
      by_cases hgG : g = G
      · subst hgG
        have h := g2 t ht
        rw [hfr _ (Or.inr (by omega)), hfr _ (Or.inr (by omega))] at h
        exact h
      · have hlt : g * (2 * v) + 2 * v ≤ G * (2 * v) := succ_mul_le g G (2 * v) (by omega)
        rw [g3 _ (Or.inl (by omega)), g3 _ (Or.inl (by omega))]
        exact hval g t (by omega) ht
    · intro k hk
      rw [g3 k (by omega)]
      exact hfr k (by omega)

/-- One level of the network: in each of the `nL` groups of `2 * v` cells the pairs `(t, t + v)`
are put in order; the cells outside the `nL` groups are not written. -/
theorem mergeLevel_spec (seq : List Int) (low v nL : Nat) (dir : Int)
    (hb : low + nL * (2 * v) ≤ seq.length) :
    (mergeLevel seq low v nL dir).1.length = seq.length ∧
    (∀ g t, g < nL → t < v →
      ld (mergeLevel seq low v nL dir).1 (low + g * (2 * v) + t)
        = loV dir (ld seq (low + g * (2 * v) + t)) (ld seq (low + g * (2 * v) + t + v)) ∧
      ld (mergeLevel seq low v nL dir).1 (low + g * (2 * v) + t + v)
        = hiV dir (ld seq (low + g * (2 * v) + t)) (ld seq (low + g * (2 * v) + t + v))) ∧
    (∀ k, k < low ∨ low + nL * (2 * v) ≤ k → ld (mergeLevel seq low v nL dir).1 k = ld seq k) :=
  (mergeLevel_steps seq low v nL dir hb nL (le_refl _)).2

theorem mergeLevels_succ (k : Nat) (seq : List Int) (low v nL : Nat) (dir : Int) :
    mergeLevels (k + 1) seq low v nL dir
      = mergeLevels k (mergeLevel seq low v nL dir).1 low (v >>> 1) (nL <<< 1) dir := by
  unfold mergeLevels
  rw [forLoop_succ_first]

/-- One level seen through a threshold: the first half of a group receives the conjunction of
the two halves, the second half their disjunction. -/
theorem mergeLevel_up (seq : List Int) (low v nL : Nat) (dir c : Int)
    (hb : low + nL * (2 * v) ≤ seq.length) (g : Nat) (hg : g < nL) (i : Nat)
    (h1 : low + g * (2 * v) ≤ i) (h2 : i < low + g * (2 * v) + v) :
    (up dir c (ld (mergeLevel seq low v nL dir).1 i)
      ↔ up dir c (ld seq i) ∧ up dir c (ld seq (i + v))) ∧
    (up dir c (ld (mergeLevel seq low v nL dir).1 (i + v))
      ↔ up dir c (ld seq i) ∨ up dir c (ld seq (i + v))) := by
  obtain ⟨_, hval, _⟩ := mergeLevel_spec seq low v nL dir hb
  have hi : i = low + g * (2 * v) + (i - (low + g * (2 * v))) := by omega
  obtain ⟨e1, e2⟩ := hval g (i - (low + g * (2 * v))) hg (by omega)
  rw [← hi] at e1 e2
  rw [e1, e2, up_loV, up_hiV]
  exact ⟨Iff.rfl, Iff.rfl⟩

/-- The last `k` levels of the network, run on `nL` blocks of `2 ^ k` cells starting at `low`:
each block is treated on its own, and a block of bitonic shape comes out sorted. -/
theorem mergeLevels_spec (dir c : Int) (k : Nat) : ∀ (seq : List Int) (low nL : Nat),
    low + nL * 2 ^ k ≤ seq.length →
    (mergeLevels k seq low (2 ^ k / 2) nL dir).1.length = seq.length ∧
    (∀ i, i < low ∨ low + nL * 2 ^ k ≤ i →
      ld (mergeLevels k seq low (2 ^ k / 2) nL dir).1 i = ld seq i) ∧
    (∀ g, g < nL →
      BlockOK dir c seq (mergeLevels k seq low (2 ^ k / 2) nL dir).1 (low + g * 2 ^ k) (2 ^ k)) := by
  induction k with
  | zero =>
    intro seq low nL _
    refine ⟨rfl, fun i _ => rfl, fun g _ => ⟨fun h => h, fun h => h, ?_⟩⟩
    intro _ i j h1 h2 h3 h
    have : i = j := by
      have : (2 : Nat) ^ 0 = 1 := rfl
      omega
    rw [← this]
    exact h
  | succ k ih =>
    intro seq low nL hb
    have hV : 2 ^ (k + 1) = 2 * 2 ^ k := by rw [pow_succ]; exact Nat.mul_comm _ _
    rw [hV] at hb ⊢
    have hv : 2 * 2 ^ k / 2 = 2 ^ k := by omega
    have hsr : (2 ^ k) >>> 1 = 2 ^ k / 2 := by rw [Nat.shiftRight_eq_div_pow, pow_one]
    have hsl : nL <<< 1 = 2 * nL := by rw [Nat.shiftLeft_eq]; omega
    rw [mergeLevels_succ, hv, hsr, hsl]
    obtain ⟨l1, _, l3⟩ := mergeLevel_spec seq low (2 ^ k) nL dir hb
    have hnl : 2 * nL * 2 ^ k = nL * (2 * 2 ^ k) := by ring
    obtain ⟨i1, i2, i3⟩ := ih (mergeLevel seq low (2 ^ k) nL dir).1 low (2 * nL)
      (by rw [l1, hnl]; exact hb)
    refine ⟨by rw [i1, l1], fun i hi => by rw [i2 i (by omega), l3 i (by omega)], ?_⟩
    intro g hg
    have hgb : g * (2 * 2 ^ k) + 2 * 2 ^ k ≤ nL * (2 * 2 ^ k) := succ_mul_le g nL _ hg
    have ea : low + 2 * g * 2 ^ k = low + g * (2 * 2 ^ k) := by
      have : 2 * g * 2 ^ k = g * (2 * 2 ^ k) := by ring
      omega
    have eb : low + (2 * g + 1) * 2 ^ k = low + g * (2 * 2 ^ k) + 2 ^ k := by
      have : (2 * g + 1) * 2 ^ k = g * (2 * 2 ^ k) + 2 ^ k := by ring
      omega
    have Ia := i3 (2 * g) (by omega)
    have Ib := i3 (2 * g + 1) (by omega)
    rw [ea] at Ia
    rw [eb] at Ib
    have hup := mergeLevel_up seq low (2 ^ k) nL dir c hb g hg
    generalize low + g * (2 * 2 ^ k) = b at Ia Ib hup ⊢
    generalize (mergeLevels k (mergeLevel seq low (2 ^ k) nL dir).1 low (2 ^ k / 2) (2 * nL) dir).1
      = r at Ia Ib ⊢
    generalize (mergeLevel seq low (2 ^ k) nL dir).1 = s1 at Ia Ib hup
    generalize 2 ^ k = V at Ia Ib hup ⊢
    obtain ⟨aT, aF, aS⟩ := Ia
    obtain ⟨bT, bF, bS⟩ := Ib
    refine ⟨?_, ?_, ?_⟩
    · intro h i hi1 hi2
      by_cases hlt : i < b + V
      · refine aT (fun x hx1 hx2 => ?_) i hi1 hlt
        exact (hup x hx1 hx2).1.mpr ⟨h x hx1 (by omega), h (x + V) (by omega) (by omega)⟩
      · refine bT (fun x hx1 hx2 => ?_) i (by omega) (by omega)
        have hx : x = (x - V) + V := by omega
        rw [hx]
        exact (hup (x - V) (by omega) (by omega)).2.mpr (Or.inl (h (x - V) (by omega) (by omega)))
    · intro h i hi1 hi2
      by_cases hlt : i < b + V
      · refine aF (fun x hx1 hx2 => ?_) i hi1 hlt
        exact fun hc => h x hx1 (by omega) ((hup x hx1 hx2).1.mp hc).1
      · refine bF (fun x hx1 hx2 => ?_) i (by omega) (by omega)
        have hx : x = (x - V) + V := by omega
        rw [hx]
        intro hc
        rcases (hup (x - V) (by omega) (by omega)).2.mp hc with h' | h'
        · exact h (x - V) (by omega) (by omega) h'
        · rw [← hx] at h'
          exact h x (by omega) (by omega) h'
    · intro hbit
      obtain ⟨hlo, hhi, hsep⟩ := halfclean _ V hbit
      have sa := aS (bit01_congr _ _ V (fun t ht => by
        rw [(hup (b + t) (by omega) (by omega)).1, Nat.add_assoc]) hlo)
      have sb := bS (bit01_congr _ _ V (fun t ht => by
        rw [Nat.add_right_comm b V t, (hup (b + t) (by omega) (by omega)).2, Nat.add_assoc]) hhi)
      have hcross : (∀ i, b ≤ i → i < b + V → ¬ up dir c (ld r i)) ∨
          (∀ i, b + V ≤ i → i < b + V + V → up dir c (ld r i)) := by
        rcases hsep with hs | hs
        · left
          refine aF (fun x hx1 hx2 => ?_)
          have := hs (x - b) (by omega)
          beta_reduce at this
          have hx : b + (x - b) = x := by omega
          have hx3 : b + (x - b + V) = x + V := by omega
          rwa [hx, hx3, ← (hup x hx1 hx2).1] at this
        · right
          refine bT (fun x hx1 hx2 => ?_)
          have := hs (x - V - b) (by omega)
          beta_reduce at this
          have hx : b + (x - V - b) = x - V := by omega
          have hx2 : b + (x - V - b + V) = x - V + V := by omega
          rw [hx, hx2, ← (hup (x - V) (by omega) (by omega)).2] at this
          have hx3 : x - V + V = x := by omega
          rwa [hx3] at this
      intro i j hi hij hj hui
      by_cases hjl : j < b + V
      · exact sa i j hi hij hjl hui
      · by_cases hil : i < b + V
        · rcases hcross with hc | hc
          · exact absurd hui (hc i hi hil)
          · exact hc j (by omega) (by omega)
        · exact sb i j (by omega) hij (by omega) hui

/-! ## Lists and their cells -/

theorem ld_eq_getElem (l : List Int) (i : Nat) (h : i < l.length) : ld l i = l[i] := by
  unfold ld
  simp [List.getElem?_eq_getElem h]

theorem ld_slice (seq : List Int) (low N i : Nat) (hi : i < N) :
    ld (slice seq low N) i = ld seq (low + i) := by
  unfold ld slice
  simp [List.getElem?_take, hi, List.getElem?_drop]

theorem slice_length (seq : List Int) (low N : Nat) (h : low + N ≤ seq.length) :
    (slice seq low N).length = N := by
  unfold slice
  simp
  omega

theorem ld_append (a b : List Int) (i : Nat) :
    ld (a ++ b) i = if i < a.length then ld a i else ld b (i - a.length) := by
  unfold ld
  simp only [List.getD_eq_getElem?_getD, List.getElem?_append]
  split_ifs <;> rfl

theorem ld_rotate (l : List Int) (r i : Nat) (hi : i < l.length) :
    ld (l.rotate r) i = ld l ((i + r) % l.length) := by
  unfold ld
  simp only [List.getD_eq_getElem?_getD, List.getElem?_rotate hi]

theorem sorted_le_ld (a : List Int) (h : List.Sorted (· ≤ ·) a) (i j : Nat) (hij : i ≤ j)
    (hj : j < a.length) : ld a i ≤ ld a j := by
  rw [ld_eq_getElem a i (by omega), ld_eq_getElem a j hj]
  rcases Nat.lt_or_ge i j with hlt | hge
  · exact (List.pairwise_iff_getElem.mp h) i j (by omega) hj hlt
  · have : i = j := by omega
    subst this
    exact le_refl _

theorem sorted_ge_ld (a : List Int) (h : List.Sorted (· ≥ ·) a) (i j : Nat) (hij : i ≤ j)
    (hj : j < a.length) : ld a j ≤ ld a i := by
  rw [ld_eq_getElem a i (by omega), ld_eq_getElem a j hj]
  rcases Nat.lt_or_ge i j with hlt | hge
  · exact (List.pairwise_iff_getElem.mp h) i j (by omega) hj hlt
  · have : i = j := by omega
    subst this
    exact le_refl _

theorem sorted_le_of_ld (l : List Int) (h : ∀ i j, i ≤ j → j < l.length → ld l i ≤ ld l j) :
    List.Sorted (· ≤ ·) l := by
  refine List.pairwise_iff_getElem.mpr fun i j hi hj hij => ?_
  rw [← ld_eq_getElem l i hi, ← ld_eq_getElem l j hj]
  exact h i j (by omega) hj

theorem sorted_ge_of_ld (l : List Int) (h : ∀ i j, i ≤ j → j < l.length → ld l j ≤ ld l i) :
    List.Sorted (· ≥ ·) l := by
  refine List.pairwise_iff_getElem.mpr fun i j hi hj hij => ?_
  rw [← ld_eq_getElem l i hi, ← ld_eq_getElem l j hj]
  exact h i j (by omega) hj

theorem up_refl (dir c : Int) : up dir c c := by
  unfold up
  split_ifs <;> exact le_refl _

theorem up_of_le (dir c x y : Int) (hd : 0 ≤ dir) (hxy : x ≤ y) (h : up dir c x) : up dir c y := by
  unfold up at *
  simp only [hd, if_true] at *
  exact le_trans h hxy

theorem up_of_ge (dir c x y : Int) (hd : dir < 0) (hxy : y ≤ x) (h : up dir c x) : up dir c y := by
  unfold up at *
  have hd' : ¬ 0 ≤ dir := not_le.mpr hd
  simp only [hd', if_false] at *
  exact le_trans hxy h

/-- A bitonic sequence has the bitonic shape through every threshold, in both directions. -/
theorem isBitonic_bit01 (l : List Int) (h : IsBitonic l) (dir c : Int) :
    Bit01 (fun t => up dir c (ld l t)) l.length := by
  obtain ⟨a, b, r, ha, hb, rfl⟩ := h
  rw [List.length_rotate]
  refine bit01_congr (fun i => up dir c (ld (a ++ b) ((i + r) % (a ++ b).length))) _ _
    (fun i hi => by rw [ld_rotate _ _ _ hi]) ?_
  refine bit01_rotate (fun j => up dir c (ld (a ++ b) j)) _ r ?_
  rw [List.length_append]
  have hl : ∀ i, i < a.length → ld (a ++ b) i = ld a i := fun i hi => by
    rw [ld_append, if_pos hi]
  have hr : ∀ i, a.length ≤ i → ld (a ++ b) i = ld b (i - a.length) := fun i hi => by
    rw [ld_append, if_neg (by omega)]
  by_cases hd : 0 ≤ dir
  · obtain ⟨p, q, hpq, hq, hP⟩ := interval_of_up_down (fun j => up dir c (ld (a ++ b) j))
      a.length b.length
      (fun i j hij hj hi => by
        beta_reduce at hi ⊢
        rw [hl i (by omega)] at hi
        rw [hl j hj]
        exact up_of_le dir c _ _ hd (sorted_le_ld a ha i j hij hj) hi)
      (fun i j hia hij hj hjj => by
        beta_reduce at hjj ⊢
        rw [hr j (by omega)] at hjj
        rw [hr i hia]
        exact up_of_le dir c _ _ hd
          (sorted_ge_ld b hb (i - a.length) (j - a.length) (by omega) (by omega)) hjj)
    exact ⟨p, q, hpq, hq, Or.inl hP⟩
  · have hd' : dir < 0 := not_le.mp hd
    obtain ⟨p, q, hpq, hq, hP⟩ := interval_of_up_down (fun j => ¬ up dir c (ld (a ++ b) j))
      a.length b.length
      (fun i j hij hj hi => by
        beta_reduce at hi ⊢
        intro hc
        apply hi
        rw [hl j hj] at hc
        rw [hl i (by omega)]
        exact up_of_ge dir c _ _ hd' (sorted_le_ld a ha i j hij hj) hc)
      (fun i j hia hij hj hjj => by
        beta_reduce at hjj ⊢
        intro hc
        apply hjj
        rw [hr i hia] at hc
        rw [hr j (by omega)]
        exact up_of_ge dir c _ _ hd'
          (sorted_ge_ld b hb (i - a.length) (j - a.length) (by omega) (by omega)) hc)
    exact ⟨p, q, hpq, hq, Or.inr hP⟩

/-! ## `bitonicMerge` on a power of two -/

theorem isSquare_true (n : Nat) : isSquare n = true := by
  simp [isSquare]

theorem log2Floor_pow (d : Nat) : ∀ k, k ≤ d → log2Floor d (2 ^ k) = k := by
  induction d with
  | zero => intro k hk; have : k = 0 := by omega
            subst this; rfl
  | succ d ih =>
    intro k hk
    cases k with
    | zero => simp [log2Floor]
    | succ k =>
      have h2 : 2 ^ (k + 1) = 2 * 2 ^ k := by rw [pow_succ]; exact Nat.mul_comm _ _
      have hpos : 0 < 2 ^ k := Nat.pow_pos (by omega)
      have hge : 2 ^ (k + 1) ≥ 2 := by omega
      have hdiv : 2 ^ (k + 1) / 2 = 2 ^ k := by omega
      simp only [log2Floor, hge, if_true, hdiv]
      rw [ih k (by omega)]

theorem ilog2_pow (k : Nat) : ilog2 (2 ^ k) = k :=
  log2Floor_pow _ k (le_of_lt (Nat.lt_two_pow k))

theorem bitonicMerge_pow (seq : List Int) (low k : Nat) (dir : Int) :
    bitonicMerge seq low (2 ^ k) dir = ((mergeLevels k seq low (2 ^ k / 2) 1 dir).1, 0) := by
  unfold bitonicMerge
  simp only [isSquare_true, Bool.not_true, Bool.false_eq_true, and_false, if_false, ilog2_pow,
    Nat.shiftRight_eq_div_pow, pow_one]

/-- The network on a block of `2 ^ k` cells of bitonic content: the block comes out ordered for
`dir`, cell by cell; the rest of the array is not written. -/
theorem bitonicMerge_ordered (seq : List Int) (low k : Nat) (dir : Int)
    (hb : low + 2 ^ k ≤ seq.length) (hbit : IsBitonic (slice seq low (2 ^ k))) :
    (bitonicMerge seq low (2 ^ k) dir).1.length = seq.length ∧
    (∀ i, i < low ∨ low + 2 ^ k ≤ i → ld (bitonicMerge seq low (2 ^ k) dir).1 i = ld seq i) ∧
    (∀ i j, low ≤ i → i ≤ j → j < low + 2 ^ k →
      up dir (ld (bitonicMerge seq low (2 ^ k) dir).1 i) (ld (bitonicMerge seq low (2 ^ k) dir).1 j))
    := by
  rw [bitonicMerge_pow]
  have hb' : low + 1 * 2 ^ k ≤ seq.length := by omega
  refine ⟨(mergeLevels_spec dir 0 k seq low 1 hb').1, fun i hi =>
    (mergeLevels_spec dir 0 k seq low 1 hb').2.1 i (by omega), ?_⟩
  intro i j hi hij hj
  obtain ⟨_, _, h3⟩ := mergeLevels_spec dir (ld (mergeLevels k seq low (2 ^ k / 2) 1 dir).1 i)
    k seq low 1 hb'
  have hB := (h3 0 (by omega)).2.2
  have e0 : low + 0 * 2 ^ k = low := by omega
  rw [e0] at hB
  refine hB ?_ i j hi hij hj (up_refl _ _)
  have := isBitonic_bit01 _ hbit dir (ld (mergeLevels k seq low (2 ^ k / 2) 1 dir).1 i)
  rw [slice_length seq low _ hb] at this
  exact bit01_congr _ _ _ (fun t ht => by rw [ld_slice seq low _ t ht]) this

/-! ## `bitonicSort` -/

theorem bitonicSortAux_succ (d : Nat) : ∀ (seq : List Int) (low N : Nat) (dir : Int),
    N ≤ 2 ^ d → bitonicSortAux (d + 1) seq low N dir = bitonicSortAux d seq low N dir := by
  induction d with
  | zero =>
    intro seq low N dir hN
    have : N ≤ 1 := by simpa using hN
    simp [bitonicSortAux, this]
  | succ d ih =>
    intro seq low N dir hN
    have h2 : 2 ^ (d + 1) = 2 * 2 ^ d := by rw [pow_succ]; exact Nat.mul_comm _ _
    have hk : N / 2 ≤ 2 ^ d := by omega
    rw [bitonicSortAux]
    conv_rhs => rw [bitonicSortAux]
    simp only [ih _ _ _ _ hk]

theorem bitonicSortAux_of_le (seq : List Int) (low N : Nat) (dir : Int) (d : Nat) (hN : N ≤ 2 ^ d) :
    ∀ e, bitonicSortAux (d + e) seq low N dir = bitonicSortAux d seq low N dir := by
  intro e
  induction e with
  | zero => rfl
  | succ e ih =>
    rw [← Nat.add_assoc, bitonicSortAux_succ (d + e) seq low N dir
      (le_trans hN (Nat.pow_le_pow_right (by omega) (by omega))), ih]

/-- The recursion of the source: the depth given by `bitonicSort` is never exhausted. -/
theorem bitonicSort_eq (seq : List Int) (low N : Nat) (dir : Int) :
    bitonicSort seq low N dir =
      if N ≤ 1 then (seq, 0)
      else if !isSquare N then (seq, 1)
      else
        let k := N / 2
        let r1 := bitonicSort seq low k 1
        let r2 := bitonicSort r1.1 (low + k) k (-1)
        let r3 := bitonicMerge r2.1 low N dir
        let err := 0 + r1.2 + r2.2 + r3.2
        if err ≠ 0 then (r3.1, 1) else (r3.1, 0) := by
  unfold bitonicSort
  cases N with
  | zero => simp [bitonicSortAux]
  | succ n =>
    have hk : (n + 1) / 2 ≤ 2 ^ ((n + 1) / 2) := le_of_lt (Nat.lt_two_pow _)
    have e : ∀ (s : List Int) (l : Nat) (d : Int),
        bitonicSortAux n s l ((n + 1) / 2) d = bitonicSortAux ((n + 1) / 2) s l ((n + 1) / 2) d := by
      intro s l d
      have h := bitonicSortAux_of_le s l ((n + 1) / 2) d ((n + 1) / 2) hk (n - (n + 1) / 2)
      rwa [show (n + 1) / 2 + (n - (n + 1) / 2) = n from by omega] at h
    rw [bitonicSortAux]
    simp only [e]

theorem slice_add (seq : List Int) (low n m : Nat) :
    slice seq low (n + m) = slice seq low n ++ slice seq (low + n) m := by
  unfold slice
  rw [List.take_add, List.drop_drop]

/-- Sorting a block of `2 ^ k` cells: status 0, the block comes out ordered for `dir`, the rest of
the array is not written. -/
theorem bitonicSort_ordered (k : Nat) : ∀ (seq : List Int) (low : Nat) (dir : Int),
    low + 2 ^ k ≤ seq.length →
    (bitonicSort seq low (2 ^ k) dir).2 = 0 ∧
    (bitonicSort seq low (2 ^ k) dir).1.length = seq.length ∧
    (∀ i, i < low ∨ low + 2 ^ k ≤ i → ld (bitonicSort seq low (2 ^ k) dir).1 i = ld seq i) ∧
    (∀ i j, low ≤ i → i ≤ j → j < low + 2 ^ k →
      up dir (ld (bitonicSort seq low (2 ^ k) dir).1 i) (ld (bitonicSort seq low (2 ^ k) dir).1 j))
    := by
  induction k with
  | zero =>
    intro seq low dir _
    have h1 : (2 : Nat) ^ 0 ≤ 1 := le_refl _
    rw [bitonicSort_eq, if_pos h1]
    refine ⟨rfl, rfl, fun i _ => rfl, fun i j hi hij hj => ?_⟩
    have : i = j := by
      have : (2 : Nat) ^ 0 = 1 := rfl
      omega
    rw [this]
    exact up_refl _ _
  | succ k ih =>
    intro seq low dir hb
    have h2 : 2 ^ (k + 1) = 2 * 2 ^ k := by rw [pow_succ]; exact Nat.mul_comm _ _
    have hpos : 0 < 2 ^ k := Nat.pow_pos (by omega)
    have hn1 : ¬ 2 ^ (k + 1) ≤ 1 := by omega
    have hdiv : 2 ^ (k + 1) / 2 = 2 ^ k := by omega
    rw [bitonicSort_eq]
    simp only [hn1, if_false, isSquare_true, Bool.not_true, Bool.false_eq_true, hdiv]
    obtain ⟨a1, a2, a3, a4⟩ := ih seq low 1 (by omega)
    obtain ⟨b1, b2, b3, b4⟩ := ih (bitonicSort seq low (2 ^ k) 1).1 (low + 2 ^ k) (-1)
      (by rw [a2]; omega)
    generalize bitonicSort seq low (2 ^ k) 1 = r1 at a1 a2 a3 a4 b1 b2 b3 b4 ⊢
    generalize bitonicSort r1.1 (low + 2 ^ k) (2 ^ k) (-1) = r2 at b1 b2 b3 b4 ⊢
    have hbit : IsBitonic (slice r2.1 low (2 ^ (k + 1))) := by
      refine ⟨slice r2.1 low (2 ^ k), slice r2.1 (low + 2 ^ k) (2 ^ k), 0, ?_, ?_, ?_⟩
      · refine sorted_le_of_ld _ fun i j hij hj => ?_
        rw [slice_length _ _ _ (by rw [b2, a2]; omega)] at hj
        rw [ld_slice _ _ _ i (by omega), ld_slice _ _ _ j hj, b3 _ (by omega), b3 _ (by omega)]
        have := a4 (low + i) (low + j) (by omega) (by omega) (by omega)
        simpa [up] using this
      · refine sorted_ge_of_ld _ fun i j hij hj => ?_
        rw [slice_length _ _ _ (by rw [b2, a2]; omega)] at hj
        rw [ld_slice _ _ _ i (by omega), ld_slice _ _ _ j hj]
        have := b4 (low + 2 ^ k + i) (low + 2 ^ k + j) (by omega) (by omega) (by omega)
        simpa [up] using this
      · rw [List.rotate_zero, h2, Nat.two_mul, slice_add]
    obtain ⟨c1, c2, c3⟩ := bitonicMerge_ordered r2.1 low (k + 1) dir (by rw [b2, a2]; exact hb) hbit
    have c0 : (bitonicMerge r2.1 low (2 ^ (k + 1)) dir).2 = 0 := by rw [bitonicMerge_pow]
    simp only [a1, b1, c0, add_zero, ne_eq, not_true_eq_false, if_false]
    refine ⟨trivial, by rw [c1, b2, a2], fun i hi => ?_, c3⟩
    rw [c2 i hi, b3 i (by omega), a3 i (by omega)]

/-! ## What the network never touches -/

theorem mergeLevels_frame (low : Nat) (dir : Int) (k : Nat) : ∀ (seq : List Int) (v nL : Nat),
    low + nL * (2 * v) ≤ seq.length →
    (mergeLevels k seq low v nL dir).1.length = seq.length ∧
    (∀ i, i < low ∨ low + nL * (2 * v) ≤ i → ld (mergeLevels k seq low v nL dir).1 i = ld seq i) := by
  induction k with
  | zero => exact fun seq v nL _ => ⟨rfl, fun i _ => rfl⟩
  | succ k ih =>
    intro seq v nL hb
    obtain ⟨l1, _, l3⟩ := mergeLevel_spec seq low v nL dir hb
    have hsr : v >>> 1 = v / 2 := by rw [Nat.shiftRight_eq_div_pow, pow_one]
    have hsl : nL <<< 1 = 2 * nL := by rw [Nat.shiftLeft_eq]; omega
    have hle : 2 * nL * (2 * (v / 2)) ≤ nL * (2 * v) := by
      have h1 : 2 * nL * (2 * (v / 2)) = nL * (2 * (2 * (v / 2))) := by ring
      rw [h1]
      exact Nat.mul_le_mul_left _ (by omega)
    rw [mergeLevels_succ, hsr, hsl]
    obtain ⟨i1, i2⟩ := ih (mergeLevel seq low v nL dir).1 (v / 2) (2 * nL) (by rw [l1]; omega)
    exact ⟨by rw [i1, l1], fun i hi => by rw [i2 i (by omega), l3 i (by omega)]⟩

/-- For every size, `bitonicMerge` keeps the length of the array and writes no cell outside
`[low, low + N)`. -/
theorem bitonicMerge_frame (seq : List Int) (low N : Nat) (dir : Int)
    (hb : low + N ≤ seq.length) :
    (bitonicMerge seq low N dir).1.length = seq.length ∧
    (∀ i, i < low ∨ low + N ≤ i → ld (bitonicMerge seq low N dir).1 i = ld seq i) := by
  unfold bitonicMerge
  simp only [isSquare_true, Bool.not_true, Bool.false_eq_true, and_false, if_false,
    Nat.shiftRight_eq_div_pow, pow_one]
  obtain ⟨h1, h2⟩ := mergeLevels_frame low dir (ilog2 N) seq (N / 2) 1 (by omega)
  exact ⟨h1, fun i hi => h2 i (by omega)⟩

/-- The status of `bitonicMerge` is 0 for every size. -/
theorem bitonicMerge_status (seq : List Int) (low N : Nat) (dir : Int) :
    (bitonicMerge seq low N dir).2 = 0 := by
  unfold bitonicMerge
  simp only [isSquare_true, Bool.not_true, Bool.false_eq_true, and_false, if_false]

/-- For every size, `bitonicSort` keeps the length of the array and writes no cell outside
`[low, low + N)`. -/
theorem bitonicSort_frame (N : Nat) : ∀ (seq : List Int) (low : Nat) (dir : Int),
    low + N ≤ seq.length →
    (bitonicSort seq low N dir).1.length = seq.length ∧
    (∀ i, i < low ∨ low + N ≤ i → ld (bitonicSort seq low N dir).1 i = ld seq i) := by
  induction N using Nat.strong_induction_on with
  | _ N ih =>
    intro seq low dir hb
    rw [bitonicSort_eq]
    by_cases h1 : N ≤ 1
    · rw [if_pos h1]
      exact ⟨rfl, fun i _ => rfl⟩
    · simp only [h1, if_false, isSquare_true, Bool.not_true, Bool.false_eq_true]
      obtain ⟨a1, a2⟩ := ih (N / 2) (by omega) seq low 1 (by omega)
      obtain ⟨b1, b2⟩ := ih (N / 2) (by omega) (bitonicSort seq low (N / 2) 1).1 (low + N / 2) (-1)
        (by rw [a1]; omega)
      obtain ⟨c1, c2⟩ := bitonicMerge_frame
        (bitonicSort (bitonicSort seq low (N / 2) 1).1 (low + N / 2) (N / 2) (-1)).1 low N dir
        (by rw [b1, a1]; exact hb)
      have hres : ∀ (x : List Int × Int), (if 0 + (bitonicSort seq low (N / 2) 1).2 +
          (bitonicSort (bitonicSort seq low (N / 2) 1).1 (low + N / 2) (N / 2) (-1)).2 +
          x.2 ≠ 0 then (x.1, (1 : Int)) else (x.1, 0)).1 = x.1 := by
        intro x
        split_ifs <;> rfl
      rw [hres]
      exact ⟨by rw [c1, b1, a1], fun i hi => by rw [c2 i hi, b2 i (by omega), a2 i (by omega)]⟩

/-! ## The range table -/

theorem getD_set_eq {α : Type} (l : List α) (i j : Nat) (x d : α) :
    (l.set i x).getD j d = if i = j ∧ i < l.length then x else l.getD j d := by
  simp only [List.getD_eq_getElem?_getD, List.getElem?_set]
  by_cases hij : i = j
  · subst hij
    by_cases hi : i < l.length
    · simp [hi]
    · simp [hi, List.getElem?_eq_none (not_lt.mp hi)]
  · simp [hij]

theorem toU32_of_nat (x : Nat) (h : x < 4294967296) : toU32 (x : Int) = x := by
  unfold toU32
  omega

/-- The pointer after a range: no wrap is visible, also for an empty chunk at offset 0. -/
theorem next_pointer (x c : Nat) (h : x + c < 2147483648) :
    toInt32 (toU32 ((x : Int) + (c : Int) - 1) + 1) = ((x + c : Nat) : Int) := by
  unfold toInt32 toU32
  split_ifs <;> omega

/-- The chunk size computed by `fetchSubSequence` from the stored ends. -/
theorem fetched_size (x c : Nat) (h : x + c < 2147483648) :
    toInt32 ((toU32 ((x : Int) + (c : Int) - 1) + 4294967296 - x + 1) % 4294967296)
      = (c : Int) := by
  unfold toInt32 toU32
  split_ifs <;> omega

theorem chooseCommand_cases (a W : Nat) (dir : Int) (i : Nat) :
    chooseCommand a W dir i = ORDER_NON_BITONIC_DCR ∨ chooseCommand a W dir i = ORDER_BITONIC_DCR ∨
    chooseCommand a W dir i = ORDER_BITONIC_INCR ∨ chooseCommand a W dir i = ORDER_NON_BITONIC_INCR
    := by
  unfold chooseCommand
  split_ifs <;> simp

theorem chooseCommand_ne (a W : Nat) (dir : Int) (i : Nat) :
    chooseCommand a W dir i ≠ AVAILABLE ∧ chooseCommand a W dir i ≠ DIE := by
  rcases chooseCommand_cases a W dir i with h | h | h | h <;> rw [h] <;> decide

theorem mul_chunk_le (N a j : Nat) (hj : j < a) : j * (N / a) + N / a ≤ N :=
  le_trans (succ_mul_le j a (N / a) hj) (Nat.mul_div_le N a)

/-- The first `i` turns of the assignment loop. -/
theorem assign_steps (m : Monitor) (W N a : Nat) (hI : RoundInv m W N a)
    (hN : N < 2147483648) (i : Nat) (hi : i ≤ W) :
    (forLoop i (assignStep a ((N / a : Nat) : Int)) (m, 0)).2 = ((min i a * (N / a) : Nat) : Int) ∧
    (forLoop i (assignStep a ((N / a : Nat) : Int)) (m, 0)).1.sequence = m.sequence ∧
    (forLoop i (assignStep a ((N / a : Nat) : Int)) (m, 0)).1.sequenceSize = N ∧
    (forLoop i (assignStep a ((N / a : Nat) : Int)) (m, 0)).1.nThreads = W ∧
    (forLoop i (assignStep a ((N / a : Nat) : Int)) (m, 0)).1.dir = m.dir ∧
    (forLoop i (assignStep a ((N / a : Nat) : Int)) (m, 0)).1.waitingWorkers = m.waitingWorkers ∧
    (forLoop i (assignStep a ((N / a : Nat) : Int)) (m, 0)).1.workerCommand.length = W ∧
    (forLoop i (assignStep a ((N / a : Nat) : Int)) (m, 0)).1.workerRange.length = W ∧
    (∀ j, j < W → (forLoop i (assignStep a ((N / a : Nat) : Int)) (m, 0)).1.workerCommand.getD j 0
      = if j < min i a then chooseCommand a W m.dir j else if j < a then AVAILABLE else DIE) ∧
    (∀ j, j < W → (forLoop i (assignStep a ((N / a : Nat) : Int)) (m, 0)).1.workerRange.getD j (0, 0)
      = if j < min i a then
          (toU32 ((j * (N / a) : Nat) : Int), toU32 (((j * (N / a) : Nat) : Int) + ((N / a : Nat) : Int) - 1))
        else m.workerRange.getD j (0, 0)) := by
  obtain ⟨hW, hcl, hrl, hsz, hsl, haW, hcmd⟩ := hI
  induction i with
  | zero =>
    refine ⟨by simp [forLoop], rfl, hsz, hW, rfl, rfl, hcl, hrl, fun j hj => ?_, fun j hj => ?_⟩
    · simp only [forLoop, Nat.zero_min, Nat.not_lt_zero, if_false]
      exact hcmd j hj
    · simp [forLoop]
  | succ i ih =>
    obtain ⟨h1, h2, h3, h4, h5, h6, h7, h8, h9, h10⟩ := ih (by omega)
    show (assignStep a _ i _).2 = _ ∧ (assignStep a _ i _).1.sequence = _ ∧
      (assignStep a _ i _).1.sequenceSize = _ ∧ (assignStep a _ i _).1.nThreads = _ ∧
      (assignStep a _ i _).1.dir = _ ∧ (assignStep a _ i _).1.waitingWorkers = _ ∧
      (assignStep a _ i _).1.workerCommand.length = _ ∧
      (assignStep a _ i _).1.workerRange.length = _ ∧
      (∀ j, j < W → (assignStep a _ i _).1.workerCommand.getD j 0 = _) ∧
      (∀ j, j < W → (assignStep a _ i _).1.workerRange.getD j (0, 0) = _)
    generalize forLoop i (assignStep a ((N / a : Nat) : Int)) (m, 0) = st at h1 h2 h3 h4 h5 h6 h7 h8 h9 h10
    have hci := h9 i (by omega)
    unfold assignStep
    by_cases hia : i < a
    · have hmin : min i a = i := by omega
      have hmin' : min (i + 1) a = i + 1 := by omega
      have hnot : ¬ i < min i a := by omega
      rw [hmin] at h1
      simp only [hnot, if_false, hia, if_true] at hci
      have hbound := mul_chunk_le N a i hia
      have hsucc : (i + 1) * (N / a) = i * (N / a) + N / a := Nat.succ_mul _ _
      simp only [hci, if_true, hmin']
      refine ⟨?_, h2, h3, h4, h5, h6, by simp [h7], by simp [h8], fun j hj => ?_, fun j hj => ?_⟩
      · rw [h1, next_pointer _ _ (by omega), hsucc]
      · simp only [getD_set_eq, h7, h4, h5]
        by_cases hji : i = j
        · subst hji
          simp [hia, hi]
          omega
        · rw [h9 j hj]
          have : (j < i + 1) = (j < min i a) := by
            apply propext
            omega
          simp only [hji, false_and, if_false, this]
      · simp only [getD_set_eq, h8, h1]
        by_cases hji : i = j
        · subst hji
          simp [hia, hi]
          omega
        · rw [h10 j hj]
          have : (j < i + 1) = (j < min i a) := by
            apply propext
            omega
          simp only [hji, false_and, if_false, this]
    · have hmin : min i a = a := by omega
      have hmin' : min (i + 1) a = a := by omega
      have hnot : ¬ i < min i a := by omega
      simp only [hnot, if_false, hia] at hci
      have hne : ¬ DIE = AVAILABLE := by decide
      simp only [hci, hne, if_false, hmin']
      rw [hmin] at h1 h9 h10
      exact ⟨h1, h2, h3, h4, h5, h6, h7, h8, h9, h10⟩

/-- The assignment of a round: every active worker `j` receives the command of the policy and
the range that starts at `j * (N / a)` and ends, inclusive, one cell before the next one. -/
theorem assignRanges_spec (m : Monitor) (W N a : Nat) (hI : RoundInv m W N a)
    (hN : N < 2147483648) :
    (assignRanges m a).sequence = m.sequence ∧
    (assignRanges m a).sequenceSize = N ∧
    (assignRanges m a).nThreads = W ∧
    (assignRanges m a).dir = m.dir ∧
    (assignRanges m a).waitingWorkers = m.waitingWorkers ∧
    (assignRanges m a).workerCommand.length = W ∧
    (assignRanges m a).workerRange.length = W ∧
    (∀ j, j < W → (assignRanges m a).workerCommand.getD j 0
      = if j < a then chooseCommand a W m.dir j else DIE) ∧
    (∀ j, j < a → (assignRanges m a).workerRange.getD j (0, 0)
      = (toU32 ((j * (N / a) : Nat) : Int),
          toU32 (((j * (N / a) : Nat) : Int) + ((N / a : Nat) : Int) - 1))) := by
  have hW := hI.1
  have hsz := hI.2.2.2.1
  have haW := hI.2.2.2.2.2.1
  obtain ⟨_, h2, h3, h4, h5, h6, h7, h8, h9, h10⟩ := assign_steps m W N a hI hN W (le_refl _)
  have hmin : min W a = a := by omega
  rw [hmin] at h9 h10
  unfold assignRanges
  simp only [hW, hsz]
  refine ⟨h2, h3, h4, h5, h6, h7, h8, fun j hj => ?_, fun j hj => ?_⟩
  · rw [h9 j hj]
    split_ifs <;> rfl
  · rw [h10 j (by omega), if_pos hj]

/-- What an active worker fetches after the assignment: its command, the chunk size `N / a`
and the start `j * (N / a)`; the region is left as it was. -/
theorem fetch_active (s : Monitor) (j x c : Nat) (cmd : Int) (hx : x + c < 2147483648)
    (hcmd : s.workerCommand.getD j 0 = cmd) (hne : cmd ≠ DIE)
    (hr : s.workerRange.getD j (0, 0) = (toU32 (x : Int), toU32 ((x : Int) + (c : Int) - 1))) :
    fetchSubSequence s j = (false, s, cmd, (c : Int), x) := by
  have hw : s.waitingWorkers + 1 - 1 = s.waitingWorkers := by omega
  unfold fetchSubSequence
  simp only [hcmd, if_neg hne, hr, toU32_of_nat x (by omega), fetched_size x c hx, hw]

theorem fetch_dead (s : Monitor) (j : Nat) (hcmd : s.workerCommand.getD j 0 = DIE) :
    fetchSubSequence s j = (true, s, 0, 0, 0) := by
  unfold fetchSubSequence
  rw [if_pos hcmd]

theorem worker_active (s : Monitor) (j x c : Nat) (cmd : Int) (hx : x + c < 2147483648)
    (hcmd : s.workerCommand.getD j 0 = cmd) (hne : cmd ≠ DIE)
    (hr : s.workerRange.getD j (0, 0) = (toU32 (x : Int), toU32 ((x : Int) + (c : Int) - 1))) :
    worker s j = signalFinished { s with sequence := sortChunk s.sequence cmd (c : Int) x } j := by
  unfold worker
  rw [fetch_active s j x c cmd hx hcmd hne hr]
  simp

theorem worker_dead (s : Monitor) (j : Nat) (hcmd : s.workerCommand.getD j 0 = DIE) :
    worker s j = s := by
  unfold worker
  rw [fetch_dead s j hcmd]
  simp

/-- The first `i` workers of a round at work. -/
theorem runWorkers_steps (m : Monitor) (W N a : Nat) (dir : Int) (hN : N < 2147483648)
    (hW : m.nThreads = W) (hcl : m.workerCommand.length = W)
    (hcmd : ∀ j, j < W → m.workerCommand.getD j 0 = if j < a then chooseCommand a W dir j else DIE)
    (hrng : ∀ j, j < a → m.workerRange.getD j (0, 0)
      = (toU32 ((j * (N / a) : Nat) : Int),
          toU32 (((j * (N / a) : Nat) : Int) + ((N / a : Nat) : Int) - 1)))
    (i : Nat) (hi : i ≤ W) :
    (forLoop i (fun id s => worker s id) m).sequence = roundSeq a W dir N (min i a) m.sequence ∧
    (forLoop i (fun id s => worker s id) m).workerRange = m.workerRange ∧
    (forLoop i (fun id s => worker s id) m).sequenceSize = m.sequenceSize ∧
    (forLoop i (fun id s => worker s id) m).nThreads = W ∧
    (forLoop i (fun id s => worker s id) m).dir = m.dir ∧
    (forLoop i (fun id s => worker s id) m).waitingWorkers = m.waitingWorkers ∧
    (forLoop i (fun id s => worker s id) m).workerCommand.length = W ∧
    (∀ j, i ≤ j → j < W →
      (forLoop i (fun id s => worker s id) m).workerCommand.getD j 0 = m.workerCommand.getD j 0) := by
  induction i with
  | zero =>
    refine ⟨?_, rfl, rfl, hW, rfl, rfl, hcl, fun j _ _ => rfl⟩
    simp [forLoop, roundSeq]
  | succ i ih =>
    obtain ⟨h1, h2, h3, h4, h5, h6, h7, h8⟩ := ih (by omega)
    show (worker _ i).sequence = _ ∧ (worker _ i).workerRange = _ ∧ (worker _ i).sequenceSize = _ ∧
      (worker _ i).nThreads = _ ∧ (worker _ i).dir = _ ∧ (worker _ i).waitingWorkers = _ ∧
      (worker _ i).workerCommand.length = _ ∧
      (∀ j, i + 1 ≤ j → j < W → (worker _ i).workerCommand.getD j 0 = _)
    generalize forLoop i (fun id s => worker s id) m = s at h1 h2 h3 h4 h5 h6 h7 h8
    have hci := h8 i (le_refl _) (by omega)
    rw [hcmd i (by omega)] at hci
    by_cases hia : i < a
    · have hmin : min i a = i := by omega
      have hmin' : min (i + 1) a = i + 1 := by omega
      rw [if_pos hia] at hci
      have hbound := mul_chunk_le N a i hia
      rw [worker_active s i (i * (N / a)) (N / a) _ (by omega) hci (chooseCommand_ne _ _ _ _).2
        (by rw [h2]; exact hrng i hia)]
      refine ⟨?_, h2, h3, h4, h5, h6, by simp [signalFinished, h7], fun j hj hjW => ?_⟩
      · show sortChunk s.sequence _ _ _ = _
        rw [h1, hmin, hmin']
        rfl
      · show (s.workerCommand.set i AVAILABLE).getD j 0 = _
        rw [getD_set_eq, if_neg (by omega)]
        exact h8 j (by omega) hjW
    · have hmin : min i a = a := by omega
      have hmin' : min (i + 1) a = a := by omega
      rw [if_neg hia] at hci
      rw [worker_dead s i hci, hmin']
      rw [hmin] at h1
      exact ⟨h1, h2, h3, h4, h5, h6, h7, fun j hj hjW => h8 j (by omega) hjW⟩

theorem demote_commands (c : List Int) (a i : Nat) (hi : i ≤ c.length) :
    (forLoop i (fun k l => l.set k (if k < a then AVAILABLE else DIE)) c).length = c.length ∧
    (∀ j, j < c.length →
      (forLoop i (fun k l => l.set k (if k < a then AVAILABLE else DIE)) c).getD j 0
        = if j < i then (if j < a then AVAILABLE else DIE) else c.getD j 0) := by
  induction i with
  | zero => exact ⟨rfl, fun j _ => by simp [forLoop]⟩
  | succ i ih =>
    obtain ⟨h1, h2⟩ := ih (by omega)
    show (List.set _ i _).length = _ ∧ (∀ j, j < c.length → (List.set _ i _).getD j 0 = _)
    refine ⟨by simp [h1], fun j hj => ?_⟩
    rw [getD_set_eq, h1]
    by_cases hji : i = j
    · subst hji
      simp [hi]
      omega
    · rw [h2 j hj]
      have : (j < i + 1) = (j < i) := by
        apply propext
        omega
      simp only [hji, false_and, if_false, this]

/-- One call of `distributeRanges`: the active count is halved, the next round starts from a
region of the same shape, and the sequence is the one left by the active workers. -/
theorem distributeRanges_spec (m : Monitor) (W N a : Nat) (hI : RoundInv m W N a)
    (hN : N < 2147483648) (hlen : (roundSeq a W m.dir N a m.sequence).length = N) :
    (distributeRanges m a).2 = a / 2 ∧
    (distributeRanges m a).1.sequence = roundSeq a W m.dir N a m.sequence ∧
    (distributeRanges m a).1.dir = m.dir ∧
    RoundInv (distributeRanges m a).1 W N (a / 2) := by
  have haW := hI.2.2.2.2.2.1
  obtain ⟨a1, a2, a3, a4, a5, a6, a7, a8, a9⟩ := assignRanges_spec m W N a hI hN
  obtain ⟨r1, r2, r3, r4, r5, _, r7, _⟩ := runWorkers_steps (assignRanges m a) W N a m.dir hN a3
    a6 a8 a9 W (le_refl _)
  have hmin : min W a = a := by omega
  rw [hmin, a1] at r1
  obtain ⟨d1, d2⟩ := demote_commands (forLoop W (fun id s => worker s id) (assignRanges m a)).workerCommand
    (a / 2) W (by rw [r7])
  have hrw : runWorkers (assignRanges m a)
      = forLoop W (fun id s => worker s id) (assignRanges m a) := by
    unfold runWorkers
    rw [a3]
  have e : distributeRanges m a = (demote (runWorkers (assignRanges m a)) (a / 2), a / 2) := rfl
  rw [e, hrw]
  generalize forLoop W (fun id s => worker s id) (assignRanges m a) = X at r1 r2 r3 r4 r5 r7 d1 d2
  have hc : (demote X (a / 2)).workerCommand
      = forLoop W (fun k l => l.set k (if k < a / 2 then AVAILABLE else DIE)) X.workerCommand := by
    unfold demote
    rw [r4]
  refine ⟨rfl, r1, ?_, r4, ?_, ?_, ?_, ?_, by omega, fun i hi => ?_⟩
  · show X.dir = _
    rw [r5, a4]
  · rw [hc, d1, r7]
  · show X.workerRange.length = _
    rw [r2, a7]
  · show X.sequenceSize = _
    rw [r3, a2]
  · show X.sequence.length = _
    rw [r1, hlen]
  · rw [hc, d2 i (by rw [r7]; exact hi), if_pos hi]

/-! ## One round on the sequence -/

theorem slice_congr (s t : List Int) (low n : Nat) (hs : low + n ≤ s.length)
    (ht : low + n ≤ t.length) (h : ∀ x, low ≤ x → x < low + n → ld s x = ld t x) :
    slice s low n = slice t low n := by
  refine List.ext_getElem (by rw [slice_length _ _ _ hs, slice_length _ _ _ ht]) fun i h1 h2 => ?_
  rw [slice_length _ _ _ hs] at h1
  rw [← ld_eq_getElem, ← ld_eq_getElem, ld_slice _ _ _ _ h1, ld_slice _ _ _ _ h1]
  exact h (low + i) (by omega) (by omega)

/-- Two adjacent blocks, the first in ascending and the second in descending order, make a
bitonic block. -/
theorem bitonic_of_halves (seq : List Int) (low h : Nat) (hb : low + 2 * h ≤ seq.length)
    (h1 : ChunkOrdered seq low h 1) (h2 : ChunkOrdered seq (low + h) h (-1)) :
    IsBitonic (slice seq low (2 * h)) := by
  refine ⟨slice seq low h, slice seq (low + h) h, 0, ?_, ?_, ?_⟩
  · refine sorted_le_of_ld _ fun i j hij hj => ?_
    rw [slice_length _ _ _ (by omega)] at hj
    rw [ld_slice _ _ _ i (by omega), ld_slice _ _ _ j hj]
    have := h1 (low + i) (low + j) (by omega) (by omega) (by omega)
    simpa [up] using this
  · refine sorted_ge_of_ld _ fun i j hij hj => ?_
    rw [slice_length _ _ _ (by omega)] at hj
    rw [ld_slice _ _ _ i (by omega), ld_slice _ _ _ j hj]
    have := h2 (low + h + i) (low + h + j) (by omega) (by omega) (by omega)
    simpa [up] using this
  · rw [List.rotate_zero, Nat.two_mul, slice_add]

theorem bitonic_of_short (seq : List Int) (low n : Nat) (hb : low + n ≤ seq.length) (hn : n ≤ 1) :
    IsBitonic (slice seq low n) := by
  refine ⟨slice seq low n, [], 0, ?_, List.sorted_nil, by simp⟩
  refine sorted_le_of_ld _ fun i j hij hj => ?_
  rw [slice_length _ _ _ hb] at hj
  have : i = j := by omega
  rw [this]

theorem sortChunk_frame (seq : List Int) (cmd : Int) (c start : Nat)
    (hb : start + c ≤ seq.length) :
    (sortChunk seq cmd (c : Int) start).length = seq.length ∧
    (∀ i, i < start ∨ start + c ≤ i → ld (sortChunk seq cmd (c : Int) start) i = ld seq i) := by
  unfold sortChunk
  simp only [Int.toNat_ofNat, Nat.add_zero]
  by_cases hs : cmd = ORDER_NON_BITONIC_DCR ∨ cmd = ORDER_NON_BITONIC_INCR
  · rw [if_pos hs]
    exact bitonicSort_frame c seq start _ hb
  · rw [if_neg hs]
    by_cases hm : cmd = ORDER_BITONIC_DCR ∨ cmd = ORDER_BITONIC_INCR
    · rw [if_pos hm]
      exact bitonicMerge_frame seq start c _ hb
    · rw [if_neg hm]
      exact ⟨rfl, fun i _ => rfl⟩

theorem sortChunk_ordered (seq : List Int) (cmd : Int) (c start : Nat)
    (hc : c = 0 ∨ ∃ k, c = 2 ^ k) (hb : start + c ≤ seq.length)
    (hcmd : cmd = ORDER_NON_BITONIC_DCR ∨ cmd = ORDER_BITONIC_DCR ∨
      cmd = ORDER_BITONIC_INCR ∨ cmd = ORDER_NON_BITONIC_INCR)
    (hpre : cmd = ORDER_NON_BITONIC_DCR ∨ cmd = ORDER_NON_BITONIC_INCR ∨
      IsBitonic (slice seq start c)) :
    ChunkOrdered (sortChunk seq cmd (c : Int) start) start c (if cmd < 0 then -1 else 1) := by
  rcases hc with rfl | ⟨k, rfl⟩
  · intro i j h1 h2 h3
    omega
  · unfold sortChunk
    simp only [Int.toNat_ofNat, Nat.add_zero]
    by_cases hs : cmd = ORDER_NON_BITONIC_DCR ∨ cmd = ORDER_NON_BITONIC_INCR
    · rw [if_pos hs]
      exact (bitonicSort_ordered k seq start _ hb).2.2.2
    · rw [if_neg hs]
      have hm : cmd = ORDER_BITONIC_DCR ∨ cmd = ORDER_BITONIC_INCR := by
        rcases hcmd with h | h | h | h
        · exact absurd (Or.inl h) hs
        · exact Or.inl h
        · exact Or.inr h
        · exact absurd (Or.inr h) hs
      have hbit : IsBitonic (slice seq start (2 ^ k)) := by
        rcases hpre with h | h | h
        · exact absurd (Or.inl h) hs
        · exact absurd (Or.inr h) hs
        · exact h
      rw [if_pos hm]
      exact (bitonicMerge_ordered seq start k _ hb hbit).2.2

/-- The workers of a round, one after the other: each leaves its chunk in order, provided the
chunk was bitonic when the command is a merge. -/
theorem roundSeq_post (a W : Nat) (dir : Int) (N : Nat) (seq : List Int) (hlen : seq.length = N)
    (hc : N / a = 0 ∨ ∃ k, N / a = 2 ^ k)
    (hpre : ∀ j, j < a → chooseCommand a W dir j = ORDER_NON_BITONIC_DCR ∨
      chooseCommand a W dir j = ORDER_NON_BITONIC_INCR ∨
      IsBitonic (slice seq (j * (N / a)) (N / a)))
    (i : Nat) (hi : i ≤ a) :
    (roundSeq a W dir N i seq).length = N ∧
    (∀ j, j < i → ChunkOrdered (roundSeq a W dir N i seq) (j * (N / a)) (N / a)
      (if chooseCommand a W dir j < 0 then -1 else 1)) ∧
    (∀ x, i * (N / a) ≤ x → ld (roundSeq a W dir N i seq) x = ld seq x) := by
  induction i with
  | zero => exact ⟨hlen, fun j hj => absurd hj (Nat.not_lt_zero _), fun x _ => rfl⟩
  | succ i ih =>
    obtain ⟨h1, h2, h3⟩ := ih (by omega)
    have hbound := mul_chunk_le N a i (by omega)
    have hsucc : (i + 1) * (N / a) = i * (N / a) + N / a := Nat.succ_mul _ _
    show (sortChunk (roundSeq a W dir N i seq) _ _ _).length = N ∧
      (∀ j, j < i + 1 → ChunkOrdered (sortChunk (roundSeq a W dir N i seq) _ _ _) _ _ _) ∧
      (∀ x, _ → ld (sortChunk (roundSeq a W dir N i seq) _ _ _) x = _)
    generalize roundSeq a W dir N i seq = s at h1 h2 h3 ⊢
    obtain ⟨f1, f2⟩ := sortChunk_frame s (chooseCommand a W dir i) (N / a) (i * (N / a))
      (by rw [h1]; exact hbound)
    have hprei := hpre i (by omega)
    have hjlt : ∀ j, j < i → j * (N / a) + N / a ≤ i * (N / a) := fun j hj => succ_mul_le j i _ hj
    clear hpre ih
    generalize N / a = c at *
    generalize hic : i * c = ic at *
    refine ⟨by rw [f1, h1], fun j hj => ?_, fun x hx => by
      clear hc
      rw [f2 x (by omega), h3 x (by omega)]⟩
    by_cases hji : j = i
    · rw [hji, hic]
      refine sortChunk_ordered s _ _ _ hc (by rw [h1]; exact hbound) (chooseCommand_cases _ _ _ _) ?_
      rcases hprei with h | h | h
      · exact Or.inl h
      · exact Or.inr (Or.inl h)
      · refine Or.inr (Or.inr ?_)
        rw [slice_congr s seq _ _ (by rw [h1]; exact hbound) (by rw [hlen]; exact hbound)
          (fun x hx1 _ => h3 x hx1)]
        exact h
    · have hjl := hjlt j (by omega)
      intro x y hx hxy hy
      clear hc
      rw [f2 x (by omega), f2 y (by omega)]
      exact h2 j (by omega) x y hx hxy hy

theorem localDir_eq (a W : Nat) (dir : Int) (j : Nat) :
    (if chooseCommand a W dir j < 0 then (-1 : Int) else 1) = roundDir a dir j := by
  unfold chooseCommand roundDir ORDER_NON_BITONIC_DCR ORDER_NON_BITONIC_INCR ORDER_BITONIC_DCR
    ORDER_BITONIC_INCR
  by_cases h1 : a = 1 <;> by_cases hW : a = W <;> by_cases hd : dir < 0 <;>
    by_cases hj : j % 2 = 0 <;> simp [h1, hW, hd, hj] <;> omega

theorem chooseCommand_first (W : Nat) (dir : Int) (j : Nat) :
    chooseCommand W W dir j = ORDER_NON_BITONIC_DCR ∨
    chooseCommand W W dir j = ORDER_NON_BITONIC_INCR := by
  unfold chooseCommand
  by_cases h1 : W = 1
  · simp only [h1, and_self, if_true]
    split_ifs <;> simp
  · simp only [h1, false_and, if_false, if_true]
    split_ifs <;> simp

/-- One round with both sizes powers of two: if the chunks of the round before are in order,
each in the direction of its worker, then so are the chunks of this round. -/
theorem round_post (e n x : Nat) (dir : Int) (seq : List Int) (hx : x ≤ e)
    (hlen : seq.length = 2 ^ n)
    (hprev : x < e → RoundPost seq (2 ^ n) (2 ^ (x + 1)) dir) :
    (roundSeq (2 ^ x) (2 ^ e) dir (2 ^ n) (2 ^ x) seq).length = 2 ^ n ∧
    RoundPost (roundSeq (2 ^ x) (2 ^ e) dir (2 ^ n) (2 ^ x) seq) (2 ^ n) (2 ^ x) dir := by
  have hc : 2 ^ n / 2 ^ x = 0 ∨ ∃ k, 2 ^ n / 2 ^ x = 2 ^ k := by
    by_cases hxn : x ≤ n
    · exact Or.inr ⟨n - x, Nat.pow_div hxn (by omega)⟩
    · exact Or.inl (Nat.div_eq_of_lt (Nat.pow_lt_pow_right (by omega) (by omega)))
  have hpre : ∀ j, j < 2 ^ x → chooseCommand (2 ^ x) (2 ^ e) dir j = ORDER_NON_BITONIC_DCR ∨
      chooseCommand (2 ^ x) (2 ^ e) dir j = ORDER_NON_BITONIC_INCR ∨
      IsBitonic (slice seq (j * (2 ^ n / 2 ^ x)) (2 ^ n / 2 ^ x)) := by
    intro j hj
    have hbound := mul_chunk_le (2 ^ n) (2 ^ x) j hj
    by_cases hxe : x = e
    · subst hxe
      rcases chooseCommand_first (2 ^ x) dir j with h | h
      · exact Or.inl h
      · exact Or.inr (Or.inl h)
    · refine Or.inr (Or.inr ?_)
      have hP := hprev (by omega)
      by_cases hsmall : 2 ^ n / 2 ^ x ≤ 1
      · exact bitonic_of_short seq _ _ (by rw [hlen]; exact hbound) hsmall
      · have h2x : 2 ^ (x + 1) = 2 ^ x * 2 := pow_succ 2 x
        have hhalf : 2 ^ n / 2 ^ (x + 1) = 2 ^ n / 2 ^ x / 2 := by
          rw [h2x, Nat.div_div_eq_div_mul]
        have heven : 2 ^ n / 2 ^ x = 2 * (2 ^ n / 2 ^ x / 2) := by
          rcases hc with h0 | ⟨k, hk⟩
          · exact absurd (by rw [h0]; exact Nat.zero_le _) hsmall
          · rw [hk] at hsmall ⊢
            cases k with
            | zero => exact absurd (le_refl _) hsmall
            | succ k => rw [pow_succ, Nat.mul_div_cancel _ (by omega), Nat.mul_comm]
        have hpos : 0 < 2 ^ x := Nat.pow_pos (by omega)
        have p0 := hP (2 * j) (by omega)
        have p1 := hP (2 * j + 1) (by omega)
        have hne : ¬ 2 ^ (x + 1) = 1 := by omega
        unfold roundDir at p0 p1
        rw [if_neg hne, hhalf] at p0 p1
        have m0 : 2 * j % 2 = 0 := by omega
        have m1 : ¬ (2 * j + 1) % 2 = 0 := by omega
        rw [if_pos m0] at p0
        rw [if_neg m1] at p1
        clear hc hP hhalf hsmall
        generalize 2 ^ n / 2 ^ x = c at *
        generalize c / 2 = h at *
        subst heven
        have e0 : 2 * j * h = j * (2 * h) := by ring
        have e1 : (2 * j + 1) * h = j * (2 * h) + h := by ring
        rw [e0] at p0
        rw [e1] at p1
        exact bitonic_of_halves seq (j * (2 * h)) h (by rw [hlen]; omega) p0 p1
  obtain ⟨r1, r2, _⟩ := roundSeq_post (2 ^ x) (2 ^ e) dir (2 ^ n) seq hlen hc hpre (2 ^ x)
    (le_refl _)
  refine ⟨r1, fun j hj => ?_⟩
  rw [← localDir_eq (2 ^ x) (2 ^ e) dir j]
  exact r2 j hj

/-! ## The rounds of the distributor -/

theorem init_inv (file : List Int) (W : Nat) (dir : Int) :
    RoundInv (readFromFileAndStore (initialization W dir) file) W file.length W := by
  refine ⟨rfl, ?_, ?_, rfl, rfl, le_refl _, fun i hi => ?_⟩
  · simp [readFromFileAndStore, initialization]
  · simp [readFromFileAndStore, initialization]
  · simp [readFromFileAndStore, initialization, List.getElem?_replicate, hi]

theorem roundSeq_length (a W : Nat) (dir : Int) (N : Nat) (seq : List Int) (hlen : seq.length = N)
    (i : Nat) (hi : i ≤ a) : (roundSeq a W dir N i seq).length = N := by
  induction i with
  | zero => exact hlen
  | succ i ih =>
    have h1 := ih (by omega)
    have hbound := mul_chunk_le N a i (by omega)
    show (sortChunk (roundSeq a W dir N i seq) _ _ _).length = N
    rw [(sortChunk_frame _ _ _ _ (by rw [h1]; exact hbound)).1, h1]

theorem distributeRanges_inv (m : Monitor) (W N a : Nat) (hI : RoundInv m W N a)
    (hN : N < 2147483648) :
    (distributeRanges m a).2 = a / 2 ∧
    (distributeRanges m a).1.sequence = roundSeq a W m.dir N a m.sequence ∧
    (distributeRanges m a).1.dir = m.dir ∧
    RoundInv (distributeRanges m a).1 W N (a / 2) :=
  distributeRanges_spec m W N a hI hN (roundSeq_length a W m.dir N m.sequence hI.2.2.2.2.1 a (le_refl _))

theorem roundStart_inv (file : List Int) (W : Nat) (dir : Int) (hN : file.length < 2147483648)
    (r : Nat) :
    RoundInv (roundStart file W dir r).1 W file.length (roundStart file W dir r).2 ∧
    (roundStart file W dir r).1.dir = dir ∧
    (roundStart file W dir r).2 = W / 2 ^ r := by
  induction r with
  | zero => exact ⟨init_inv file W dir, rfl, by simp [roundStart]⟩
  | succ r ih =>
    obtain ⟨h1, h2, h3⟩ := ih
    obtain ⟨d1, _, d3, d4⟩ := distributeRanges_inv _ W file.length _ h1 hN
    show RoundInv (distributeRanges _ _).1 _ _ (distributeRanges _ _).2 ∧
      (distributeRanges _ _).1.dir = dir ∧ (distributeRanges _ _).2 = _
    rw [d1]
    refine ⟨d4, by rw [d3, h2], ?_⟩
    rw [h3, Nat.div_div_eq_div_mul, pow_succ]

/-- The loop of the distributor ends, after one round more than the floor of the binary
logarithm of the active count it starts with. -/
theorem loop_rounds (W N : Nat) (hN : N < 2147483648) : ∀ (fuel a : Nat) (m : Monitor),
    1 ≤ a → RoundInv m W N a → Nat.log 2 a < fuel →
    ∃ mf, distributorLoop fuel m a = some (mf, Nat.log 2 a + 1) := by
  intro fuel
  induction fuel with
  | zero => intro a m _ _ h; omega
  | succ fuel ih =>
    intro a m ha hI hf
    obtain ⟨d1, _, _, d4⟩ := distributeRanges_inv m W N a hI hN
    rw [distributorLoop]
    simp only [d1]
    by_cases h0 : a / 2 = 0
    · have ha1 : a = 1 := by omega
      subst ha1
      exact ⟨(distributeRanges m 1).1, by simp⟩
    · have hlog : Nat.log 2 a = Nat.log 2 (a / 2) + 1 :=
        Nat.log_of_one_lt_of_le (by omega) (by omega)
      obtain ⟨mf, hmf⟩ := ih (a / 2) (distributeRanges m a).1 (by omega) d4 (by omega)
      refine ⟨mf, ?_⟩
      rw [if_neg h0, hmf, hlog]
      rfl

theorem roundPost_one (seq : List Int) (N : Nat) (dir : Int) (h : RoundPost seq N 1 dir) :
    ChunkOrdered seq 0 N (if dir < 0 then -1 else 1) := by
  have := h 0 (by omega)
  simpa [roundDir] using this

/-- With both sizes powers of two the loop ends with the whole sequence in order for `dir`. -/
theorem loop_sorts (e n : Nat) (dir : Int) (hN : 2 ^ n < 2147483648) : ∀ (x : Nat), x ≤ e →
    ∀ (m : Monitor), RoundInv m (2 ^ e) (2 ^ n) (2 ^ x) → m.dir = dir →
    (x < e → RoundPost m.sequence (2 ^ n) (2 ^ (x + 1)) dir) →
    ∀ fuel, x < fuel →
    ∃ mf, distributorLoop fuel m (2 ^ x) = some (mf, x + 1) ∧ mf.sequence.length = 2 ^ n ∧
      ChunkOrdered mf.sequence 0 (2 ^ n) (if dir < 0 then -1 else 1) := by
  intro x
  induction x with
  | zero =>
    intro _ m hI hd hprev fuel hf
    obtain ⟨d1, d2, _, _⟩ := distributeRanges_inv m (2 ^ e) (2 ^ n) (2 ^ 0) hI hN
    obtain ⟨p1, p2⟩ := round_post e n 0 dir m.sequence (Nat.zero_le _) hI.2.2.2.2.1 hprev
    cases fuel with
    | zero => omega
    | succ fuel =>
      rw [distributorLoop]
      have h0 : (distributeRanges m (2 ^ 0)).2 = 0 := by rw [d1]; rfl
      rw [if_pos h0]
      refine ⟨_, rfl, by rw [d2, hd]; exact p1, ?_⟩
      rw [d2, hd]
      exact roundPost_one _ _ _ p2
  | succ x ih =>
    intro hx m hI hd hprev fuel hf
    obtain ⟨d1, d2, d3, d4⟩ := distributeRanges_inv m (2 ^ e) (2 ^ n) (2 ^ (x + 1)) hI hN
    obtain ⟨p1, p2⟩ := round_post e n (x + 1) dir m.sequence hx hI.2.2.2.2.1 hprev
    have hhalf : 2 ^ (x + 1) / 2 = 2 ^ x := by
      rw [pow_succ, Nat.mul_div_cancel _ (by omega)]
    have hpos : 0 < 2 ^ x := Nat.pow_pos (by omega)
    cases fuel with
    | zero => omega
    | succ fuel =>
      rw [hhalf] at d1 d4
      obtain ⟨mf, h1, h2, h3⟩ := ih (by omega) (distributeRanges m (2 ^ (x + 1))).1 d4
        (by rw [d3, hd]) (fun _ => by rw [d2, hd]; exact p2) fuel (by omega)
      refine ⟨mf, ?_, h2, h3⟩
      rw [distributorLoop]
      have h0 : ¬ (distributeRanges m (2 ^ (x + 1))).2 = 0 := by rw [d1]; omega
      rw [if_neg h0, d1, h1]
      rfl

theorem slice_all (seq : List Int) : slice seq 0 seq.length = seq := by
  unfold slice
  simp

/-- The cells of the chunk that worker `i` fetches after the assignment of a round. -/
theorem inChunk_iff (m : Monitor) (W N a : Nat) (hI : RoundInv m W N a) (hN : N < 2147483648)
    (i : Nat) (hi : i < W) (x : Nat) :
    inChunk (assignRanges m a) i x ↔ i < a ∧ i * (N / a) ≤ x ∧ x < i * (N / a) + N / a := by
  obtain ⟨_, _, _, _, _, _, _, a8, a9⟩ := assignRanges_spec m W N a hI hN
  unfold inChunk
  by_cases hia : i < a
  · have hbound := mul_chunk_le N a i hia
    have hc := a8 i hi
    rw [if_pos hia] at hc
    rw [fetch_active (assignRanges m a) i (i * (N / a)) (N / a) _ (by omega) hc
      (chooseCommand_ne _ _ _ _).2 (a9 i hia)]
    simp only [true_and, hia]
    generalize i * (N / a) = ic
    generalize N / a = c
    omega
  · have hc := a8 i hi
    rw [if_neg hia] at hc
    rw [fetch_dead (assignRanges m a) i hc]
    simp [hia]

/-! ## The compare-and-swap primitive and the network: the contracts -/

theorem slice_sorted_of_up (seq : List Int) (low N : Nat) (dir : Int) (hb : low + N ≤ seq.length)
    (h : ∀ i j, low ≤ i → i ≤ j → j < low + N → up dir (ld seq i) (ld seq j)) :
    (0 ≤ dir → List.Sorted (· ≤ ·) (slice seq low N)) ∧
    (dir < 0 → List.Sorted (· ≥ ·) (slice seq low N)) := by
  constructor
  · intro hd
    refine sorted_le_of_ld _ fun i j hij hj => ?_
    rw [slice_length _ _ _ hb] at hj
    rw [ld_slice _ _ _ i (by omega), ld_slice _ _ _ j hj]
    have := h (low + i) (low + j) (by omega) (by omega) (by omega)
    simpa [up, hd] using this
  · intro hd
    refine sorted_ge_of_ld _ fun i j hij hj => ?_
    rw [slice_length _ _ _ hb] at hj
    rw [ld_slice _ _ _ i (by omega), ld_slice _ _ _ j hj]
    have := h (low + i) (low + j) (by omega) (by omega) (by omega)
    simpa [up, not_le.mpr hd] using this

/-- C2: for a power of two `N` and a block `[low, low + N)` inside the array, `bitonicSort`
returns 0 and leaves the block non-decreasing when `dir ≥ 0` and non-increasing when `dir < 0`;
for `N ≥ 2` the result is the merge of the array in which the first half was sorted ascending and
then the second half descending. -/
theorem C2_bitonicSort_sorts (seq : List Int) (low N : Nat) (dir : Int)
    (hN : ∃ k, N = 2 ^ k) (hb : low + N ≤ seq.length) :
    (bitonicSort seq low N dir).2 = 0 ∧
    (0 ≤ dir → List.Sorted (· ≤ ·) (slice (bitonicSort seq low N dir).1 low N)) ∧
    (dir < 0 → List.Sorted (· ≥ ·) (slice (bitonicSort seq low N dir).1 low N)) ∧
    (2 ≤ N → (bitonicSort seq low N dir).1 =
      (bitonicMerge (bitonicSort (bitonicSort seq low (N / 2) 1).1 (low + N / 2) (N / 2) (-1)).1
        low N dir).1) := by
  obtain ⟨k, rfl⟩ := hN
  obtain ⟨h1, h2, _, h4⟩ := bitonicSort_ordered k seq low dir hb
  obtain ⟨s1, s2⟩ := slice_sorted_of_up _ low (2 ^ k) dir (by rw [h2]; exact hb) h4
  refine ⟨h1, s1, s2, fun h2N => ?_⟩
  conv_lhs => rw [bitonicSort_eq]
  have hn1 : ¬ 2 ^ k ≤ 1 := by omega
  simp only [hn1, if_false, isSquare_true, Bool.not_true, Bool.false_eq_true]
  split_ifs <;> rfl

/-- C2, on an instance: eight cells sorted in place inside an array of ten. -/
theorem C2_bitonicSort_sorts_witness :
    ((∃ k, 8 = 2 ^ k) ∧ 1 + 8 ≤ [0, 5, 3, 8, 1, 9, 2, 7, 4, 0].length) ∧
    ((bitonicSort [0, 5, 3, 8, 1, 9, 2, 7, 4, 0] 1 8 1).2 = 0 ∧
    ((0 : Int) ≤ 1 →
      List.Sorted (· ≤ ·) (slice (bitonicSort [0, 5, 3, 8, 1, 9, 2, 7, 4, 0] 1 8 1).1 1 8)) ∧
    ((1 : Int) < 0 →
      List.Sorted (· ≥ ·) (slice (bitonicSort [0, 5, 3, 8, 1, 9, 2, 7, 4, 0] 1 8 1).1 1 8)) ∧
    (2 ≤ 8 → (bitonicSort [0, 5, 3, 8, 1, 9, 2, 7, 4, 0] 1 8 1).1 =
      (bitonicMerge (bitonicSort (bitonicSort [0, 5, 3, 8, 1, 9, 2, 7, 4, 0] 1 (8 / 2) 1).1
        (1 + 8 / 2) (8 / 2) (-1)).1 1 8 1).1)) :=
  ⟨⟨⟨3, by decide⟩, by decide⟩,
    C2_bitonicSort_sorts [0, 5, 3, 8, 1, 9, 2, 7, 4, 0] 1 8 1 ⟨3, by decide⟩ (by decide)⟩

/-- C3: for a power of two `N` and a block `[low, low + N)` of bitonic content, `bitonicMerge`
returns 0 and leaves the block non-decreasing when `dir ≥ 0` and non-increasing when
`dir < 0`. -/
theorem C3_bitonicMerge_sorts_bitonic (seq : List Int) (low N : Nat) (dir : Int)
    (hN : ∃ k, N = 2 ^ k) (hb : low + N ≤ seq.length) (hbit : IsBitonic (slice seq low N)) :
    (bitonicMerge seq low N dir).2 = 0 ∧
    (0 ≤ dir → List.Sorted (· ≤ ·) (slice (bitonicMerge seq low N dir).1 low N)) ∧
    (dir < 0 → List.Sorted (· ≥ ·) (slice (bitonicMerge seq low N dir).1 low N)) := by
  obtain ⟨k, rfl⟩ := hN
  obtain ⟨h1, _, h3⟩ := bitonicMerge_ordered seq low k dir hb hbit
  obtain ⟨s1, s2⟩ := slice_sorted_of_up _ low (2 ^ k) dir (by rw [h1]; exact hb) h3
  exact ⟨bitonicMerge_status _ _ _ _, s1, s2⟩

/-- C3, on an instance: the block `9, 4, 2, 7`, a rotation of the rising then falling
`2, 7, 9, 4`, merged downwards. -/
theorem C3_bitonicMerge_sorts_bitonic_witness :
    ((∃ k, 4 = 2 ^ k) ∧ 1 + 4 ≤ [0, 9, 4, 2, 7, 0].length ∧
      IsBitonic (slice [0, 9, 4, 2, 7, 0] 1 4)) ∧
    ((bitonicMerge [0, 9, 4, 2, 7, 0] 1 4 (-1)).2 = 0 ∧
    ((0 : Int) ≤ -1 →
      List.Sorted (· ≤ ·) (slice (bitonicMerge [0, 9, 4, 2, 7, 0] 1 4 (-1)).1 1 4)) ∧
    ((-1 : Int) < 0 →
      List.Sorted (· ≥ ·) (slice (bitonicMerge [0, 9, 4, 2, 7, 0] 1 4 (-1)).1 1 4))) :=
  have hbit : IsBitonic (slice [0, 9, 4, 2, 7, 0] 1 4) :=
    ⟨[2, 7, 9], [4], 2, by decide, by decide, by decide⟩
  ⟨⟨⟨2, by decide⟩, by decide, hbit⟩,
    C3_bitonicMerge_sorts_bitonic [0, 9, 4, 2, 7, 0] 1 4 (-1) ⟨2, by decide⟩ (by decide) hbit⟩

/-- C4: after `CAPS(seq, i, j, dir)` on two valid indices, the cells `i` and `j` are in order
for `dir`, they hold the two values they held before (exchanged or not), every other cell is
unchanged, and so is the length. -/
theorem C4_CAPS_contract (seq : List Int) (i j : Nat) (dir : Int)
    (hi : i < seq.length) (hj : j < seq.length) :
    (0 ≤ dir → ld (CAPS seq i j dir) i ≤ ld (CAPS seq i j dir) j) ∧
    (dir < 0 → ld (CAPS seq i j dir) i ≥ ld (CAPS seq i j dir) j) ∧
    ((ld (CAPS seq i j dir) i = ld seq i ∧ ld (CAPS seq i j dir) j = ld seq j) ∨
      (ld (CAPS seq i j dir) i = ld seq j ∧ ld (CAPS seq i j dir) j = ld seq i)) ∧
    (∀ k, k ≠ i → k ≠ j → ld (CAPS seq i j dir) k = ld seq k) ∧
    (CAPS seq i j dir).length = seq.length := by
  refine ⟨(CAPS_ordered seq i j dir).1, (CAPS_ordered seq i j dir).2, ?_,
    fun k hki hkj => CAPS_other seq i j k dir hki hkj, CAPS_length seq i j dir⟩
  by_cases hij : i = j
  · subst hij
    left
    have : CAPS seq i i dir = seq := by
      unfold CAPS
      simp
    rw [this]
    exact ⟨rfl, rfl⟩
  · by_cases hd : 0 ≤ dir
    · obtain ⟨e1, e2⟩ := CAPS_up seq i j dir hd hi hj hij
      rw [e1, e2]
      rcases le_total (ld seq i) (ld seq j) with h | h
      · left; exact ⟨min_eq_left h, max_eq_right h⟩
      · right; exact ⟨min_eq_right h, max_eq_left h⟩
    · obtain ⟨e1, e2⟩ := CAPS_down seq i j dir (not_le.mp hd) hi hj hij
      rw [e1, e2]
      rcases le_total (ld seq i) (ld seq j) with h | h
      · right; exact ⟨max_eq_right h, min_eq_left h⟩
      · left; exact ⟨max_eq_left h, min_eq_right h⟩

/-- C4, on an instance: cells 0 and 2 of `3, 5, 1` compared upwards. -/
theorem C4_CAPS_contract_witness :
    (0 < [(3 : Int), 5, 1].length ∧ 2 < [(3 : Int), 5, 1].length) ∧
    (((0 : Int) ≤ 1 → ld (CAPS [3, 5, 1] 0 2 1) 0 ≤ ld (CAPS [3, 5, 1] 0 2 1) 2) ∧
    ((1 : Int) < 0 → ld (CAPS [3, 5, 1] 0 2 1) 0 ≥ ld (CAPS [3, 5, 1] 0 2 1) 2) ∧
    ((ld (CAPS [3, 5, 1] 0 2 1) 0 = ld [3, 5, 1] 0 ∧ ld (CAPS [3, 5, 1] 0 2 1) 2 = ld [3, 5, 1] 2) ∨
      (ld (CAPS [3, 5, 1] 0 2 1) 0 = ld [3, 5, 1] 2 ∧
        ld (CAPS [3, 5, 1] 0 2 1) 2 = ld [3, 5, 1] 0)) ∧
    (∀ k, k ≠ 0 → k ≠ 2 → ld (CAPS [3, 5, 1] 0 2 1) k = ld [3, 5, 1] k) ∧
    (CAPS [3, 5, 1] 0 2 1).length = [(3 : Int), 5, 1].length) :=
  ⟨⟨by decide, by decide⟩, C4_CAPS_contract [3, 5, 1] 0 2 1 (by decide) (by decide)⟩

/-- C5: `CAPS` applied twice in a row to the same cells and direction gives the array that one
application gives. -/
theorem C5_CAPS_idempotent (seq : List Int) (i j : Nat) (dir : Int) :
    CAPS (CAPS seq i j dir) i j dir = CAPS seq i j dir := by
  have h := CAPS_ordered seq i j dir
  generalize CAPS seq i j dir = s at h ⊢
  unfold CAPS
  by_cases hd : 0 ≤ dir
  · have h1 : ¬ ld s i > ld s j := not_lt.mpr (h.1 hd)
    simp only [ge_iff_le, hd, if_true, h1, if_false]
  · have h1 : ¬ ld s i < ld s j := not_lt.mpr (h.2 (not_le.mp hd))
    simp only [ge_iff_le, hd, if_false, h1]

/-- C6: the code at a size that is not a power of two. On a block of 3 cells `bitonicMerge`
runs one level, leaves `1, 3, 2` and returns 0; the status is 0 for every size and every array,
because the guard `isSquare` compares the truncated square root with itself. -/
theorem C6_bitonicMerge_never_fails :
    bitonicMerge [3, 1, 2] 0 3 1 = ([1, 3, 2], 0) ∧
    (∀ n, isSquare n = true) ∧
    (∀ (seq : List Int) (low N : Nat) (dir : Int), (bitonicMerge seq low N dir).2 = 0) :=
  ⟨by decide, isSquare_true, bitonicMerge_status⟩

/-! ## The distributor: the contracts -/

/-- C1 (amended): for a sequence whose length is a power of two below `2 ^ 31` and a number of
workers that is a power of two, the loop of the distributor ends, after `e + 1` rounds for
`W = 2 ^ e`, and leaves the whole sequence non-decreasing if `dir > 0` and non-increasing if
`dir < 0`. -/
theorem C1_distributor_sorts_pow2_workers (file : List Int) (W : Nat) (dir : Int)
    (n e fuel : Nat) (hN : file.length = 2 ^ n) (hW : W = 2 ^ e)
    (h31 : file.length < 2147483648) (hf : e < fuel) :
    ∃ mf, distributor fuel file W dir = some (mf, e + 1) ∧
      (0 < dir → List.Sorted (· ≤ ·) mf.sequence) ∧
      (dir < 0 → List.Sorted (· ≥ ·) mf.sequence) := by
  subst hW
  have hI := init_inv file (2 ^ e) dir
  rw [hN] at hI h31
  obtain ⟨mf, h1, h2, h3⟩ := loop_sorts e n dir h31 e (le_refl _) _ hI rfl
    (fun h => absurd h (lt_irrefl e)) fuel hf
  refine ⟨mf, h1, fun hd => ?_, fun hd => ?_⟩
  · rw [if_neg (not_lt.mpr (le_of_lt hd))] at h3
    have := (slice_sorted_of_up mf.sequence 0 (2 ^ n) 1 (by omega) h3).1 (by decide)
    rwa [← h2, slice_all] at this
  · rw [if_pos hd] at h3
    have := (slice_sorted_of_up mf.sequence 0 (2 ^ n) (-1) (by omega) h3).2 (by decide)
    rwa [← h2, slice_all] at this

/-- C1 (amended), on an instance: eight cells, four workers, ascending. -/
theorem C1_distributor_sorts_pow2_workers_witness :
    ([(5 : Int), 3, 8, 1, 9, 2, 7, 4].length = 2 ^ 3 ∧ 4 = 2 ^ 2 ∧
      [(5 : Int), 3, 8, 1, 9, 2, 7, 4].length < 2147483648 ∧ 2 < 3) ∧
    ∃ mf, distributor 3 [5, 3, 8, 1, 9, 2, 7, 4] 4 1 = some (mf, 2 + 1) ∧
      ((0 : Int) < 1 → List.Sorted (· ≤ ·) mf.sequence) ∧
      ((1 : Int) < 0 → List.Sorted (· ≥ ·) mf.sequence) :=
  ⟨⟨by decide, by decide, by decide, by decide⟩,
    C1_distributor_sorts_pow2_workers [5, 3, 8, 1, 9, 2, 7, 4] 4 1 3 2 3 (by decide) (by decide)
      (by decide) (by decide)⟩

set_option maxRecDepth 1000000 in
/-- C1 as stated fails: four cells (a power of two), three workers, ascending. The first round
gives each of the three workers one cell, the second round merges the four cells, which are not
bitonic, and the run ends with `0, 1, 0, 1`. -/
theorem C1_three_workers_not_sorted :
    ([(0 : Int), 1, 0, 1].length = 2 ^ 2 ∧ 1 ≤ 3 ∧ (1 : Int) ≠ 0) ∧
    (distributor 2 [0, 1, 0, 1] 3 1).map (fun r => (r.1.sequence, r.2)) = some ([0, 1, 0, 1], 2) ∧
    ¬ List.Sorted (· ≤ ·) [(0 : Int), 1, 0, 1] := by
  decide

/-- C7 (amended): for `W ≥ 1` workers the loop of the distributor ends after exactly
`⌊log2 W⌋ + 1` calls of `distributeRanges`; the active count before round `r + 1` is `W / 2 ^ r`;
the number of rounds is `⌈log2 W⌉ + 1` when `W` is a power of two. -/
theorem C7_rounds_floor_log (file : List Int) (W : Nat) (dir : Int) (fuel : Nat)
    (hW : 1 ≤ W) (h31 : file.length < 2147483648) (hf : Nat.log 2 W < fuel) :
    (distributor fuel file W dir).map (fun r => r.2) = some (Nat.log 2 W + 1) ∧
    (∀ r, (roundStart file W dir r).2 = W / 2 ^ r) ∧
    (∀ e, W = 2 ^ e → Nat.log 2 W + 1 = Nat.clog 2 W + 1) := by
  obtain ⟨mf, h⟩ := loop_rounds W file.length h31 fuel W _ hW (init_inv file W dir) hf
  refine ⟨?_, fun r => (roundStart_inv file W dir h31 r).2.2, fun e he => ?_⟩
  · unfold distributor
    rw [h]
    rfl
  · rw [he, Nat.log_pow (by omega), Nat.clog_pow _ _ (by omega)]

/-- C7 (amended), on an instance: five workers, three rounds. -/
theorem C7_rounds_floor_log_witness :
    (1 ≤ 5 ∧ [(4 : Int), 2, 3, 1].length < 2147483648 ∧ Nat.log 2 5 < 3) ∧
    ((distributor 3 [4, 2, 3, 1] 5 1).map (fun r => r.2) = some (Nat.log 2 5 + 1) ∧
    (∀ r, (roundStart [4, 2, 3, 1] 5 1 r).2 = 5 / 2 ^ r) ∧
    (∀ e, 5 = 2 ^ e → Nat.log 2 5 + 1 = Nat.clog 2 5 + 1)) :=
  have hlog : Nat.log 2 5 < 3 := by norm_num [Nat.log]
  ⟨⟨by decide, by decide, hlog⟩,
    C7_rounds_floor_log [4, 2, 3, 1] 5 1 3 (by decide) (by decide) hlog⟩

set_option maxRecDepth 1000000 in
/-- C7 as stated fails: with three workers the active count goes 3, 1, 0 and the loop ends
after two rounds, while `⌈log2 3⌉ + 1 = 3`. -/
theorem C7_three_workers_two_rounds :
    (distributor 5 [4, 2, 3, 1] 3 1).map (fun r => r.2) = some 2 ∧ Nat.clog 2 3 + 1 = 3 :=
  ⟨by decide, by norm_num [Nat.clog]⟩

/-- C8: in every round, the chunks that two distinct workers fetch after the
assignment have no cell in common, and when the active count divides the length of the sequence
the chunks together are exactly the cells `[0, N)`. -/
theorem C8_ranges_disjoint_and_cover (file : List Int) (W : Nat) (dir : Int) (r : Nat)
    (h31 : file.length < 2147483648) :
    (∀ i j x, i < W → j < W → i ≠ j →
      ¬ (inChunk (assignRanges (roundStart file W dir r).1 (roundStart file W dir r).2) i x ∧
        inChunk (assignRanges (roundStart file W dir r).1 (roundStart file W dir r).2) j x)) ∧
    ((roundStart file W dir r).2 ∣ file.length → ∀ x, x < file.length ↔
      ∃ i, i < W ∧
        inChunk (assignRanges (roundStart file W dir r).1 (roundStart file W dir r).2) i x) := by
  obtain ⟨hI, _, _⟩ := roundStart_inv file W dir h31 r
  have haW := hI.2.2.2.2.2.1
  generalize (roundStart file W dir r).1 = m at hI ⊢
  generalize (roundStart file W dir r).2 = a at hI haW ⊢
  constructor
  · intro i j x hi hj hij ⟨h1, h2⟩
    rw [inChunk_iff m W _ a hI h31 i hi x] at h1
    rw [inChunk_iff m W _ a hI h31 j hj x] at h2
    rcases Nat.lt_or_gt_of_ne hij with h | h
    · have := succ_mul_le i j (file.length / a) h
      omega
    · have := succ_mul_le j i (file.length / a) h
      omega
  · intro hdvd x
    have hmul : a * (file.length / a) = file.length := Nat.mul_div_cancel' hdvd
    constructor
    · intro hx
      have hcpos : 0 < file.length / a := by
        rcases Nat.eq_zero_or_pos (file.length / a) with h0 | h0
        · rw [h0] at hmul
          omega
        · exact h0
      have hlt : x / (file.length / a) < a := Nat.div_lt_of_lt_mul (by rw [Nat.mul_comm, hmul]; exact hx)
      refine ⟨x / (file.length / a), by omega, ?_⟩
      rw [inChunk_iff m W _ a hI h31 _ (by omega) x]
      exact ⟨hlt, Nat.div_mul_le_self _ _, Nat.lt_div_mul_add hcpos⟩
    · rintro ⟨i, hi, h⟩
      rw [inChunk_iff m W _ a hI h31 i hi x] at h
      have := mul_chunk_le file.length a i h.1
      omega

/-- C8, on an instance: the second round of four workers on eight cells. -/
theorem C8_ranges_disjoint_and_cover_witness :
    [(5 : Int), 3, 8, 1, 9, 2, 7, 4].length < 2147483648 ∧
    ((∀ i j x, i < 4 → j < 4 → i ≠ j →
      ¬ (inChunk (assignRanges (roundStart [5, 3, 8, 1, 9, 2, 7, 4] 4 1 1).1
          (roundStart [5, 3, 8, 1, 9, 2, 7, 4] 4 1 1).2) i x ∧
        inChunk (assignRanges (roundStart [5, 3, 8, 1, 9, 2, 7, 4] 4 1 1).1
          (roundStart [5, 3, 8, 1, 9, 2, 7, 4] 4 1 1).2) j x)) ∧
    ((roundStart [5, 3, 8, 1, 9, 2, 7, 4] 4 1 1).2 ∣ [(5 : Int), 3, 8, 1, 9, 2, 7, 4].length →
      ∀ x, x < [(5 : Int), 3, 8, 1, 9, 2, 7, 4].length ↔
      ∃ i, i < 4 ∧
        inChunk (assignRanges (roundStart [5, 3, 8, 1, 9, 2, 7, 4] 4 1 1).1
          (roundStart [5, 3, 8, 1, 9, 2, 7, 4] 4 1 1).2) i x)) :=
  ⟨by decide, C8_ranges_disjoint_and_cover [5, 3, 8, 1, 9, 2, 7, 4] 4 1 1 (by decide)⟩

/-- C9: after the assignment of a round with `a` active workers on a sequence of `N < 2 ^ 31`
cells, the active worker `i` fetches the start `i * (N / a)` and the chunk size `N / a`; the
stored last index is `i * (N / a) + N / a - 1`, which for `N / a = 0` is stored as
`2 ^ 32 - 1`. -/
theorem C9_start_and_chunk_size (m : Monitor) (W N a i : Nat) (hI : RoundInv m W N a)
    (hN : N < 2147483648) (hi : i < a) :
    (fetchSubSequence (assignRanges m a) i).1 = false ∧
    (fetchSubSequence (assignRanges m a) i).2.2.2.2 = i * (N / a) ∧
    (fetchSubSequence (assignRanges m a) i).2.2.2.1 = ((N / a : Nat) : Int) ∧
    (assignRanges m a).workerRange.getD i (0, 0)
      = (i * (N / a), if N / a = 0 then 4294967295 else i * (N / a) + N / a - 1) := by
  obtain ⟨_, _, _, _, _, _, _, a8, a9⟩ := assignRanges_spec m W N a hI hN
  have haW := hI.2.2.2.2.2.1
  have hbound := mul_chunk_le N a i hi
  have hc := a8 i (by omega)
  rw [if_pos hi] at hc
  rw [fetch_active (assignRanges m a) i (i * (N / a)) (N / a) _ (by omega) hc
    (chooseCommand_ne _ _ _ _).2 (a9 i hi), a9 i hi]
  refine ⟨rfl, rfl, rfl, ?_⟩
  unfold toU32
  by_cases h0 : N / a = 0
  · rw [h0]
    simp
  · generalize i * (N / a) = ic at hbound ⊢
    generalize N / a = c at hbound h0 ⊢
    simp only [h0, if_false, Prod.mk.injEq]
    omega

/-- C9, on an instance: eight workers on two cells, so that every chunk is empty. -/
theorem C9_start_and_chunk_size_witness :
    (RoundInv (readFromFileAndStore (initialization 8 1) [1, 3]) 8 2 8 ∧ 2 < 2147483648 ∧ 5 < 8) ∧
    ((fetchSubSequence (assignRanges (readFromFileAndStore (initialization 8 1) [1, 3]) 8) 5).1
      = false ∧
    (fetchSubSequence (assignRanges (readFromFileAndStore (initialization 8 1) [1, 3]) 8) 5).2.2.2.2
      = 5 * (2 / 8) ∧
    (fetchSubSequence (assignRanges (readFromFileAndStore (initialization 8 1) [1, 3]) 8) 5).2.2.2.1
      = ((2 / 8 : Nat) : Int) ∧
    (assignRanges (readFromFileAndStore (initialization 8 1) [1, 3]) 8).workerRange.getD 5 (0, 0)
      = (5 * (2 / 8), if 2 / 8 = 0 then 4294967295 else 5 * (2 / 8) + 2 / 8 - 1)) :=
  ⟨⟨init_inv [1, 3] 8 1, by decide, by decide⟩,
    C9_start_and_chunk_size (readFromFileAndStore (initialization 8 1) [1, 3]) 8 2 8 5
      (init_inv [1, 3] 8 1) (by decide) (by decide)⟩

/-- C10: with more than one worker slot, the command given to the active worker `i` of a round
with `a` active workers is a sort, up for an even and down for an odd id, when `a = W`; a merge,
up for an even and down for an odd id, when `1 < a < W`; a merge in the global direction when
`a = 1`. The worker then runs `bitonicSort` for a sort command and `bitonicMerge` for a merge
command on its chunk, with direction `1` for an increasing and `-1` for a decreasing command. -/
theorem C10_command_policy (m : Monitor) (W N a i : Nat) (hI : RoundInv m W N a)
    (hN : N < 2147483648) (hW : 1 < W) (hi : i < a) :
    (assignRanges m a).workerCommand.getD i 0
      = (if a = W then (if i % 2 = 0 then ORDER_NON_BITONIC_INCR else ORDER_NON_BITONIC_DCR)
        else if 1 < a then (if i % 2 = 0 then ORDER_BITONIC_INCR else ORDER_BITONIC_DCR)
        else (if m.dir < 0 then ORDER_BITONIC_DCR else ORDER_BITONIC_INCR)) ∧
    (worker (assignRanges m a) i).sequence
      = (if (assignRanges m a).workerCommand.getD i 0 = ORDER_NON_BITONIC_INCR then
          (bitonicSort m.sequence (i * (N / a)) (N / a) 1).1
        else if (assignRanges m a).workerCommand.getD i 0 = ORDER_NON_BITONIC_DCR then
          (bitonicSort m.sequence (i * (N / a)) (N / a) (-1)).1
        else if (assignRanges m a).workerCommand.getD i 0 = ORDER_BITONIC_INCR then
          (bitonicMerge m.sequence (i * (N / a)) (N / a) 1).1
        else (bitonicMerge m.sequence (i * (N / a)) (N / a) (-1)).1) := by
  obtain ⟨a1, _, _, _, _, _, _, a8, a9⟩ := assignRanges_spec m W N a hI hN
  have haW := hI.2.2.2.2.2.1
  have hbound := mul_chunk_le N a i hi
  have hc := a8 i (by omega)
  rw [if_pos hi] at hc
  rw [worker_active (assignRanges m a) i (i * (N / a)) (N / a) _ (by omega) hc
    (chooseCommand_ne _ _ _ _).2 (a9 i hi), hc, a1]
  constructor
  · unfold chooseCommand
    by_cases h1 : a = 1 <;> by_cases h2 : a = W <;> simp [h1, h2] <;> omega
  · show sortChunk m.sequence _ _ _ = _
    unfold sortChunk
    simp only [Int.toNat_ofNat, Nat.add_zero]
    rcases chooseCommand_cases a W m.dir i with h | h | h | h <;> rw [h] <;>
      simp [ORDER_NON_BITONIC_DCR, ORDER_NON_BITONIC_INCR, ORDER_BITONIC_DCR, ORDER_BITONIC_INCR]

/-- C10, on an instance: the first round of four workers, worker 1. -/
theorem C10_command_policy_witness :
    (RoundInv (readFromFileAndStore (initialization 4 1) [5, 3, 8, 1, 9, 2, 7, 4]) 4 8 4 ∧
      8 < 2147483648 ∧ 1 < 4 ∧ 1 < 4) ∧
    ((assignRanges (readFromFileAndStore (initialization 4 1) [5, 3, 8, 1, 9, 2, 7, 4]) 4).workerCommand.getD 1 0
      = (if 4 = 4 then (if 1 % 2 = 0 then ORDER_NON_BITONIC_INCR else ORDER_NON_BITONIC_DCR)
        else if 1 < 4 then (if 1 % 2 = 0 then ORDER_BITONIC_INCR else ORDER_BITONIC_DCR)
        else (if (readFromFileAndStore (initialization 4 1) [5, 3, 8, 1, 9, 2, 7, 4]).dir < 0
          then ORDER_BITONIC_DCR else ORDER_BITONIC_INCR)) ∧
    (worker (assignRanges (readFromFileAndStore (initialization 4 1) [5, 3, 8, 1, 9, 2, 7, 4]) 4) 1).sequence
      = (if (assignRanges (readFromFileAndStore (initialization 4 1) [5, 3, 8, 1, 9, 2, 7, 4]) 4).workerCommand.getD 1 0
            = ORDER_NON_BITONIC_INCR then
          (bitonicSort (readFromFileAndStore (initialization 4 1) [5, 3, 8, 1, 9, 2, 7, 4]).sequence
            (1 * (8 / 4)) (8 / 4) 1).1
        else if (assignRanges (readFromFileAndStore (initialization 4 1) [5, 3, 8, 1, 9, 2, 7, 4]) 4).workerCommand.getD 1 0
            = ORDER_NON_BITONIC_DCR then
          (bitonicSort (readFromFileAndStore (initialization 4 1) [5, 3, 8, 1, 9, 2, 7, 4]).sequence
            (1 * (8 / 4)) (8 / 4) (-1)).1
        else if (assignRanges (readFromFileAndStore (initialization 4 1) [5, 3, 8, 1, 9, 2, 7, 4]) 4).workerCommand.getD 1 0
            = ORDER_BITONIC_INCR then
          (bitonicMerge (readFromFileAndStore (initialization 4 1) [5, 3, 8, 1, 9, 2, 7, 4]).sequence
            (1 * (8 / 4)) (8 / 4) 1).1
        else (bitonicMerge (readFromFileAndStore (initialization 4 1) [5, 3, 8, 1, 9, 2, 7, 4]).sequence
            (1 * (8 / 4)) (8 / 4) (-1)).1)) :=
  ⟨⟨init_inv [5, 3, 8, 1, 9, 2, 7, 4] 4 1, by decide, by decide, by decide⟩,
    C10_command_policy (readFromFileAndStore (initialization 4 1) [5, 3, 8, 1, 9, 2, 7, 4]) 4 8 4 1
      (init_inv [5, 3, 8, 1, 9, 2, 7, 4] 4 1) (by decide) (by decide) (by decide)⟩


/-! ## The round-closing demotion, the validator and the small sizes -/

/-- C11: the demotion that closes a round replaces the active count `a` by `a / 2` and gives
every worker slot `i < W` the command `AVAILABLE` if `i < a / 2` and `DIE` otherwise; it does not
touch the sequence nor the range table. -/
theorem C11_demotion (m : Monitor) (a : Nat) (hlen : m.workerCommand.length = m.nThreads) :
    distributeRanges m a = (demote (runWorkers (assignRanges m a)) (a / 2), a / 2) ∧
    (demote m (a / 2)).workerCommand.length = m.nThreads ∧
    (∀ i, i < m.nThreads →
      (demote m (a / 2)).workerCommand.getD i 0 = if i < a / 2 then AVAILABLE else DIE) ∧
    (demote m (a / 2)).sequence = m.sequence ∧
    (demote m (a / 2)).workerRange = m.workerRange := by
  obtain ⟨d1, d2⟩ := demote_commands m.workerCommand (a / 2) m.nThreads (by omega)
  refine ⟨rfl, ?_, fun i hi => ?_, rfl, rfl⟩
  · show (forLoop m.nThreads _ m.workerCommand).length = _
    rw [d1, hlen]
  · show (forLoop m.nThreads _ m.workerCommand).getD i 0 = _
    rw [d2 i (by omega), if_pos hi]

/-- C11, on an instance: the region of four workers before the first round, demoted to two. -/
theorem C11_demotion_witness :
    (readFromFileAndStore (initialization 4 1) [5, 3, 8, 1]).workerCommand.length
      = (readFromFileAndStore (initialization 4 1) [5, 3, 8, 1]).nThreads ∧
    (distributeRanges (readFromFileAndStore (initialization 4 1) [5, 3, 8, 1]) 4
      = (demote (runWorkers (assignRanges (readFromFileAndStore (initialization 4 1) [5, 3, 8, 1]) 4))
          (4 / 2), 4 / 2) ∧
    (demote (readFromFileAndStore (initialization 4 1) [5, 3, 8, 1]) (4 / 2)).workerCommand.length
      = (readFromFileAndStore (initialization 4 1) [5, 3, 8, 1]).nThreads ∧
    (∀ i, i < (readFromFileAndStore (initialization 4 1) [5, 3, 8, 1]).nThreads →
      (demote (readFromFileAndStore (initialization 4 1) [5, 3, 8, 1]) (4 / 2)).workerCommand.getD i 0
        = if i < 4 / 2 then AVAILABLE else DIE) ∧
    (demote (readFromFileAndStore (initialization 4 1) [5, 3, 8, 1]) (4 / 2)).sequence
      = (readFromFileAndStore (initialization 4 1) [5, 3, 8, 1]).sequence ∧
    (demote (readFromFileAndStore (initialization 4 1) [5, 3, 8, 1]) (4 / 2)).workerRange
      = (readFromFileAndStore (initialization 4 1) [5, 3, 8, 1]).workerRange) :=
  ⟨by decide, C11_demotion (readFromFileAndStore (initialization 4 1) [5, 3, 8, 1]) 4 (by decide)⟩

/-- The scanning loop of the validator: either no pair is out of order on the stretch and the
loop ends by its test, or it stops at the first pair out of order and prints it. -/
theorem validateScan_spec (seq : List Int) (dir : Int) (left : Nat) : ∀ i,
    ((∀ j, i ≤ j → j < i + left → ¬ outOfOrder seq dir j) ∧
      validateScan seq dir left i = (i + left, [])) ∨
    (∃ j, i ≤ j ∧ j < i + left ∧ outOfOrder seq dir j ∧
      (∀ k, i ≤ k → k < j → ¬ outOfOrder seq dir k) ∧
      validateScan seq dir left i = (j, [Report.error j (ld seq j) (ld seq (j + 1))])) := by
  induction left with
  | zero =>
    intro i
    exact Or.inl ⟨fun j h1 h2 => by omega, rfl⟩
  | succ left ih =>
    intro i
    by_cases hbad : outOfOrder seq dir i
    · refine Or.inr ⟨i, le_refl _, by omega, hbad, fun k h1 h2 => by omega, ?_⟩
      unfold outOfOrder at hbad
      rw [validateScan]
      by_cases hd : dir < 0
      · rw [if_pos hd] at hbad
        rw [if_pos hd, if_pos hbad]
      · rw [if_neg hd] at hbad
        rw [if_neg hd, if_pos hbad]
    · have hstep : validateScan seq dir (left + 1) i = validateScan seq dir left (i + 1) := by
        unfold outOfOrder at hbad
        rw [validateScan]
        by_cases hd : dir < 0
        · rw [if_pos hd] at hbad
          rw [if_pos hd, if_neg hbad]
        · rw [if_neg hd] at hbad
          rw [if_neg hd, if_neg hbad]
      rw [hstep]
      rcases ih (i + 1) with ⟨h1, h2⟩ | ⟨j, h1, h2, h3, h4, h5⟩
      · refine Or.inl ⟨fun j hj1 hj2 => ?_, by rw [h2]; congr 1; omega⟩
        by_cases hji : j = i
        · rw [hji]; exact hbad
        · exact h1 j (by omega) (by omega)
      · refine Or.inr ⟨j, by omega, by omega, h3, fun k hk1 hk2 => ?_, h5⟩
        by_cases hki : k = i
        · rw [hki]; exact hbad
        · exact h4 k (by omega) hk2

/-- The validator on a sequence of at least one element: the region is not changed, and either
no adjacent pair is out of order and `Everything is OK!` is printed, or the first pair out of
order is printed with its position. -/
theorem validateSequence_spec (m : Monitor) (hN : 1 ≤ m.sequenceSize) :
    (validateSequence m).1 = m ∧
    (((∀ j, j + 1 < m.sequenceSize → ¬ outOfOrder m.sequence m.dir j) ∧
        (validateSequence m).2 = [Report.ok]) ∨
      (∃ j, j + 1 < m.sequenceSize ∧ outOfOrder m.sequence m.dir j ∧
        (∀ k, k < j → ¬ outOfOrder m.sequence m.dir k) ∧
        (validateSequence m).2
          = [Report.error j (ld m.sequence j) (ld m.sequence (j + 1))])) := by
  have hleft : ((m.sequenceSize : Int) - 1).toNat = m.sequenceSize - 1 := by omega
  unfold validateSequence
  rw [hleft]
  rcases validateScan_spec m.sequence m.dir (m.sequenceSize - 1) 0 with
    ⟨h1, h2⟩ | ⟨j, _, h2, h3, h4, h5⟩
  · have he : ((0 + (m.sequenceSize - 1) : Nat) : Int) = (m.sequenceSize : Int) - 1 := by omega
    simp only [h2, he, if_true]
    exact ⟨trivial, Or.inl ⟨fun j hj => h1 j (Nat.zero_le _) (by omega), rfl⟩⟩
  · have hne : ¬ ((j : Nat) : Int) = (m.sequenceSize : Int) - 1 := by omega
    simp only [h5, hne, if_false]
    exact ⟨trivial, Or.inr ⟨j, by omega, h3, fun k hk => h4 k (Nat.zero_le _) hk, rfl⟩⟩

/-- C12: the code on the empty sequence. With `sequenceSize = 0` the loop of `validateSequence`
is not entered, `i` stays 0 and is compared with `sequenceSize - 1 = -1`: neither
`Everything is OK!` nor an error is printed, in both directions, although no adjacent pair is out
of order. For one element the success line is printed. -/
theorem C12_validate_empty_prints_nothing :
    (validateSequence (readFromFileAndStore (initialization 4 1) [])).2 = [] ∧
    (validateSequence (readFromFileAndStore (initialization 4 (-1)) [])).2 = [] ∧
    (validateSequence (readFromFileAndStore (initialization 4 1) [7])).2 = [Report.ok] := by
  decide

set_option maxRecDepth 1000000 in
/-- C13: scenario A. From `5, 3, 8, 1, 9, 2, 7, 4` with 4 workers and direction `+1`: the
sequence after round 1 is `3, 5, 8, 1, 2, 9, 7, 4`; round 2 has 2 active workers, worker 0 merging
the cells `[0, 4)` upwards and worker 1 the cells `[4, 8)` downwards; round 3 has 1 active worker
merging the cells `[0, 8)` upwards; the run ends after 3 rounds with `1, 2, 3, 4, 5, 7, 8, 9`. -/
theorem C13_scenario_A :
    (roundStart [5, 3, 8, 1, 9, 2, 7, 4] 4 1 1).1.sequence = [3, 5, 8, 1, 2, 9, 7, 4] ∧
    (roundStart [5, 3, 8, 1, 9, 2, 7, 4] 4 1 1).2 = 2 ∧
    (assignRanges (roundStart [5, 3, 8, 1, 9, 2, 7, 4] 4 1 1).1 2).workerCommand
      = [ORDER_BITONIC_INCR, ORDER_BITONIC_DCR, DIE, DIE] ∧
    (fetchSubSequence (assignRanges (roundStart [5, 3, 8, 1, 9, 2, 7, 4] 4 1 1).1 2) 0).2.2
      = (ORDER_BITONIC_INCR, 4, 0) ∧
    (fetchSubSequence (assignRanges (roundStart [5, 3, 8, 1, 9, 2, 7, 4] 4 1 1).1 2) 1).2.2
      = (ORDER_BITONIC_DCR, 4, 4) ∧
    (roundStart [5, 3, 8, 1, 9, 2, 7, 4] 4 1 2).1.sequence = [1, 3, 5, 8, 9, 7, 4, 2] ∧
    (roundStart [5, 3, 8, 1, 9, 2, 7, 4] 4 1 2).2 = 1 ∧
    (assignRanges (roundStart [5, 3, 8, 1, 9, 2, 7, 4] 4 1 2).1 1).workerCommand
      = [ORDER_BITONIC_INCR, DIE, DIE, DIE] ∧
    (fetchSubSequence (assignRanges (roundStart [5, 3, 8, 1, 9, 2, 7, 4] 4 1 2).1 1) 0).2.2
      = (ORDER_BITONIC_INCR, 8, 0) ∧
    (distributor 3 [5, 3, 8, 1, 9, 2, 7, 4] 4 1).map (fun r => (r.1.sequence, r.2))
      = some ([1, 2, 3, 4, 5, 7, 8, 9], 3) := by
  decide

/-- C17: for a count of 0 or 1, every `low` and every `dir`, `bitonicSort` and `bitonicMerge`
return 0 and leave the sequence as it is. -/
theorem C17_small_counts_noop (seq : List Int) (low count : Nat) (dir : Int) (h : count ≤ 1) :
    bitonicSort seq low count dir = (seq, 0) ∧ bitonicMerge seq low count dir = (seq, 0) := by
  constructor
  · rw [bitonicSort_eq, if_pos h]
  · have hk : ilog2 count = 0 := by
      have : count = 0 ∨ count = 1 := by omega
      rcases this with rfl | rfl <;> rfl
    unfold bitonicMerge
    simp only [isSquare_true, Bool.not_true, Bool.false_eq_true, and_false, if_false, hk]
    rfl

/-- C17, on an instance: count 0 at an offset inside the array, downwards. -/
theorem C17_small_counts_noop_witness :
    0 ≤ 1 ∧ (bitonicSort [3, 1, 2] 1 0 (-1) = ([3, 1, 2], 0) ∧
      bitonicMerge [3, 1, 2] 1 0 (-1) = ([3, 1, 2], 0)) :=
  ⟨by decide, C17_small_counts_noop [3, 1, 2] 1 0 (-1) (by decide)⟩

/-! ## The condition waits -/

/-- The two halves of `fetchSubSequence`, before and after its wait, make up the operation when
nothing happens to the region in between. -/
theorem fetch_wait_wake (m : Monitor) (workerID : Nat)
    (h : m.workerCommand.getD workerID 0 ≠ DIE) :
    (fetchSubSequence_wait m workerID).1 = false ∧
    fetchSubSequence_wake (fetchSubSequence_wait m workerID).2 workerID
      = some ((fetchSubSequence m workerID).2.1, (fetchSubSequence m workerID).2.2.1,
          (fetchSubSequence m workerID).2.2.2.1, (fetchSubSequence m workerID).2.2.2.2) := by
  unfold fetchSubSequence_wait fetchSubSequence_wake fetchSubSequence
  rw [if_neg h, if_neg h]
  exact ⟨rfl, rfl⟩

/-- C18: the code at a wake-up that no broadcast caused. Two workers, nothing assigned yet,
worker 0 waiting in `fetchSubSequence`. The distributor, woken in its first loop with one worker
waiting out of two, waits again, and so it does in its second loop with no worker finished. The
worker, woken in `fetchSubSequence`, goes on: it leaves the monitor with the command `AVAILABLE`
and the range of the initialization. The returns of the waits of `fetchSubSequence` and of
`signalFinished` go on in every state. -/
theorem C18_worker_waits_have_no_loop :
    distributeRanges_wakeWaiting
      (fetchSubSequence_wait (readFromFileAndStore (initialization 2 1) [2, 1]) 0).2 2 = none ∧
    distributeRanges_wakeFinished
      (assignRanges (readFromFileAndStore (initialization 2 1) [2, 1]) 2) 2 = none ∧
    (fetchSubSequence_wake
      (fetchSubSequence_wait (readFromFileAndStore (initialization 2 1) [2, 1]) 0).2 0).map
        (fun r => r.2) = some (AVAILABLE, 1, 0) ∧
    (∀ m workerID, (fetchSubSequence_wake m workerID).isSome = true) ∧
    (∀ m workerID, signalFinished_wake m workerID = some m) :=
  ⟨by decide, by decide, by decide, fun _ _ => rfl, fun _ _ => rfl⟩

/-! ## The message-passing variant and the vowels -/

theorem bitonic_mergeAux_succ (d : Nat) : ∀ (arr : List Int) (low cnt : Nat) (dir : Int),
    cnt ≤ 2 ^ d → bitonic_mergeAux (d + 1) arr low cnt dir = bitonic_mergeAux d arr low cnt dir := by
  induction d with
  | zero =>
    intro arr low cnt dir h
    have : ¬ cnt > 1 := by simpa using h
    simp [bitonic_mergeAux, this]
  | succ d ih =>
    intro arr low cnt dir h
    have h2 : 2 ^ (d + 1) = 2 * 2 ^ d := by rw [pow_succ]; exact Nat.mul_comm _ _
    have hk : cnt / 2 ≤ 2 ^ d := by omega
    rw [bitonic_mergeAux]
    conv_rhs => rw [bitonic_mergeAux]
    simp only [ih _ _ _ _ hk]

theorem bitonic_mergeAux_of_le (arr : List Int) (low cnt : Nat) (dir : Int) (d : Nat)
    (h : cnt ≤ 2 ^ d) :
    ∀ e, bitonic_mergeAux (d + e) arr low cnt dir = bitonic_mergeAux d arr low cnt dir := by
  intro e
  induction e with
  | zero => rfl
  | succ e ih =>
    rw [← Nat.add_assoc, bitonic_mergeAux_succ (d + e) arr low cnt dir
      (le_trans h (Nat.pow_le_pow_right (by omega) (by omega))), ih]

/-- The recursion of `bitonic_merge`: the depth given to it is never exhausted. -/
theorem bitonic_merge_eq (arr : List Int) (low cnt : Nat) (dir : Int) :
    bitonic_merge arr low cnt dir =
      if cnt > 1 then
        bitonic_merge (bitonic_merge (bitonic_mergePass arr low (cnt / 2)) low (cnt / 2) dir)
          (low + cnt / 2) (cnt / 2) dir
      else arr := by
  unfold bitonic_merge
  cases cnt with
  | zero => simp [bitonic_mergeAux]
  | succ n =>
    have hk : (n + 1) / 2 ≤ 2 ^ ((n + 1) / 2) := le_of_lt (Nat.lt_two_pow _)
    have e : ∀ (s : List Int) (l : Nat) (d : Int),
        bitonic_mergeAux n s l ((n + 1) / 2) d = bitonic_mergeAux ((n + 1) / 2) s l ((n + 1) / 2) d := by
      intro s l d
      have h := bitonic_mergeAux_of_le s l ((n + 1) / 2) d ((n + 1) / 2) hk (n - (n + 1) / 2)
      rwa [show (n + 1) / 2 + (n - (n + 1) / 2) = n from by omega] at h
    rw [bitonic_mergeAux]
    simp only [e]

theorem bitonic_sort_recursiveAux_succ (d : Nat) : ∀ (arr : List Int) (low cnt : Nat) (dir : Int),
    cnt ≤ 2 ^ d →
    bitonic_sort_recursiveAux (d + 1) arr low cnt dir = bitonic_sort_recursiveAux d arr low cnt dir := by
  induction d with
  | zero =>
    intro arr low cnt dir h
    have : ¬ cnt > 1 := by simpa using h
    simp [bitonic_sort_recursiveAux, this]
  | succ d ih =>
    intro arr low cnt dir h
    have h2 : 2 ^ (d + 1) = 2 * 2 ^ d := by rw [pow_succ]; exact Nat.mul_comm _ _
    have hk : cnt / 2 ≤ 2 ^ d := by omega
    rw [bitonic_sort_recursiveAux]
    conv_rhs => rw [bitonic_sort_recursiveAux]
    simp only [ih _ _ _ _ hk]

theorem bitonic_sort_recursiveAux_of_le (arr : List Int) (low cnt : Nat) (dir : Int) (d : Nat)
    (h : cnt ≤ 2 ^ d) :
    ∀ e, bitonic_sort_recursiveAux (d + e) arr low cnt dir
      = bitonic_sort_recursiveAux d arr low cnt dir := by
  intro e
  induction e with
  | zero => rfl
  | succ e ih =>
    rw [← Nat.add_assoc, bitonic_sort_recursiveAux_succ (d + e) arr low cnt dir
      (le_trans h (Nat.pow_le_pow_right (by omega) (by omega))), ih]

/-- The recursion of `bitonic_sort_recursive`: the depth given to it is never exhausted. -/
theorem bitonic_sort_recursive_eq (arr : List Int) (low cnt : Nat) (dir : Int) :
    bitonic_sort_recursive arr low cnt dir =
      if cnt > 1 then
        bitonic_merge
          (bitonic_sort_recursive (bitonic_sort_recursive arr low (cnt / 2) 1) (low + cnt / 2)
            (cnt / 2) 0)
          low cnt dir
      else arr := by
  unfold bitonic_sort_recursive
  cases cnt with
  | zero => simp [bitonic_sort_recursiveAux]
  | succ n =>
    have hk : (n + 1) / 2 ≤ 2 ^ ((n + 1) / 2) := le_of_lt (Nat.lt_two_pow _)
    have e : ∀ (s : List Int) (l : Nat) (d : Int),
        bitonic_sort_recursiveAux n s l ((n + 1) / 2) d
          = bitonic_sort_recursiveAux ((n + 1) / 2) s l ((n + 1) / 2) d := by
      intro s l d
      have h := bitonic_sort_recursiveAux_of_le s l ((n + 1) / 2) d ((n + 1) / 2) hk
        (n - (n + 1) / 2)
      rwa [show (n + 1) / 2 + (n - (n + 1) / 2) = n from by omega] at h
    rw [bitonic_sort_recursiveAux]
    simp only [e]

/-- The direction given to `bitonic_merge` has no effect on the array it leaves. -/
theorem bitonic_merge_ignores_dir (d : Nat) : ∀ (arr : List Int) (low cnt : Nat) (dir dir2 : Int),
    bitonic_mergeAux d arr low cnt dir = bitonic_mergeAux d arr low cnt dir2 := by
  induction d with
  | zero => intro arr low cnt dir dir2; rfl
  | succ d ih =>
    intro arr low cnt dir dir2
    rw [bitonic_mergeAux]
    conv_rhs => rw [bitonic_mergeAux]
    simp only [ih _ _ _ dir dir2]

set_option maxRecDepth 1000000 in
/-- C19: the code on four cells. `bitonic_merge` compares with the constant 1 where the direction
was meant, so `bitonic_sort_recursive` leaves both halves ascending and its merge does not sort:
`0, 1, 0, 1` stays as it is and `5, 3, 8, 1` becomes `1, 5, 3, 8`, while `bitonicSort` of CLE1
gives `0, 0, 1, 1` and `1, 3, 5, 8`. The array left by `bitonic_merge` is the same for every
direction. -/
theorem C19_message_passing_sort_differs :
    bitonic_sort_recursive [0, 1, 0, 1] 0 4 1 = [0, 1, 0, 1] ∧
    (bitonicSort [0, 1, 0, 1] 0 4 1).1 = [0, 0, 1, 1] ∧
    bitonic_sort_recursive [5, 3, 8, 1] 0 4 1 = [1, 5, 3, 8] ∧
    (bitonicSort [5, 3, 8, 1] 0 4 1).1 = [1, 3, 5, 8] ∧
    (∀ (arr : List Int) (low cnt : Nat) (dir dir2 : Int),
      bitonic_merge arr low cnt dir = bitonic_merge arr low cnt dir2) :=
  ⟨by decide, by decide, by decide, by decide,
    fun arr low cnt dir dir2 => bitonic_merge_ignores_dir cnt arr low cnt dir dir2⟩

/-- C20: the code on the upper-case U with an accent. The test for the upper-case forms of u is
`bytes[1] <= 0x99 && bytes[1] >= 0x9C`, which no byte passes: `C3 99`, `C3 9A`, `C3 9B` and
`C3 9C` give `x`, while the lower-case forms `C3 B9` to `C3 BC` give `u`, and so do the upper-case
and lower-case ASCII letter. -/
theorem C20_isVowel_upper_accented_u :
    isVowel [0xC3, 0x99, 0, 0] 2 = 0x78 ∧ isVowel [0xC3, 0x9A, 0, 0] 2 = 0x78 ∧
    isVowel [0xC3, 0x9B, 0, 0] 2 = 0x78 ∧ isVowel [0xC3, 0x9C, 0, 0] 2 = 0x78 ∧
    isVowel [0xC3, 0xB9, 0, 0] 2 = 0x75 ∧ isVowel [0xC3, 0xBA, 0, 0] 2 = 0x75 ∧
    isVowel [0xC3, 0xBB, 0, 0] 2 = 0x75 ∧ isVowel [0xC3, 0xBC, 0, 0] 2 = 0x75 ∧
    isVowel [0x55, 0, 0, 0] 1 = 0x75 ∧ isVowel [0x75, 0, 0, 0] 1 = 0x75 ∧
    (∀ b1, isVowel [0xC3, b1, 0, 0] 2 = 0x75 ↔ 0xB9 ≤ b1 ∧ b1 ≤ 0xBC) := by
  refine ⟨by decide, by decide, by decide, by decide, by decide, by decide, by decide, by decide,
    by decide, by decide, fun b1 => ?_⟩
  unfold isVowel
  simp only [List.getD_cons_zero, List.getD_cons_succ]
  constructor
  · intro h
    split_ifs at h <;> omega
  · intro h
    split_ifs <;> omega

/-! ## A single worker, the cells left over, the dead workers -/

/-- The workers from `i` on leave the cells from `i * (N / a)` on as they are. -/
theorem roundSeq_frame (a W : Nat) (dir : Int) (N : Nat) (seq : List Int) (hlen : seq.length = N)
    (i : Nat) (hi : i ≤ a) (x : Nat) (hx : i * (N / a) ≤ x) :
    ld (roundSeq a W dir N i seq) x = ld seq x := by
  induction i with
  | zero => rfl
  | succ k ih =>
    have hl := roundSeq_length a W dir N seq hlen k (by omega)
    have hb := mul_chunk_le N a k (by omega)
    have hs := succ_mul_le k (k + 1) (N / a) (by omega)
    have hb1 : k * (N / a) + N / a ≤ (roundSeq a W dir N k seq).length := by
      rw [hl]
      exact hb
    have hx1 : k * (N / a) + N / a ≤ x := le_trans hs hx
    show ld (sortChunk (roundSeq a W dir N k seq) _ _ _) x = _
    rw [(sortChunk_frame _ _ (N / a) (k * (N / a)) hb1).2 x (Or.inr hx1)]
    exact ih (by omega) (le_trans (Nat.le_add_right _ _) hx1)

/-- The assignment writes no range for a dead worker. -/
theorem assignRanges_dead (m : Monitor) (W N a : Nat) (hI : RoundInv m W N a)
    (hN : N < 2147483648) (j : Nat) (hj : j < W) (hja : a ≤ j) :
    (assignRanges m a).workerRange.getD j (0, 0) = m.workerRange.getD j (0, 0) := by
  have hW := hI.1
  have hsz := hI.2.2.2.1
  obtain ⟨_, _, _, _, _, _, _, _, _, h10⟩ := assign_steps m W N a hI hN W (le_refl _)
  unfold assignRanges
  simp only [hW, hsz]
  rw [h10 j hj, if_neg (by omega)]

/-- A dead worker stays dead while the workers of the round run. -/
theorem runWorkers_dead (m : Monitor) (W N a : Nat) (dir : Int) (hN : N < 2147483648)
    (hW : m.nThreads = W) (hcl : m.workerCommand.length = W)
    (hcmd : ∀ j, j < W → m.workerCommand.getD j 0 = if j < a then chooseCommand a W dir j else DIE)
    (hrng : ∀ j, j < a → m.workerRange.getD j (0, 0)
      = (toU32 ((j * (N / a) : Nat) : Int),
          toU32 (((j * (N / a) : Nat) : Int) + ((N / a : Nat) : Int) - 1)))
    (j : Nat) (hj : j < W) (hja : a ≤ j) (i : Nat) (hi : i ≤ W) :
    (forLoop i (fun id s => worker s id) m).workerCommand.getD j 0 = DIE := by
  induction i with
  | zero =>
    show m.workerCommand.getD j 0 = DIE
    rw [hcmd j hj, if_neg (by omega)]
  | succ i ih =>
    have ih1 := ih (by omega)
    obtain ⟨_, h2, _, _, _, _, _, h8⟩ := runWorkers_steps m W N a dir hN hW hcl hcmd hrng i (by omega)
    show (worker _ i).workerCommand.getD j 0 = DIE
    generalize forLoop i (fun id s => worker s id) m = s at ih1 h2 h8
    have hci := h8 i (le_refl _) (by omega)
    rw [hcmd i (by omega)] at hci
    by_cases hia : i < a
    · rw [if_pos hia] at hci
      have hbound := mul_chunk_le N a i hia
      rw [worker_active s i (i * (N / a)) (N / a) _ (by omega) hci (chooseCommand_ne _ _ _ _).2
        (by rw [h2]; exact hrng i hia)]
      show (s.workerCommand.set i AVAILABLE).getD j 0 = _
      rw [getD_set_eq, if_neg (by omega)]
      exact ih1
    · rw [if_neg hia] at hci
      rw [worker_dead s i hci]
      exact ih1

/-- A worker that is dead at the start of a round is at or beyond the active count of every
later round. -/
theorem dead_stays (file : List Int) (W : Nat) (dir : Int) (h31 : file.length < 2147483648)
    (r i : Nat) (hi : i < W) (hdie : (roundStart file W dir r).1.workerCommand.getD i 0 = DIE)
    (k : Nat) : (roundStart file W dir (r + k)).2 ≤ i := by
  obtain ⟨hI, _, ha⟩ := roundStart_inv file W dir h31 r
  obtain ⟨_, _, hb⟩ := roundStart_inv file W dir h31 (r + k)
  have h := hI.2.2.2.2.2.2 i hi
  rw [hdie] at h
  have h1 : (roundStart file W dir r).2 ≤ i := by
    by_contra hlt
    rw [if_pos (by omega)] at h
    exact absurd h (by decide)
  rw [hb]
  rw [ha] at h1
  have : W / 2 ^ (r + k) ≤ W / 2 ^ r :=
    Nat.div_le_div_left (Nat.pow_le_pow_right (by omega) (by omega)) (Nat.pow_pos (by omega))
  omega

/-- C14: with one worker and a sequence of fewer than `2 ^ 31` cells (of any length, a power of
two or not) and any direction, the loop of the distributor ends after one round and the active
count after that round is 0; in that round worker 0 fetches exactly the cells `[0, N)`, the only
command in the table is the sort of a non-bitonic sequence in the global direction (so no merge
command is issued), and the worker leaves the sequence that `bitonicSort` gives on the whole
array, which is also the final sequence. -/
theorem C14_single_worker (file : List Int) (dir : Int) (fuel : Nat)
    (h31 : file.length < 2147483648) (hf : 1 ≤ fuel) :
    (∃ mf, distributor fuel file 1 dir = some (mf, 1) ∧
      mf.sequence = (bitonicSort file 0 file.length (if dir < 0 then -1 else 1)).1) ∧
    (distributeRanges (readFromFileAndStore (initialization 1 dir) file) 1).2 = 0 ∧
    (∀ x, inChunk (assignRanges (readFromFileAndStore (initialization 1 dir) file) 1) 0 x
      ↔ x < file.length) ∧
    (assignRanges (readFromFileAndStore (initialization 1 dir) file) 1).workerCommand
      = [if dir < 0 then ORDER_NON_BITONIC_DCR else ORDER_NON_BITONIC_INCR] ∧
    (worker (assignRanges (readFromFileAndStore (initialization 1 dir) file) 1) 0).sequence
      = (bitonicSort file 0 file.length (if dir < 0 then -1 else 1)).1 := by
  have hI := init_inv file 1 dir
  obtain ⟨d1, d2, _, _⟩ := distributeRanges_inv _ 1 file.length 1 hI h31
  obtain ⟨a1, _, _, _, _, a6, _, a8, a9⟩ := assignRanges_spec _ 1 file.length 1 hI h31
  have hc := a8 0 (by omega)
  rw [if_pos (by omega)] at hc
  have hcc : chooseCommand 1 1 (readFromFileAndStore (initialization 1 dir) file).dir 0
      = if dir < 0 then ORDER_NON_BITONIC_DCR else ORDER_NON_BITONIC_INCR := by
    simp [chooseCommand, readFromFileAndStore, initialization]
  have hsort : ∀ s : List Int, sortChunk s
      (if dir < 0 then ORDER_NON_BITONIC_DCR else ORDER_NON_BITONIC_INCR)
      ((file.length / 1 : Nat) : Int) (0 * (file.length / 1))
      = (bitonicSort s 0 file.length (if dir < 0 then -1 else 1)).1 := by
    intro s
    unfold sortChunk
    by_cases hd : dir < 0 <;>
      simp [hd, ORDER_NON_BITONIC_DCR, ORDER_NON_BITONIC_INCR]
  have hseq : (distributeRanges (readFromFileAndStore (initialization 1 dir) file) 1).1.sequence
      = (bitonicSort file 0 file.length (if dir < 0 then -1 else 1)).1 := by
    rw [d2]
    show sortChunk file _ _ _ = _
    rw [hcc]
    exact hsort file
  refine ⟨?_, d1, fun x => ?_, ?_, ?_⟩
  · obtain ⟨f, rfl⟩ : ∃ f, fuel = f + 1 := ⟨fuel - 1, by omega⟩
    refine ⟨(distributeRanges (readFromFileAndStore (initialization 1 dir) file) 1).1, ?_, hseq⟩
    have e : distributor (f + 1) file 1 dir
        = if (distributeRanges (readFromFileAndStore (initialization 1 dir) file) 1).2 = 0 then
            some ((distributeRanges (readFromFileAndStore (initialization 1 dir) file) 1).1, 1)
          else (distributorLoop f
            (distributeRanges (readFromFileAndStore (initialization 1 dir) file) 1).1
            (distributeRanges (readFromFileAndStore (initialization 1 dir) file) 1).2).map
              (fun x => (x.1, x.2 + 1)) := rfl
    rw [e, if_pos d1]
  · rw [inChunk_iff _ 1 file.length 1 hI h31 0 (by omega) x]
    simp
  · rw [hcc] at hc
    generalize (assignRanges (readFromFileAndStore (initialization 1 dir) file) 1).workerCommand
      = l at a6 hc
    match l, a6, hc with
    | [c], _, hc => simpa using hc
  · have hbound : 0 * (file.length / 1) + file.length / 1 < 2147483648 := by simpa using h31
    rw [worker_active _ 0 (0 * (file.length / 1)) (file.length / 1) _ hbound hc
      (chooseCommand_ne _ _ _ _).2 (a9 0 (by omega))]
    show sortChunk (assignRanges _ 1).sequence _ _ _ = _
    rw [a1, hcc]
    exact hsort file

/-- C15: in a round with `a` active workers on `N < 2 ^ 31` cells, a cell at an index
`x ≥ a * (N / a)` lies in the chunk of no worker and holds the same value after the round as
before it. -/
theorem C15_remainder_untouched (m : Monitor) (W N a : Nat) (hI : RoundInv m W N a)
    (hN : N < 2147483648) (x : Nat) (hx : a * (N / a) ≤ x) :
    (∀ i, i < W → ¬ inChunk (assignRanges m a) i x) ∧
    ld (distributeRanges m a).1.sequence x = ld m.sequence x := by
  obtain ⟨_, d2, _, _⟩ := distributeRanges_inv m W N a hI hN
  constructor
  · intro i hi h
    rw [inChunk_iff m W N a hI hN i hi x] at h
    have := succ_mul_le i a (N / a) h.1
    omega
  · rw [d2]
    exact roundSeq_frame a W m.dir N m.sequence hI.2.2.2.2.1 a (le_refl _) x hx


/-- The workers and the demotion leave the range table as the assignment wrote it. -/
theorem round_range (m : Monitor) (W N a : Nat) (hI : RoundInv m W N a) (hN : N < 2147483648)
    (t : Nat) (ht : t ≤ W) :
    (forLoop t (fun id s => worker s id) (assignRanges m a)).workerRange
      = (assignRanges m a).workerRange ∧
    (distributeRanges m a).1.workerRange = (assignRanges m a).workerRange := by
  obtain ⟨_, _, a3, _, _, a6, _, a8, a9⟩ := assignRanges_spec m W N a hI hN
  refine ⟨(runWorkers_steps (assignRanges m a) W N a m.dir hN a3 a6 a8 a9 t ht).2.1, ?_⟩
  have h := (runWorkers_steps (assignRanges m a) W N a m.dir hN a3 a6 a8 a9 W (le_refl _)).2.1
  show (runWorkers (assignRanges m a)).workerRange = _
  unfold runWorkers
  rw [a3]
  exact h

/-- C16: a worker slot `i` whose command is `DIE` at the start of some round keeps, `k` rounds
later, the command `DIE` and the range it had: at the start of that round, after its assignment
and after each worker turn of it; in each of these states `fetchSubSequence` returns the quit
flag and leaves the region, with `waitingWorkers`, as it is. -/
theorem C16_die_is_terminal (file : List Int) (W : Nat) (dir : Int)
    (h31 : file.length < 2147483648) (r i : Nat) (hi : i < W)
    (hdie : (roundStart file W dir r).1.workerCommand.getD i 0 = DIE) (k : Nat) :
    (roundStart file W dir (r + k)).1.workerCommand.getD i 0 = DIE ∧
    (roundStart file W dir (r + k)).1.workerRange.getD i (0, 0)
      = (roundStart file W dir r).1.workerRange.getD i (0, 0) ∧
    fetchSubSequence (roundStart file W dir (r + k)).1 i
      = (true, (roundStart file W dir (r + k)).1, 0, 0, 0) ∧
    (∀ t, t ≤ W →
      (roundWorking file W dir (r + k) t).workerCommand.getD i 0 = DIE ∧
      (roundWorking file W dir (r + k) t).workerRange.getD i (0, 0)
        = (roundStart file W dir r).1.workerRange.getD i (0, 0) ∧
      fetchSubSequence (roundWorking file W dir (r + k) t) i
        = (true, roundWorking file W dir (r + k) t, 0, 0, 0)) := by
  have hrange : ∀ k, (roundStart file W dir (r + k)).1.workerRange.getD i (0, 0)
      = (roundStart file W dir r).1.workerRange.getD i (0, 0) := by
    intro k
    induction k with
    | zero => rfl
    | succ k ih =>
      obtain ⟨hI, _, _⟩ := roundStart_inv file W dir h31 (r + k)
      have hd := dead_stays file W dir h31 r i hi hdie k
      show (distributeRanges (roundStart file W dir (r + k)).1
        (roundStart file W dir (r + k)).2).1.workerRange.getD i (0, 0) = _
      rw [(round_range _ W _ _ hI h31 0 (by omega)).2, assignRanges_dead _ W _ _ hI h31 i hi hd]
      exact ih
  obtain ⟨hI, _, _⟩ := roundStart_inv file W dir h31 (r + k)
  have hd := dead_stays file W dir h31 r i hi hdie k
  have hcmd : (roundStart file W dir (r + k)).1.workerCommand.getD i 0 = DIE := by
    rw [hI.2.2.2.2.2.2 i hi, if_neg (by omega)]
  obtain ⟨_, _, a3, _, _, a6, _, a8, a9⟩ := assignRanges_spec _ W _ _ hI h31
  refine ⟨hcmd, hrange k, fetch_dead _ i hcmd, fun t ht => ?_⟩
  have hc := runWorkers_dead _ W _ _ _ h31 a3 a6 a8 a9 i hi hd t ht
  refine ⟨hc, ?_, fetch_dead _ i hc⟩
  show (forLoop t (fun id s => worker s id) _).workerRange.getD i (0, 0) = _
  rw [(round_range _ W _ _ hI h31 t ht).1, assignRanges_dead _ W _ _ hI h31 i hi hd]
  exact hrange k

/-- C14, on an instance: four cells, descending. -/
theorem C14_single_worker_witness :
    ([(3 : Int), 1, 2, 0].length < 2147483648 ∧ 1 ≤ 1) ∧
    ((∃ mf, distributor 1 [3, 1, 2, 0] 1 (-1) = some (mf, 1) ∧
      mf.sequence = (bitonicSort [3, 1, 2, 0] 0 [(3 : Int), 1, 2, 0].length
        (if (-1 : Int) < 0 then -1 else 1)).1) ∧
    (distributeRanges (readFromFileAndStore (initialization 1 (-1)) [3, 1, 2, 0]) 1).2 = 0 ∧
    (∀ x, inChunk (assignRanges (readFromFileAndStore (initialization 1 (-1)) [3, 1, 2, 0]) 1) 0 x
      ↔ x < [(3 : Int), 1, 2, 0].length) ∧
    (assignRanges (readFromFileAndStore (initialization 1 (-1)) [3, 1, 2, 0]) 1).workerCommand
      = [if (-1 : Int) < 0 then ORDER_NON_BITONIC_DCR else ORDER_NON_BITONIC_INCR] ∧
    (worker (assignRanges (readFromFileAndStore (initialization 1 (-1)) [3, 1, 2, 0]) 1) 0).sequence
      = (bitonicSort [3, 1, 2, 0] 0 [(3 : Int), 1, 2, 0].length
        (if (-1 : Int) < 0 then -1 else 1)).1) :=
  ⟨⟨by decide, by decide⟩, C14_single_worker [3, 1, 2, 0] (-1) 1 (by decide) (by decide)⟩

/-- C15, on an instance: four workers on six cells, the last cell. -/
theorem C15_remainder_untouched_witness :
    (RoundInv (readFromFileAndStore (initialization 4 1) [6, 5, 4, 3, 2, 1]) 4 6 4 ∧
      6 < 2147483648 ∧ 4 * (6 / 4) ≤ 5) ∧
    ((∀ i, i < 4 →
      ¬ inChunk (assignRanges (readFromFileAndStore (initialization 4 1) [6, 5, 4, 3, 2, 1]) 4) i 5) ∧
    ld (distributeRanges (readFromFileAndStore (initialization 4 1) [6, 5, 4, 3, 2, 1]) 4).1.sequence 5
      = ld (readFromFileAndStore (initialization 4 1) [6, 5, 4, 3, 2, 1]).sequence 5) :=
  ⟨⟨init_inv [6, 5, 4, 3, 2, 1] 4 1, by decide, by decide⟩,
    C15_remainder_untouched (readFromFileAndStore (initialization 4 1) [6, 5, 4, 3, 2, 1]) 4 6 4
      (init_inv [6, 5, 4, 3, 2, 1] 4 1) (by decide) 5 (by decide)⟩

set_option maxRecDepth 1000000 in
/-- C16, on an instance: worker 2 of four, dead after the first round, one round later. -/
theorem C16_die_is_terminal_witness :
    ([(5 : Int), 3, 8, 1].length < 2147483648 ∧ 2 < 4 ∧
      (roundStart [5, 3, 8, 1] 4 1 1).1.workerCommand.getD 2 0 = DIE) ∧
    ((roundStart [5, 3, 8, 1] 4 1 (1 + 1)).1.workerCommand.getD 2 0 = DIE ∧
    (roundStart [5, 3, 8, 1] 4 1 (1 + 1)).1.workerRange.getD 2 (0, 0)
      = (roundStart [5, 3, 8, 1] 4 1 1).1.workerRange.getD 2 (0, 0) ∧
    fetchSubSequence (roundStart [5, 3, 8, 1] 4 1 (1 + 1)).1 2
      = (true, (roundStart [5, 3, 8, 1] 4 1 (1 + 1)).1, 0, 0, 0) ∧
    (∀ t, t ≤ 4 →
      (roundWorking [5, 3, 8, 1] 4 1 (1 + 1) t).workerCommand.getD 2 0 = DIE ∧
      (roundWorking [5, 3, 8, 1] 4 1 (1 + 1) t).workerRange.getD 2 (0, 0)
        = (roundStart [5, 3, 8, 1] 4 1 1).1.workerRange.getD 2 (0, 0) ∧
      fetchSubSequence (roundWorking [5, 3, 8, 1] 4 1 (1 + 1) t) 2
        = (true, roundWorking [5, 3, 8, 1] 4 1 (1 + 1) t, 0, 0, 0))) :=
  ⟨⟨by decide, by decide, by decide⟩,
    C16_die_is_terminal [5, 3, 8, 1] 4 1 (by decide) 1 2 (by decide) (by decide) 1⟩

/-! ## The letters of the vowel count and the size check -/

/-- C21 fails on the code: for a character of one byte `isAlpha` answers true exactly for the
bytes `0x41` to `0x90`, so for the byte `0x5B`, the character `[`, which is no letter, it answers
true. -/
theorem C21_isAlpha_accepts_bracket :
    isAlpha [0x5B, 0, 0, 0] 1 = true ∧
    ¬ ((0x41 ≤ 0x5B ∧ 0x5B ≤ 0x5A) ∨ (0x61 ≤ 0x5B ∧ 0x5B ≤ 0x7A)) ∧
    (∀ b b1 b2 b3 : Nat, isAlpha [b, b1, b2, b3] 1 = true ↔ 0x41 ≤ b ∧ b ≤ 0x90) := by
  refine ⟨by decide, by decide, fun b b1 b2 b3 => ?_⟩
  simp only [isAlpha, List.getD_cons_zero, if_true]
  constructor
  · intro h
    split_ifs at h with h1
    · omega
  · intro h
    rw [if_pos (Or.inl ⟨h.1, h.2⟩)]

/-- C24 fails on the code: `isSquare` answers true for every number, so for 2, which is not a
perfect square. -/
theorem C24_isSquare_accepts_two :
    isSquare 2 = true ∧ (¬ ∃ r : Nat, 2 = r * r) ∧ (∀ n, isSquare n = true) := by
  refine ⟨isSquare_true 2, ?_, isSquare_true⟩
  rintro ⟨r, hr⟩
  rcases Nat.lt_or_ge r 2 with h | h
  · interval_cases r <;> omega
  · have := Nat.mul_le_mul h h
    omega

/-- C25: when the length of the sequence, below `2 ^ 31`, and the number of workers are both
powers of two (the number of workers may exceed the length, the chunks of the first rounds are
then empty), the loop of the distributor, given at least `W` rounds, ends after `e + 1` rounds for
`W = 2 ^ e` and leaves the sequence non-decreasing if `dir > 0` and non-increasing if
`dir < 0`. -/
theorem C25_pow2_sizes_sorted (file : List Int) (W : Nat) (dir : Int) (fuel : Nat)
    (hN : ∃ n, file.length = 2 ^ n) (hW : ∃ e, W = 2 ^ e)
    (h31 : file.length < 2147483648) (hf : W ≤ fuel) :
    ∃ mf e, W = 2 ^ e ∧ distributor fuel file W dir = some (mf, e + 1) ∧
      mf.sequence.length = file.length ∧
      (0 < dir → List.Sorted (· ≤ ·) mf.sequence) ∧
      (dir < 0 → List.Sorted (· ≥ ·) mf.sequence) := by
  obtain ⟨n, hN⟩ := hN
  obtain ⟨e, rfl⟩ := hW
  have hI := init_inv file (2 ^ e) dir
  rw [hN] at hI h31
  have hfe : e < fuel := lt_of_lt_of_le (Nat.lt_two_pow e) hf
  obtain ⟨mf, h1, h2, h3⟩ := loop_sorts e n dir h31 e (le_refl _) _ hI rfl
    (fun h => absurd h (lt_irrefl e)) fuel hfe
  refine ⟨mf, e, rfl, h1, by rw [h2, hN], fun hd => ?_, fun hd => ?_⟩
  · rw [if_neg (not_lt.mpr (le_of_lt hd))] at h3
    have := (slice_sorted_of_up mf.sequence 0 (2 ^ n) 1 (by omega) h3).1 (by decide)
    rwa [← h2, slice_all] at this
  · rw [if_pos hd] at h3
    have := (slice_sorted_of_up mf.sequence 0 (2 ^ n) (-1) (by omega) h3).2 (by decide)
    rwa [← h2, slice_all] at this

/-- C25, on an instance: two cells, eight workers, descending. -/
theorem C25_pow2_sizes_sorted_witness :
    ((∃ n, [(1 : Int), 3].length = 2 ^ n) ∧ (∃ e, 8 = 2 ^ e) ∧
      [(1 : Int), 3].length < 2147483648 ∧ 8 ≤ 8) ∧
    ∃ mf e, 8 = 2 ^ e ∧ distributor 8 [1, 3] 8 (-1) = some (mf, e + 1) ∧
      mf.sequence.length = [(1 : Int), 3].length ∧
      ((0 : Int) < -1 → List.Sorted (· ≤ ·) mf.sequence) ∧
      ((-1 : Int) < 0 → List.Sorted (· ≥ ·) mf.sequence) :=
  ⟨⟨⟨1, by decide⟩, ⟨3, by decide⟩, by decide, by decide⟩,
    C25_pow2_sizes_sorted [1, 3] 8 (-1) 8 ⟨1, by decide⟩ ⟨3, by decide⟩ (by decide) (by decide)⟩

/-! ## The calls of `CAPS`: what the loops make -/

/-- A loop that appends one item each turn collects the items of its turns. -/
theorem forLoop_collect {α : Type} (f : Nat → α) (n : Nat) :
    forLoop n (fun t l => l ++ [f t]) [] = (List.range n).map f := by
  induction n with
  | zero => rfl
  | succ n ih =>
    show forLoop n (fun t l => l ++ [f t]) [] ++ [f n] = _
    rw [ih, List.range_succ, List.map_append]
    rfl

/-- A loop that applies one step each turn is the fold of the steps of its turns. -/
theorem forLoop_foldl {σ α : Type} (f : Nat → α) (g : σ → α → σ) (n : Nat) (s : σ) :
    forLoop n (fun t x => g x (f t)) s = ((List.range n).map f).foldl g s := by
  induction n with
  | zero => rfl
  | succ n ih =>
    show g (forLoop n (fun t x => g x (f t)) s) (f n) = _
    rw [ih, List.range_succ, List.map_append, List.foldl_append]
    rfl

theorem mergeGroupCalls_eq (low u v : Nat) (dir : Int) :
    mergeGroupCalls low u v dir
      = (List.range v).map (fun t => (low + t + u, low + t + u + v, dir)) :=
  forLoop_collect _ v

theorem mergeLevelCalls_eq (low v nL : Nat) (dir : Int) :
    mergeLevelCalls low v nL dir
      = ((List.range nL).map (fun g => mergeGroupCalls low (g * (2 * v)) v dir),
          nL * (2 * v)) := by
  unfold mergeLevelCalls
  induction nL with
  | zero => simp [forLoop]
  | succ n ih =>
    show ((forLoop n _ ([], 0)).1 ++ [mergeGroupCalls low (forLoop n _ ([], 0)).2 v dir],
      (forLoop n _ ([], 0)).2 + (v <<< 1)) = _
    rw [ih, List.range_succ, List.map_append, Nat.shiftLeft_eq]
    simp only [List.map_cons, List.map_nil, pow_one, Prod.mk.injEq, true_and]
    ring

theorem mergeLevelsCalls_eq (k low v nL : Nat) (dir : Int) :
    mergeLevelsCalls k low v nL dir
      = ((List.range k).map (fun m => (mergeLevelCalls low (v / 2 ^ m) (nL * 2 ^ m) dir).1),
          v / 2 ^ k, nL * 2 ^ k) := by
  unfold mergeLevelsCalls
  induction k with
  | zero => simp [forLoop]
  | succ n ih =>
    show ((forLoop n _ ([], v, nL)).1 ++
        [(mergeLevelCalls low (forLoop n _ ([], v, nL)).2.1 (forLoop n _ ([], v, nL)).2.2 dir).1],
      (forLoop n _ ([], v, nL)).2.1 >>> 1, (forLoop n _ ([], v, nL)).2.2 <<< 1) = _
    rw [ih, List.range_succ, List.map_append, Nat.shiftLeft_eq, Nat.shiftRight_eq_div_pow]
    simp only [List.map_cons, List.map_nil, pow_one, Prod.mk.injEq, true_and]
    constructor
    · rw [Nat.div_div_eq_div_mul, pow_succ]
    · rw [pow_succ]
      ring

theorem runCalls_append (c1 c2 : List (Nat × Nat × Int)) (seq : List Int) :
    runCalls (c1 ++ c2) seq = runCalls c2 (runCalls c1 seq) := by
  unfold runCalls
  rw [List.foldl_append]

/-- The `for (t ...)` loop makes its calls. -/
theorem mergeGroup_run (seq : List Int) (low u v : Nat) (dir : Int) :
    mergeGroup seq low u v dir = runCalls (mergeGroupCalls low u v dir) seq := by
  rw [mergeGroupCalls_eq]
  exact forLoop_foldl (fun t => (low + t + u, low + t + u + v, dir))
    (fun s c => CAPS s c.1 c.2.1 c.2.2) v seq

/-- The `while (n < nL)` loop makes its calls. -/
theorem mergeLevel_run (seq : List Int) (low v nL : Nat) (dir : Int) :
    mergeLevel seq low v nL dir
      = (runCalls (mergeLevelCalls low v nL dir).1.flatten seq,
          (mergeLevelCalls low v nL dir).2) := by
  unfold mergeLevel mergeLevelCalls
  induction nL with
  | zero => rfl
  | succ n ih =>
    show (mergeGroup (forLoop n _ (seq, 0)).1 low (forLoop n _ (seq, 0)).2 v dir,
      (forLoop n _ (seq, 0)).2 + (v <<< 1)) = _
    rw [ih]
    show _ = (runCalls ((forLoop n _ ([], 0)).1 ++
      [mergeGroupCalls low (forLoop n _ ([], 0)).2 v dir]).flatten seq, _)
    rw [List.flatten_append, runCalls_append, mergeGroup_run]
    simp only [List.flatten_cons, List.flatten_nil, List.append_nil]
    rfl

/-- The `for (m ...)` loop makes its calls. -/
theorem mergeLevels_run (k : Nat) (seq : List Int) (low v nL : Nat) (dir : Int) :
    mergeLevels k seq low v nL dir
      = (runCalls (mergeLevelsCalls k low v nL dir).1.flatten.flatten seq,
          (mergeLevelsCalls k low v nL dir).2) := by
  unfold mergeLevels mergeLevelsCalls
  induction k with
  | zero => rfl
  | succ n ih =>
    show ((mergeLevel (forLoop n _ (seq, v, nL)).1 low (forLoop n _ (seq, v, nL)).2.1
        (forLoop n _ (seq, v, nL)).2.2 dir).1,
      (forLoop n _ (seq, v, nL)).2.1 >>> 1, (forLoop n _ (seq, v, nL)).2.2 <<< 1) = _
    rw [ih]
    show _ = (runCalls ((forLoop n _ ([], v, nL)).1 ++
      [(mergeLevelCalls low (forLoop n _ ([], v, nL)).2.1 (forLoop n _ ([], v, nL)).2.2 dir).1]
        ).flatten.flatten seq, _)
    rw [List.flatten_append, List.flatten_append, runCalls_append, mergeLevel_run]
    simp only [List.flatten_cons, List.flatten_nil, List.append_nil]
    rfl

/-- The array left by `bitonicMerge` is the one left by its calls of `CAPS`. -/
theorem bitonicMerge_run (seq : List Int) (low N : Nat) (dir : Int) :
    (bitonicMerge seq low N dir).1 = runCalls (bitonicMergeCalls low N dir).flatten.flatten seq := by
  unfold bitonicMerge bitonicMergeCalls
  simp only [isSquare_true, Bool.not_true, Bool.false_eq_true, and_false, if_false]
  rw [mergeLevels_run]

/-- The array left by `bitonicSort` is the one left by its calls of `CAPS`. -/
theorem bitonicSortAux_run (depth : Nat) : ∀ (seq : List Int) (low N : Nat) (dir : Int),
    (bitonicSortAux depth seq low N dir).1 = runCalls (bitonicSortCallsAux depth low N dir) seq := by
  induction depth with
  | zero => intro seq low N dir; rfl
  | succ d ih =>
    intro seq low N dir
    unfold bitonicSortAux bitonicSortCallsAux
    by_cases h1 : N ≤ 1
    · rw [if_pos h1, if_pos h1]
      rfl
    · rw [if_neg h1, if_neg h1]
      simp only [isSquare_true, Bool.not_true, Bool.false_eq_true, if_false]
      rw [runCalls_append, runCalls_append, ← ih, ← ih, ← bitonicMerge_run]
      split_ifs <;> rfl

theorem bitonicSort_run (seq : List Int) (low N : Nat) (dir : Int) :
    (bitonicSort seq low N dir).1 = runCalls (bitonicSortCalls low N dir) seq :=
  bitonicSortAux_run N seq low N dir

/-- The sorting step of a worker makes its calls. -/
theorem sortChunk_run (seq : List Int) (command chunkSize : Int) (chunk : Nat) :
    sortChunk seq command chunkSize chunk = runCalls (sortChunkCalls command chunkSize chunk) seq := by
  unfold sortChunk sortChunkCalls
  simp only [bitonicSort_run, bitonicMerge_run]
  split_ifs <;> rfl

/-! ## The calls of `CAPS`: where they go -/

theorem bitonicMergeCalls_eq (low N : Nat) (dir : Int) :
    bitonicMergeCalls low N dir
      = (List.range (ilog2 N)).map (fun m =>
          (List.range (1 * 2 ^ m)).map (fun g =>
            (List.range ((N >>> 1) / 2 ^ m)).map (fun t =>
              (low + t + g * (2 * ((N >>> 1) / 2 ^ m)),
                low + t + g * (2 * ((N >>> 1) / 2 ^ m)) + (N >>> 1) / 2 ^ m, dir)))) := by
  unfold bitonicMergeCalls
  simp only [isSquare_true, Bool.not_true, Bool.false_eq_true, and_false, if_false]
  rw [mergeLevelsCalls_eq]
  simp only [mergeLevelCalls_eq, mergeGroupCalls_eq]

/-- The groups of level `m` fit in the block: `2 ^ m` groups of `2 * v` cells. -/
theorem level_fits (N m : Nat) : 2 ^ m * (2 * ((N >>> 1) / 2 ^ m)) ≤ N := by
  have h1 : 2 ^ m * ((N >>> 1) / 2 ^ m) ≤ N >>> 1 := Nat.mul_div_le _ _
  have h2 : N >>> 1 = N / 2 := by simp [Nat.shiftRight_eq_div_pow]
  have h3 : 2 ^ m * (2 * ((N >>> 1) / 2 ^ m)) = 2 * (2 ^ m * ((N >>> 1) / 2 ^ m)) := by ring
  rw [h3]
  omega

/-- A call of `CAPS` made by `bitonicMerge`: where it is made and what it compares. -/
theorem mem_mergeCalls (low N : Nat) (dir : Int) (c : Nat × Nat × Int)
    (hc : c ∈ (bitonicMergeCalls low N dir).flatten.flatten) :
    ∃ m g t, m < ilog2 N ∧ g < 2 ^ m ∧ t < (N >>> 1) / 2 ^ m ∧
      c = (low + t + g * (2 * ((N >>> 1) / 2 ^ m)),
        low + t + g * (2 * ((N >>> 1) / 2 ^ m)) + (N >>> 1) / 2 ^ m, dir) := by
  rw [bitonicMergeCalls_eq] at hc
  simp only [List.mem_flatten, List.mem_map, List.mem_range] at hc
  obtain ⟨grp, ⟨lvl, ⟨m, hm, rfl⟩, hg⟩, ht⟩ := hc
  simp only [List.mem_map, List.mem_range] at hg
  obtain ⟨g, hg, rfl⟩ := hg
  simp only [List.mem_map, List.mem_range] at ht
  obtain ⟨t, ht, rfl⟩ := ht
  exact ⟨m, g, t, hm, by omega, ht, rfl⟩

/-- Every call of `CAPS` made by `bitonicMerge` compares two cells of the block, the first before
the second, in the direction of the merge. -/
theorem mergeCalls_bounds (low N : Nat) (dir : Int) (c : Nat × Nat × Int)
    (hc : c ∈ (bitonicMergeCalls low N dir).flatten.flatten) :
    low ≤ c.1 ∧ c.1 < c.2.1 ∧ c.2.1 < low + N ∧ c.2.2 = dir := by
  obtain ⟨m, g, t, _, hg, ht, rfl⟩ := mem_mergeCalls low N dir c hc
  have h1 := succ_mul_le g (2 ^ m) (2 * ((N >>> 1) / 2 ^ m)) hg
  have h2 := level_fits N m
  generalize (N >>> 1) / 2 ^ m = v at *
  generalize g * (2 * v) = gv at *
  generalize 2 ^ m * (2 * v) = pv at *
  refine ⟨?_, ?_, ?_, rfl⟩ <;> simp only <;> omega

/-- Every call of `CAPS` made by `bitonicSort` compares two cells of the block, the first before
the second. -/
theorem sortCallsAux_bounds (depth : Nat) : ∀ (low N : Nat) (dir : Int) (c : Nat × Nat × Int),
    c ∈ bitonicSortCallsAux depth low N dir → low ≤ c.1 ∧ c.1 < c.2.1 ∧ c.2.1 < low + N := by
  induction depth with
  | zero =>
    intro low N dir c hc
    simp [bitonicSortCallsAux] at hc
  | succ d ih =>
    intro low N dir c hc
    unfold bitonicSortCallsAux at hc
    by_cases h1 : N ≤ 1
    · rw [if_pos h1] at hc
      simp at hc
    · rw [if_neg h1] at hc
      simp only [isSquare_true, Bool.not_true, Bool.false_eq_true, if_false, List.mem_append] at hc
      rcases hc with (hc | hc) | hc
      · have := ih _ _ _ c hc
        omega
      · have := ih _ _ _ c hc
        omega
      · have := mergeCalls_bounds low N dir c hc
        omega

theorem sortCalls_bounds (low N : Nat) (dir : Int) (c : Nat × Nat × Int)
    (hc : c ∈ bitonicSortCalls low N dir) : low ≤ c.1 ∧ c.1 < c.2.1 ∧ c.2.1 < low + N :=
  sortCallsAux_bounds N low N dir c hc

/-- Every call of `CAPS` made by the sorting step of a worker compares two cells of its chunk. -/
theorem sortChunkCalls_bounds (command : Int) (n chunk : Nat) (c : Nat × Nat × Int)
    (hc : c ∈ sortChunkCalls command (n : Int) chunk) :
    chunk ≤ c.1 ∧ c.1 < c.2.1 ∧ c.2.1 < chunk + n := by
  unfold sortChunkCalls at hc
  simp only [Int.toNat_ofNat, Nat.add_zero] at hc
  by_cases h1 : command = ORDER_NON_BITONIC_DCR ∨ command = ORDER_NON_BITONIC_INCR
  · rw [if_pos h1] at hc
    exact sortCalls_bounds _ _ _ c hc
  · rw [if_neg h1] at hc
    by_cases h2 : command = ORDER_BITONIC_DCR ∨ command = ORDER_BITONIC_INCR
    · rw [if_pos h2] at hc
      have := mergeCalls_bounds _ _ _ c hc
      exact ⟨this.1, this.2.1, this.2.2.1⟩
    · rw [if_neg h2] at hc
      simp at hc

/-! ## What a list of calls of `CAPS` does to the array -/

theorem ext_ld (s t : List Int) (hl : s.length = t.length) (h : ∀ x, ld s x = ld t x) : s = t := by
  refine List.ext_getElem hl (fun n h1 h2 => ?_)
  have := h n
  rwa [ld_eq_getElem _ _ h1, ld_eq_getElem _ _ h2] at this

theorem runCalls_cons (c : Nat × Nat × Int) (calls : List (Nat × Nat × Int)) (seq : List Int) :
    runCalls (c :: calls) seq = runCalls calls (CAPS seq c.1 c.2.1 c.2.2) := rfl

theorem runCalls_length (calls : List (Nat × Nat × Int)) : ∀ (seq : List Int),
    (runCalls calls seq).length = seq.length := by
  induction calls with
  | nil => intro seq; rfl
  | cons c cs ih =>
    intro seq
    rw [runCalls_cons, ih, CAPS_length]

/-- A cell that no call names keeps its value. -/
theorem runCalls_frame (calls : List (Nat × Nat × Int)) (x : Nat) : ∀ (seq : List Int),
    (∀ c ∈ calls, x ≠ c.1 ∧ x ≠ c.2.1) → ld (runCalls calls seq) x = ld seq x := by
  induction calls with
  | nil => intro seq _; rfl
  | cons c cs ih =>
    intro seq h
    have hc := h c (List.mem_cons_self _ _)
    rw [runCalls_cons, ih _ (fun d hd => h d (List.mem_cons_of_mem _ hd)),
      CAPS_other seq c.1 c.2.1 x c.2.2 hc.1 hc.2]

/-- Exchanging two cells of the array gives a permutation of it. -/
theorem swap_perm (s : List Int) (i j : Nat) (hi : i < s.length) (hj : j < s.length)
    (hij : i ≠ j) : ((s.set i (ld s j)).set j (ld s i)).Perm s := by
  rw [ld_eq_getElem s i hi, ld_eq_getElem s j hj, List.perm_iff_count]
  intro x
  have hj1 : j < (s.set i s[j]).length := by simpa using hj
  rw [List.count_set _ _ _ _ hj1, List.count_set _ _ _ _ hi, List.getElem_set_ne hij]
  have hpos : s[i] = x → 0 < s.count x := fun h =>
    List.count_pos_iff.mpr (h ▸ List.getElem_mem hi)
  by_cases h1 : s[i] = x
  · have := hpos h1
    by_cases h2 : s[j] = x <;> simp [h1, h2] <;> omega
  · by_cases h2 : s[j] = x <;> simp [h1, h2]

theorem CAPS_perm (seq : List Int) (i j : Nat) (dir : Int) (hi : i < seq.length)
    (hj : j < seq.length) (hij : i ≠ j) : (CAPS seq i j dir).Perm seq := by
  unfold CAPS
  split_ifs
  · exact swap_perm seq i j hi hj hij
  · exact List.Perm.refl _
  · exact swap_perm seq i j hi hj hij
  · exact List.Perm.refl _

/-- Calls of `CAPS` on pairs of distinct cells of the array leave a permutation of it. -/
theorem runCalls_perm (calls : List (Nat × Nat × Int)) : ∀ (seq : List Int),
    (∀ c ∈ calls, c.1 < c.2.1 ∧ c.2.1 < seq.length) → (runCalls calls seq).Perm seq := by
  induction calls with
  | nil => intro seq _; exact List.Perm.refl _
  | cons c cs ih =>
    intro seq h
    have hc := h c (List.mem_cons_self _ _)
    rw [runCalls_cons]
    refine (ih _ (fun d hd => ?_)).trans (CAPS_perm seq c.1 c.2.1 c.2.2 (by omega) hc.2 (by omega))
    rw [CAPS_length]
    exact h d (List.mem_cons_of_mem _ hd)

/-- What `CAPS` leaves in its two cells depends on these two cells only. -/
theorem CAPS_local (s t : List Int) (k l : Nat) (d : Int) (hlen : s.length = t.length)
    (hk : ld s k = ld t k) (hl : ld s l = ld t l) :
    ld (CAPS s k l d) k = ld (CAPS t k l d) k ∧ ld (CAPS s k l d) l = ld (CAPS t k l d) l := by
  unfold CAPS
  rw [hk, hl]
  split_ifs <;> simp [ld_set, hlen, hk, hl]

/-- Two calls of `CAPS` on pairs without a common cell can be exchanged. -/
theorem CAPS_comm (s : List Int) (i j k l : Nat) (d d2 : Int)
    (h : i ≠ k ∧ i ≠ l ∧ j ≠ k ∧ j ≠ l) :
    CAPS (CAPS s i j d) k l d2 = CAPS (CAPS s k l d2) i j d := by
  refine ext_ld _ _ (by simp only [CAPS_length]) (fun x => ?_)
  by_cases hx : x = k ∨ x = l
  · have e1 := CAPS_local (CAPS s i j d) s k l d2 (CAPS_length _ _ _ _)
      (CAPS_other s i j k d (by omega) (by omega)) (CAPS_other s i j l d (by omega) (by omega))
    rw [CAPS_other (CAPS s k l d2) i j x d (by omega) (by omega)]
    rcases hx with rfl | rfl
    · exact e1.1
    · exact e1.2
  · by_cases hy : x = i ∨ x = j
    · have e1 := CAPS_local (CAPS s k l d2) s i j d (CAPS_length _ _ _ _)
        (CAPS_other s k l i d2 (by omega) (by omega)) (CAPS_other s k l j d2 (by omega) (by omega))
      rw [CAPS_other (CAPS s i j d) k l x d2 (by omega) (by omega)]
      rcases hy with rfl | rfl
      · exact e1.1.symm
      · exact e1.2.symm
    · rw [CAPS_other _ k l x d2 (by omega) (by omega), CAPS_other _ i j x d (by omega) (by omega),
        CAPS_other _ i j x d (by omega) (by omega), CAPS_other _ k l x d2 (by omega) (by omega)]

theorem runCalls_CAPS_comm (calls : List (Nat × Nat × Int)) (k l : Nat) (d : Int) :
    ∀ (s : List Int), (∀ c ∈ calls, c.1 ≠ k ∧ c.1 ≠ l ∧ c.2.1 ≠ k ∧ c.2.1 ≠ l) →
    runCalls calls (CAPS s k l d) = CAPS (runCalls calls s) k l d := by
  induction calls with
  | nil => intro s _; rfl
  | cons c cs ih =>
    intro s h
    rw [runCalls_cons, runCalls_cons, ← CAPS_comm s c.1 c.2.1 k l c.2.2 d
      (h c (List.mem_cons_self _ _))]
    exact ih _ (fun e he => h e (List.mem_cons_of_mem _ he))

/-- Two lists of calls of `CAPS` that name no common cell can be exchanged. -/
theorem runCalls_comm (c1 c2 : List (Nat × Nat × Int))
    (h : ∀ a ∈ c1, ∀ b ∈ c2, a.1 ≠ b.1 ∧ a.1 ≠ b.2.1 ∧ a.2.1 ≠ b.1 ∧ a.2.1 ≠ b.2.1) :
    ∀ (s : List Int), runCalls c1 (runCalls c2 s) = runCalls c2 (runCalls c1 s) := by
  induction c2 with
  | nil => intro s; rfl
  | cons b bs ih =>
    intro s
    rw [runCalls_cons, runCalls_cons, ih (fun a ha e he => h a ha e (List.mem_cons_of_mem _ he)),
      runCalls_CAPS_comm c1 b.1 b.2.1 b.2.2 s (fun a ha => h a ha b (List.mem_cons_self _ _))]

/-- The sorting steps of two workers of a round can be exchanged. -/
theorem sortChunk_comm (a W : Nat) (dir : Int) (N : Nat) (x y : Nat) (s : List Int) :
    sortChunk (sortChunk s (chooseCommand a W dir x) ((N / a : Nat) : Int) (x * (N / a)))
        (chooseCommand a W dir y) ((N / a : Nat) : Int) (y * (N / a))
      = sortChunk (sortChunk s (chooseCommand a W dir y) ((N / a : Nat) : Int) (y * (N / a)))
        (chooseCommand a W dir x) ((N / a : Nat) : Int) (x * (N / a)) := by
  rcases Nat.lt_trichotomy x y with hxy | rfl | hxy
  · simp only [sortChunk_run]
    refine runCalls_comm _ _ (fun p hp q hq => ?_) s
    have hp1 := sortChunkCalls_bounds _ _ _ p hp
    have hq1 := sortChunkCalls_bounds _ _ _ q hq
    have := succ_mul_le x y (N / a) hxy
    omega
  · rfl
  · simp only [sortChunk_run]
    refine runCalls_comm _ _ (fun p hp q hq => ?_) s
    have hp1 := sortChunkCalls_bounds _ _ _ p hp
    have hq1 := sortChunkCalls_bounds _ _ _ q hq
    have := succ_mul_le y x (N / a) hxy
    omega

/-- The round of the model runs the active workers in the order of their ids. -/
theorem roundSeq_inOrder (a W : Nat) (dir : Int) (N i : Nat) (seq : List Int) :
    roundSeq a W dir N i seq = roundInOrder a W dir N (List.range i) seq := by
  unfold roundSeq roundInOrder
  rw [forLoop_foldl (fun j => j)
    (fun s j => sortChunk s (chooseCommand a W dir j) ((N / a : Nat) : Int) (j * (N / a))) i seq,
    List.map_id']

/-! ## The network: the calls of `CAPS` and their effect, the contracts -/

/-- The sizes of level `m` of a merge of `2 ^ k` cells. -/
theorem merge_dist (k m : Nat) (hm : m < k) :
    (2 ^ k >>> 1) / 2 ^ m = 2 ^ k / 2 ^ (m + 1) ∧
    2 * (2 ^ k / 2 ^ (m + 1)) = 2 ^ k / 2 ^ m ∧
    2 ^ m * (2 ^ k / 2 ^ (m + 1)) = 2 ^ k / 2 := by
  have e1 : 2 ^ k / 2 ^ (m + 1) = 2 ^ (k - (m + 1)) := Nat.pow_div (by omega) (by omega)
  have e2 : 2 ^ k / 2 ^ m = 2 ^ (k - m) := Nat.pow_div (by omega) (by omega)
  have e3 : 2 ^ k / 2 = 2 ^ (k - 1) := by
    have := Nat.pow_div (show 1 ≤ k by omega) (show 0 < 2 by omega)
    rwa [pow_one] at this
  have e4 : k - m = (k - (m + 1)) + 1 := by omega
  have e5 : k - 1 = m + (k - (m + 1)) := by omega
  refine ⟨?_, ?_, ?_⟩
  · rw [Nat.shiftRight_eq_div_pow, Nat.div_div_eq_div_mul, pow_one, pow_succ, Nat.mul_comm]
  · rw [e1, e2, e4, pow_succ, Nat.mul_comm]
  · rw [e1, e3, e5, pow_add]

theorem flatten_length_const {α : Type} (c : Nat) : ∀ (L : List (List α)),
    (∀ l ∈ L, l.length = c) → L.flatten.length = L.length * c := by
  intro L
  induction L with
  | nil => intro _; simp
  | cons x xs ih =>
    intro h
    rw [List.flatten_cons, List.length_append, h x (List.mem_cons_self _ _),
      ih (fun l hl => h l (List.mem_cons_of_mem _ hl)), List.length_cons]
    ring

/-- C23: `bitonicMerge` on `2 ^ k` cells makes its calls of `CAPS` in `k` levels; level `m` has
`2 ^ m` groups; group `g` of level `m` makes `2 ^ k / 2 ^ (m + 1)` calls, each on two cells at
distance `2 ^ k / 2 ^ (m + 1)` inside the cells `[low + g * (2 ^ k / 2 ^ m),
low + (g + 1) * (2 ^ k / 2 ^ m))`, so that the groups of a level have no cell in common; the calls
are `2 ^ k / 2 * k` in all, and the array left by `bitonicMerge` is the one left by these
calls. -/
theorem C23_merge_levels (low k : Nat) (dir : Int) :
    (bitonicMergeCalls low (2 ^ k) dir).length = k ∧
    (∀ m, m < k →
      ((bitonicMergeCalls low (2 ^ k) dir).getD m []).length = 2 ^ m ∧
      ∀ g, g < 2 ^ m →
        (((bitonicMergeCalls low (2 ^ k) dir).getD m []).getD g []).length
          = 2 ^ k / 2 ^ (m + 1) ∧
        ∀ c ∈ ((bitonicMergeCalls low (2 ^ k) dir).getD m []).getD g [],
          c.2.1 = c.1 + 2 ^ k / 2 ^ (m + 1) ∧
          low + g * (2 ^ k / 2 ^ m) ≤ c.1 ∧ c.2.1 < low + (g + 1) * (2 ^ k / 2 ^ m)) ∧
    (bitonicMergeCalls low (2 ^ k) dir).flatten.flatten.length = 2 ^ k / 2 * k ∧
    (∀ seq, (bitonicMerge seq low (2 ^ k) dir).1
      = runCalls (bitonicMergeCalls low (2 ^ k) dir).flatten.flatten seq) := by
  refine ⟨?_, fun m hm => ?_, ?_, fun seq => bitonicMerge_run seq low (2 ^ k) dir⟩
  · rw [bitonicMergeCalls_eq, ilog2_pow]
    simp
  · obtain ⟨d1, d2, _⟩ := merge_dist k m hm
    rw [bitonicMergeCalls_eq, ilog2_pow]
    have hlvl : ∀ (f : Nat → List (List (Nat × Nat × Int))),
        ((List.range k).map f).getD m [] = f m := by
      intro f
      simp [List.getD_eq_getElem?_getD, List.getElem?_range hm]
    rw [hlvl]
    rw [d1, ← d2]
    refine ⟨by simp, fun g hg => ?_⟩
    have hgrp : ∀ (f : Nat → List (Nat × Nat × Int)),
        ((List.range (1 * 2 ^ m)).map f).getD g [] = f g := by
      intro f
      simp [List.getD_eq_getElem?_getD, List.getElem?_range hg]
    rw [hgrp]
    refine ⟨by simp, fun c hc => ?_⟩
    simp only [List.mem_map, List.mem_range] at hc
    obtain ⟨t, ht, rfl⟩ := hc
    generalize 2 ^ k / 2 ^ (m + 1) = v at *
    have e : (g + 1) * (2 * v) = g * (2 * v) + 2 * v := by ring
    rw [e]
    generalize g * (2 * v) = gv
    refine ⟨rfl, ?_, ?_⟩ <;> simp only <;> omega
  · rw [List.flatten_flatten, flatten_length_const (2 ^ k / 2)]
    · rw [bitonicMergeCalls_eq, ilog2_pow]
      simp
      exact Nat.mul_comm _ _
    · intro l hl
      rw [bitonicMergeCalls_eq, ilog2_pow] at hl
      simp only [List.mem_map, List.mem_range] at hl
      obtain ⟨_, ⟨m, hm, rfl⟩, rfl⟩ := hl
      obtain ⟨d1, _, d3⟩ := merge_dist k m hm
      rw [flatten_length_const ((2 ^ k >>> 1) / 2 ^ m)]
      · simp only [List.length_map, List.length_range, one_mul]
        rw [d1, d3]
      · intro l hl
        simp only [List.mem_map, List.mem_range] at hl
        obtain ⟨g, _, rfl⟩ := hl
        simp

/-- C26: on a block inside the array, for every size of the block, a power of two or not, and
every direction, the array left by `bitonicMerge` and the array left by `bitonicSort` are
permutations of the array they were given. -/
theorem C26_permutation (seq : List Int) (low N : Nat) (dir : Int)
    (hb : low + N ≤ seq.length) :
    (bitonicMerge seq low N dir).1.Perm seq ∧ (bitonicSort seq low N dir).1.Perm seq := by
  constructor
  · rw [bitonicMerge_run]
    refine runCalls_perm _ seq (fun c hc => ?_)
    have := mergeCalls_bounds low N dir c hc
    omega
  · rw [bitonicSort_run]
    refine runCalls_perm _ seq (fun c hc => ?_)
    have := sortCalls_bounds low N dir c hc
    omega

/-- C26, on an instance: a block of three cells inside five. -/
theorem C26_permutation_witness :
    1 + 3 ≤ [(5 : Int), 3, 8, 1, 9].length ∧
    ((bitonicMerge [5, 3, 8, 1, 9] 1 3 1).1.Perm [5, 3, 8, 1, 9] ∧
      (bitonicSort [5, 3, 8, 1, 9] 1 3 1).1.Perm [5, 3, 8, 1, 9]) :=
  ⟨by decide, C26_permutation [5, 3, 8, 1, 9] 1 3 1 (by decide)⟩

/-- C27: for every array, every block `[low, low + N)`, of any size, and every direction,
`bitonicMerge` and `bitonicSort` keep the length of the array and the value of every cell outside
the block. -/
theorem C27_outside_unchanged (seq : List Int) (low N : Nat) (dir : Int) (i : Nat)
    (hi : i < low ∨ low + N ≤ i) :
    (bitonicMerge seq low N dir).1.length = seq.length ∧
    ld (bitonicMerge seq low N dir).1 i = ld seq i ∧
    (bitonicSort seq low N dir).1.length = seq.length ∧
    ld (bitonicSort seq low N dir).1 i = ld seq i := by
  rw [bitonicMerge_run, bitonicSort_run]
  refine ⟨runCalls_length _ _, runCalls_frame _ i seq (fun c hc => ?_), runCalls_length _ _,
    runCalls_frame _ i seq (fun c hc => ?_)⟩
  · have := mergeCalls_bounds low N dir c hc
    omega
  · have := sortCalls_bounds low N dir c hc
    omega

/-- C27, on an instance: the cell after a block of three cells. -/
theorem C27_outside_unchanged_witness :
    (4 < 1 ∨ 1 + 3 ≤ 4) ∧
    ((bitonicMerge [5, 3, 8, 1, 9] 1 3 1).1.length = [(5 : Int), 3, 8, 1, 9].length ∧
    ld (bitonicMerge [5, 3, 8, 1, 9] 1 3 1).1 4 = ld [5, 3, 8, 1, 9] 4 ∧
    (bitonicSort [5, 3, 8, 1, 9] 1 3 1).1.length = [(5 : Int), 3, 8, 1, 9].length ∧
    ld (bitonicSort [5, 3, 8, 1, 9] 1 3 1).1 4 = ld [5, 3, 8, 1, 9] 4) :=
  ⟨by decide, C27_outside_unchanged [5, 3, 8, 1, 9] 1 3 1 4 (by decide)⟩

/-- C28: for every `low`, every `N`, a power of two or not, and every direction, each call of
`CAPS` made by `bitonicMerge` and each call made by `bitonicSort`, the calls of its recursive
calls and of its merges included, is on two cells `pos1 < pos2` of `[low, low + N)`, so inside
every array of at least `low + N` cells; the arrays left by `bitonicMerge` and `bitonicSort` are
the ones left by these calls. -/
theorem C28_calls_inside_block (low N : Nat) (dir : Int) :
    (∀ c ∈ (bitonicMergeCalls low N dir).flatten.flatten,
      low ≤ c.1 ∧ c.1 < c.2.1 ∧ c.2.1 < low + N) ∧
    (∀ c ∈ bitonicSortCalls low N dir, low ≤ c.1 ∧ c.1 < c.2.1 ∧ c.2.1 < low + N) ∧
    (∀ seq, (bitonicMerge seq low N dir).1
      = runCalls (bitonicMergeCalls low N dir).flatten.flatten seq) ∧
    (∀ seq, (bitonicSort seq low N dir).1 = runCalls (bitonicSortCalls low N dir) seq) :=
  ⟨fun c hc => ⟨(mergeCalls_bounds low N dir c hc).1, (mergeCalls_bounds low N dir c hc).2.1,
      (mergeCalls_bounds low N dir c hc).2.2.1⟩,
    fun c hc => sortCalls_bounds low N dir c hc,
    fun seq => bitonicMerge_run seq low N dir, fun seq => bitonicSort_run seq low N dir⟩

/-- C29: in a round with `a` active workers out of `W` on `N` cells, the sorting steps of the
workers of a list, made one after another, leave the same sequence in every order of the list;
for the active workers `0, ..., a - 1` this is the sequence that the round leaves when the
workers run in the order of their ids. -/
theorem C29_order_of_workers (a W N : Nat) (dir : Int) (seq : List Int) (o1 o2 : List Nat)
    (h : o1.Perm o2) :
    roundInOrder a W dir N o1 seq = roundInOrder a W dir N o2 seq ∧
    (o2 = List.range a → roundInOrder a W dir N o1 seq = roundSeq a W dir N a seq) := by
  have e : roundInOrder a W dir N o1 seq = roundInOrder a W dir N o2 seq :=
    List.Perm.foldl_eq' h (fun x _ y _ z => sortChunk_comm a W dir N x y z) seq
  refine ⟨e, fun h2 => ?_⟩
  rw [e, h2, roundSeq_inOrder]

/-- C29, on an instance: two workers on four cells, worker 1 before worker 0. -/
theorem C29_order_of_workers_witness :
    [1, 0].Perm [0, 1] ∧
    (roundInOrder 2 2 1 4 [1, 0] [3, 1, 2, 0] = roundInOrder 2 2 1 4 [0, 1] [3, 1, 2, 0] ∧
    ([0, 1] = List.range 2 →
      roundInOrder 2 2 1 4 [1, 0] [3, 1, 2, 0] = roundSeq 2 2 1 4 2 [3, 1, 2, 0])) :=
  ⟨List.Perm.swap 0 1 [], C29_order_of_workers 2 2 4 1 [3, 1, 2, 0] [1, 0] [0, 1]
    (List.Perm.swap 0 1 [])⟩

/-! ## The chunks at the start of a round -/

/-- When the chunks of the round before, twice as many, are in order, up for the even and down
for the odd ones, each chunk of this round is bitonic. -/
theorem chunks_bitonic (n x : Nat) (dir : Int) (seq : List Int) (hlen : seq.length = 2 ^ n)
    (hP : RoundPost seq (2 ^ n) (2 ^ (x + 1)) dir) (j : Nat) (hj : j < 2 ^ x) :
    IsBitonic (slice seq (j * (2 ^ n / 2 ^ x)) (2 ^ n / 2 ^ x)) := by
  have hc : 2 ^ n / 2 ^ x = 0 ∨ ∃ k, 2 ^ n / 2 ^ x = 2 ^ k := by
    by_cases hxn : x ≤ n
    · exact Or.inr ⟨n - x, Nat.pow_div hxn (by omega)⟩
    · exact Or.inl (Nat.div_eq_of_lt (Nat.pow_lt_pow_right (by omega) (by omega)))
  have hbound := mul_chunk_le (2 ^ n) (2 ^ x) j hj
  by_cases hsmall : 2 ^ n / 2 ^ x ≤ 1
  · exact bitonic_of_short seq _ _ (by rw [hlen]; exact hbound) hsmall
  · have h2x : 2 ^ (x + 1) = 2 ^ x * 2 := pow_succ 2 x
    have hhalf : 2 ^ n / 2 ^ (x + 1) = 2 ^ n / 2 ^ x / 2 := by
      rw [h2x, Nat.div_div_eq_div_mul]
    have heven : 2 ^ n / 2 ^ x = 2 * (2 ^ n / 2 ^ x / 2) := by
      rcases hc with h0 | ⟨k, hk⟩
      · exact absurd (by rw [h0]; exact Nat.zero_le _) hsmall
      · rw [hk] at hsmall ⊢
        cases k with
        | zero => exact absurd (le_refl _) hsmall
        | succ k => rw [pow_succ, Nat.mul_div_cancel _ (by omega), Nat.mul_comm]
    have hpos : 0 < 2 ^ x := Nat.pow_pos (by omega)
    have p0 := hP (2 * j) (by omega)
    have p1 := hP (2 * j + 1) (by omega)
    have hne : ¬ 2 ^ (x + 1) = 1 := by omega
    unfold roundDir at p0 p1
    rw [if_neg hne, hhalf] at p0 p1
    have m0 : 2 * j % 2 = 0 := by omega
    have m1 : ¬ (2 * j + 1) % 2 = 0 := by omega
    rw [if_pos m0] at p0
    rw [if_neg m1] at p1
    clear hc hP hhalf hsmall
    generalize 2 ^ n / 2 ^ x = c at *
    generalize c / 2 = h at *
    subst heven
    have e0 : 2 * j * h = j * (2 * h) := by ring
    have e1 : (2 * j + 1) * h = j * (2 * h) + h := by ring
    rw [e0] at p0
    rw [e1] at p1
    exact bitonic_of_halves seq (j * (2 * h)) h (by rw [hlen]; omega) p0 p1

/-- With both sizes powers of two, after `r + 1` rounds the chunks of the last round are in
order, each in the direction of its worker. -/
theorem roundStart_post (file : List Int) (dir : Int) (n e : Nat) (hN : file.length = 2 ^ n)
    (h31 : file.length < 2147483648) (r : Nat) (hr : r ≤ e) :
    (roundStart file (2 ^ e) dir (r + 1)).1.sequence.length = 2 ^ n ∧
    RoundPost (roundStart file (2 ^ e) dir (r + 1)).1.sequence (2 ^ n) (2 ^ (e - r)) dir := by
  induction r with
  | zero =>
    obtain ⟨hI, hd, ha⟩ := roundStart_inv file (2 ^ e) dir h31 0
    obtain ⟨_, d2, _, _⟩ := distributeRanges_inv _ _ _ _ hI h31
    show (distributeRanges _ _).1.sequence.length = _ ∧ RoundPost (distributeRanges _ _).1.sequence _ _ _
    rw [d2, hd]
    have hs : (roundStart file (2 ^ e) dir 0).1.sequence = file := rfl
    have h2 : (roundStart file (2 ^ e) dir 0).2 = 2 ^ e := rfl
    rw [hs, h2, hN]
    exact round_post e n e dir file (le_refl _) hN (fun h => absurd h (lt_irrefl e))
  | succ r ih =>
    obtain ⟨ih1, ih2⟩ := ih (by omega)
    obtain ⟨hI, hd, ha⟩ := roundStart_inv file (2 ^ e) dir h31 (r + 1)
    obtain ⟨_, d2, _, _⟩ := distributeRanges_inv _ _ _ _ hI h31
    show (distributeRanges _ _).1.sequence.length = _ ∧ RoundPost (distributeRanges _ _).1.sequence _ _ _
    have hpow : 2 ^ e / 2 ^ (r + 1) = 2 ^ (e - (r + 1)) := Nat.pow_div (by omega) (by omega)
    rw [d2, hd, ha, hpow, hN]
    have hx : e - r = (e - (r + 1)) + 1 := by omega
    rw [hx] at ih2
    exact round_post e n (e - (r + 1)) dir _ (by omega) ih1 (fun _ => ih2)

/-- C22 (amended): with a sequence whose length is a power of two below `2 ^ 31` and a number of
workers `W = 2 ^ e`, at the start of round `r + 1` for `1 ≤ r ≤ e` (every round after the first)
there are `2 ^ (e - r)` active workers, the chunk of each active worker is a bitonic sequence, made
of two chunks of the round before, the first in increasing and the second in decreasing order,
and at the start of the last round, `r = e`, the whole sequence is bitonic. -/
theorem C22_chunks_bitonic (file : List Int) (dir : Int) (n e r : Nat)
    (hN : file.length = 2 ^ n) (h31 : file.length < 2147483648) (hr1 : 1 ≤ r) (hre : r ≤ e) :
    (roundStart file (2 ^ e) dir r).2 = 2 ^ (e - r) ∧
    (∀ j, j < 2 ^ (e - r) →
      IsBitonic (slice (roundStart file (2 ^ e) dir r).1.sequence
        (j * (2 ^ n / 2 ^ (e - r))) (2 ^ n / 2 ^ (e - r)))) ∧
    (∀ j, j < 2 ^ (e - r + 1) →
      ChunkOrdered (roundStart file (2 ^ e) dir r).1.sequence
        (j * (2 ^ n / 2 ^ (e - r + 1))) (2 ^ n / 2 ^ (e - r + 1)) (if j % 2 = 0 then 1 else -1)) ∧
    (r = e → IsBitonic (roundStart file (2 ^ e) dir r).1.sequence) := by
  obtain ⟨q, rfl⟩ : ∃ q, r = q + 1 := ⟨r - 1, by omega⟩
  obtain ⟨h1, h2⟩ := roundStart_post file dir n e hN h31 q (by omega)
  obtain ⟨_, _, ha⟩ := roundStart_inv file (2 ^ e) dir h31 (q + 1)
  have hpow : 2 ^ e / 2 ^ (q + 1) = 2 ^ (e - (q + 1)) := Nat.pow_div hre (by omega)
  have hx : e - q = (e - (q + 1)) + 1 := by omega
  rw [hx] at h2
  have hbit := chunks_bitonic n (e - (q + 1)) dir _ h1 h2
  refine ⟨by rw [ha, hpow], hbit, fun j hj => ?_, fun hlast => ?_⟩
  · have := h2 j hj
    unfold roundDir at this
    have hne : ¬ 2 ^ (e - (q + 1) + 1) = 1 := by
      have : 0 < 2 ^ (e - (q + 1)) := Nat.pow_pos (by omega)
      rw [pow_succ]
      omega
    rwa [if_neg hne] at this
  · subst hlast
    have := hbit 0 (Nat.pow_pos (by omega))
    rw [Nat.sub_self, pow_zero, Nat.div_one, Nat.zero_mul, ← h1, slice_all] at this
    exact this

/-- C22 (amended), on an instance: eight cells, four workers, the start of the second round. -/
theorem C22_chunks_bitonic_witness :
    ([(5 : Int), 3, 8, 1, 9, 2, 7, 4].length = 2 ^ 3 ∧
      [(5 : Int), 3, 8, 1, 9, 2, 7, 4].length < 2147483648 ∧ 1 ≤ 1 ∧ 1 ≤ 2) ∧
    ((roundStart [5, 3, 8, 1, 9, 2, 7, 4] (2 ^ 2) 1 1).2 = 2 ^ (2 - 1) ∧
    (∀ j, j < 2 ^ (2 - 1) →
      IsBitonic (slice (roundStart [5, 3, 8, 1, 9, 2, 7, 4] (2 ^ 2) 1 1).1.sequence
        (j * (2 ^ 3 / 2 ^ (2 - 1))) (2 ^ 3 / 2 ^ (2 - 1)))) ∧
    (∀ j, j < 2 ^ (2 - 1 + 1) →
      ChunkOrdered (roundStart [5, 3, 8, 1, 9, 2, 7, 4] (2 ^ 2) 1 1).1.sequence
        (j * (2 ^ 3 / 2 ^ (2 - 1 + 1))) (2 ^ 3 / 2 ^ (2 - 1 + 1)) (if j % 2 = 0 then 1 else -1)) ∧
    (1 = 2 → IsBitonic (roundStart [5, 3, 8, 1, 9, 2, 7, 4] (2 ^ 2) 1 1).1.sequence)) :=
  ⟨⟨by decide, by decide, by decide, by decide⟩,
    C22_chunks_bitonic [5, 3, 8, 1, 9, 2, 7, 4] 1 3 2 1 (by decide) (by decide) (by decide)
      (by decide)⟩

set_option maxRecDepth 1000000 in
/-- C22 as stated fails: four cells (a power of two), three workers. The first round gives each
of the three workers one cell; at the start of the second round the only active worker gets the
whole sequence `0, 1, 0, 1`, which is not bitonic. -/
theorem C22_three_workers_not_bitonic :
    ([(0 : Int), 1, 0, 1].length = 2 ^ 2 ∧ 2 ≤ 3) ∧
    (roundStart [0, 1, 0, 1] 3 1 1).2 = 1 ∧
    (fetchSubSequence (assignRanges (roundStart [0, 1, 0, 1] 3 1 1).1
      (roundStart [0, 1, 0, 1] 3 1 1).2) 0).2.2 = (ORDER_BITONIC_INCR, 4, 0) ∧
    slice (roundStart [0, 1, 0, 1] 3 1 1).1.sequence 0 4 = [0, 1, 0, 1] ∧
    ¬ IsBitonic (slice (roundStart [0, 1, 0, 1] 3 1 1).1.sequence 0 4) := by
  have hs : slice (roundStart [0, 1, 0, 1] 3 1 1).1.sequence 0 4 = [0, 1, 0, 1] := by decide
  refine ⟨by decide, by decide, by decide, hs, ?_⟩
  rw [hs]
  intro h
  obtain ⟨p, q, _, _, hpq⟩ := isBitonic_bit01 _ h 1 1
  have q0 : ¬ up 1 1 (ld [0, 1, 0, 1] 0) := by simp [up, ld]
  have q1 : up 1 1 (ld [0, 1, 0, 1] 1) := by simp [up, ld]
  have q2 : ¬ up 1 1 (ld [0, 1, 0, 1] 2) := by simp [up, ld]
  have q3 : up 1 1 (ld [0, 1, 0, 1] 3) := by simp [up, ld]
  rcases hpq with hp | hp
  · have a1 := (hp 1 (by decide)).mp q1
    have a3 := (hp 3 (by decide)).mp q3
    exact q2 ((hp 2 (by decide)).mpr ⟨by omega, by omega⟩)
  · have a0 := (hp 0 (by decide)).mp q0
    have a2 := (hp 2 (by decide)).mp q2
    exact ((hp 1 (by decide)).mpr ⟨by omega, by omega⟩) q1

/-! ## The scan of a text chunk -/

theorem getLetterSize_bounds (byte : Nat) : 1 ≤ getLetterSize byte ∧ getLetterSize byte ≤ 4 := by
  unfold getLetterSize
  split_ifs <;> omega

theorem readLetter_index (chunk : List Nat) (byte size i : Nat) :
    (readLetter chunk byte size i).2 = i + (size - 1) := by
  have h : ∀ n, (forLoop n
      (fun t (st : List Nat × Nat) => (st.1.set (t + 1) (chunk.getD (st.2 + 1) 0), st.2 + 1))
      ([byte, 0, 0, 0], i)).2 = i + n := by
    intro n
    induction n with
    | zero => rfl
    | succ n ih =>
      show (forLoop n
        (fun t (st : List Nat × Nat) => (st.1.set (t + 1) (chunk.getD (st.2 + 1) 0), st.2 + 1))
        ([byte, 0, 0, 0], i)).2 + 1 = _
      rw [ih]
      omega
  exact h (size - 1)

theorem incU32_le (x : Nat) : incU32 x ≤ x + 1 := by
  unfold incU32
  exact Nat.mod_le _ _

/-- The loop over the vowels inside a word: the cells of vowel `j` are as before, or the vowel
was not yet met in the word and is counted once. -/
theorem countInWord_spec (character : Nat) (vf : List Nat × List Bool) (j : Nat)
    (hl1 : j < vf.1.length) (hl2 : j < vf.2.length) (n : Nat) :
    (forLoop n (countInWordStep character) vf).1.length = vf.1.length ∧
    (forLoop n (countInWordStep character) vf).2.length = vf.2.length ∧
    (((forLoop n (countInWordStep character) vf).1.getD j 0 = vf.1.getD j 0 ∧
      (forLoop n (countInWordStep character) vf).2.getD j false = vf.2.getD j false) ∨
     (vf.2.getD j false = false ∧
      (forLoop n (countInWordStep character) vf).1.getD j 0 = incU32 (vf.1.getD j 0) ∧
      (forLoop n (countInWordStep character) vf).2.getD j false = true ∧ j < n)) ∧
    (n ≤ j → (forLoop n (countInWordStep character) vf).1.getD j 0 = vf.1.getD j 0 ∧
      (forLoop n (countInWordStep character) vf).2.getD j false = vf.2.getD j false) := by
  induction n with
  | zero => exact ⟨rfl, rfl, Or.inl ⟨rfl, rfl⟩, fun _ => ⟨rfl, rfl⟩⟩
  | succ n ih =>
    obtain ⟨h1, h2, h3, h4⟩ := ih
    show (countInWordStep character n _).1.length = _ ∧
      (countInWordStep character n _).2.length = _ ∧
      (((countInWordStep character n _).1.getD j 0 = _ ∧
        (countInWordStep character n _).2.getD j false = _) ∨
       (_ ∧ (countInWordStep character n _).1.getD j 0 = _ ∧
        (countInWordStep character n _).2.getD j false = _ ∧ _)) ∧
      (_ → (countInWordStep character n _).1.getD j 0 = _ ∧
        (countInWordStep character n _).2.getD j false = _)
    generalize forLoop n (countInWordStep character) vf = r at h1 h2 h3 h4
    unfold countInWordStep
    by_cases hc : character = vowels.getD n 0 ∧ r.2.getD n false = false
    · rw [if_pos hc]
      simp only [List.length_set, getD_set_eq]
      refine ⟨h1, h2, ?_, fun hj => ?_⟩
      · by_cases hjn : n = j
        · subst hjn
          obtain ⟨e1, e2⟩ := h4 (le_refl _)
          refine Or.inr ⟨by rw [← e2]; exact hc.2, ?_, ?_, by omega⟩
          · rw [if_pos ⟨rfl, by omega⟩, e1]
          · rw [if_pos ⟨rfl, by omega⟩]
        · simp only [hjn, false_and, if_false]
          rcases h3 with h | ⟨a, b, c, d⟩
          · exact Or.inl h
          · exact Or.inr ⟨a, b, c, by omega⟩
      · have hjn : ¬ n = j := by omega
        simp only [hjn, false_and, if_false]
        exact h4 (by omega)
    · rw [if_neg hc]
      refine ⟨h1, h2, ?_, fun hj => h4 (by omega)⟩
      rcases h3 with h | ⟨a, b, c, d⟩
      · exact Or.inl h
      · exact Or.inr ⟨a, b, c, by omega⟩

/-- The loop over the vowels at the start of a word: the vowel that the character is gets
counted once and marked, the others are unmarked. -/
theorem countWordStart_spec (character : Nat) (vf : List Nat × List Bool) (j : Nat)
    (hl1 : j < vf.1.length) (hl2 : j < vf.2.length) (n : Nat) :
    (forLoop n (countWordStartStep character) vf).1.length = vf.1.length ∧
    (forLoop n (countWordStartStep character) vf).2.length = vf.2.length ∧
    (j < n →
      (forLoop n (countWordStartStep character) vf).1.getD j 0
        = (if character = vowels.getD j 0 then incU32 (vf.1.getD j 0) else vf.1.getD j 0) ∧
      (forLoop n (countWordStartStep character) vf).2.getD j false
        = (if character = vowels.getD j 0 then true else false)) ∧
    (n ≤ j → (forLoop n (countWordStartStep character) vf).1.getD j 0 = vf.1.getD j 0 ∧
      (forLoop n (countWordStartStep character) vf).2.getD j false = vf.2.getD j false) := by
  induction n with
  | zero => exact ⟨rfl, rfl, fun h => absurd h (Nat.not_lt_zero _), fun _ => ⟨rfl, rfl⟩⟩
  | succ n ih =>
    obtain ⟨h1, h2, h3, h4⟩ := ih
    show (countWordStartStep character n _).1.length = _ ∧
      (countWordStartStep character n _).2.length = _ ∧
      (_ → (countWordStartStep character n _).1.getD j 0 = _ ∧
        (countWordStartStep character n _).2.getD j false = _) ∧
      (_ → (countWordStartStep character n _).1.getD j 0 = _ ∧
        (countWordStartStep character n _).2.getD j false = _)
    generalize forLoop n (countWordStartStep character) vf = r at h1 h2 h3 h4
    unfold countWordStartStep
    by_cases hjn : n = j
    · subst hjn
      obtain ⟨e1, e2⟩ := h4 (le_refl _)
      by_cases hc : character = vowels.getD n 0
      · simp only [hc, if_true, List.length_set, getD_set_eq, true_and]
        refine ⟨h1, h2, fun _ => ?_, fun h => absurd h (by omega)⟩
        rw [if_pos (by omega), if_pos (by omega), e1]
        exact ⟨rfl, rfl⟩
      · simp only [hc, if_false, List.length_set, getD_set_eq, true_and]
        refine ⟨h1, h2, fun _ => ?_, fun h => absurd h (by omega)⟩
        rw [if_pos (by omega)]
        exact ⟨e1, rfl⟩
    · by_cases hc : character = vowels.getD n 0
      · simp only [if_pos hc, List.length_set, getD_set_eq, hjn, false_and, if_false]
        exact ⟨h1, h2, fun h => h3 (by omega), fun h => h4 (by omega)⟩
      · simp only [if_neg hc, List.length_set, getD_set_eq, hjn, false_and, if_false]
        exact ⟨h1, h2, fun h => h3 (by omega), fun h => h4 (by omega)⟩

/-- One turn of the scan keeps what the scan keeps true, and moves `i` forward. -/
theorem scanTurn_inv (chunk : List Nat) (chunkSize : Nat) (h : chunkSize < 2147483648)
    (s : Scan) (hI : ScanInv chunkSize s) (hi : s.i < chunkSize) :
    ScanInv chunkSize (scanTurn chunk s) ∧ s.i + 1 ≤ (scanTurn chunk s).i := by
  obtain ⟨l1, l2, hw, hi3, hv⟩ := hI
  have hsz := getLetterSize_bounds (chunk.getD s.i 0)
  have hrd := readLetter_index chunk (chunk.getD s.i 0) (getLetterSize (chunk.getD s.i 0)) s.i
  simp only [scanTurn]
  generalize readLetter chunk (chunk.getD s.i 0) (getLetterSize (chunk.getD s.i 0)) s.i = rd at hrd
  generalize getLetterSize (chunk.getD s.i 0) = size at hsz hrd
  by_cases hin : s.inWord = true
  · rw [if_pos hin]
    by_cases hsep : isSeparator rd.1 (size : Int) = true
    · rw [if_pos hsep]
      refine ⟨⟨l1, l2, ?_, ?_, fun j hj => ?_⟩, ?_⟩
      · show s.wordCountPartial ≤ rd.2 + 1
        omega
      · show rd.2 + 1 ≤ chunkSize + 3
        omega
      · have := hv j hj
        show s.vowelCountPartial.getD j 0 + (if false = true ∧ _ then 1 else 0) ≤ s.wordCountPartial
        simp only [Bool.false_eq_true, false_and, if_false]
        omega
      · show s.i + 1 ≤ rd.2 + 1
        omega
    · rw [if_neg hsep]
      refine ⟨⟨?_, ?_, ?_, ?_, fun j hj => ?_⟩, ?_⟩
      · show (countInWord _ _).1.length = _
        exact ((countInWord_spec _ (s.vowelCountPartial, s.firstOccur) 0
          (by rw [l1]; decide) (by rw [l2]; decide) VOWELNUM).1).trans l1
      · show (countInWord _ _).2.length = _
        exact ((countInWord_spec _ (s.vowelCountPartial, s.firstOccur) 0
          (by rw [l1]; decide) (by rw [l2]; decide) VOWELNUM).2.1).trans l2
      · show s.wordCountPartial ≤ rd.2 + 1
        omega
      · show rd.2 + 1 ≤ chunkSize + 3
        omega
      · have hvj := hv j hj
        obtain ⟨_, _, h3, _⟩ := countInWord_spec (isVowel rd.1 (size : Int))
          (s.vowelCountPartial, s.firstOccur) j (by rw [l1]; exact hj) (by rw [l2]; exact hj)
          VOWELNUM
        show (countInWord _ _).1.getD j 0 +
          (if s.inWord = true ∧ (countInWord _ _).2.getD j false = false then 1 else 0)
            ≤ s.wordCountPartial
        unfold countInWord
        rcases h3 with ⟨e1, e2⟩ | ⟨e0, e1, e2, _⟩
        · rw [e1, e2]
          exact hvj
        · rw [e1, e2]
          have hle := incU32_le (s.vowelCountPartial.getD j 0)
          rw [if_pos ⟨hin, e0⟩] at hvj
          simp only [Bool.true_eq_false, and_false, if_false]
          omega
      · show s.i + 1 ≤ rd.2 + 1
        omega
  · rw [if_neg hin]
    have hin2 : s.inWord = false := by simpa using hin
    by_cases hal : isAlpha rd.1 (size : Int) = true ∨ rd.1.getD 0 0 = 0x5F
    · rw [if_pos hal]
      have hwc : incU32 s.wordCountPartial = s.wordCountPartial + 1 := by
        unfold incU32
        exact Nat.mod_eq_of_lt (by omega)
      refine ⟨⟨?_, ?_, ?_, ?_, fun j hj => ?_⟩, ?_⟩
      · show (countWordStart _ _).1.length = _
        exact ((countWordStart_spec _ (s.vowelCountPartial, s.firstOccur) 0
          (by rw [l1]; decide) (by rw [l2]; decide) VOWELNUM).1).trans l1
      · show (countWordStart _ _).2.length = _
        exact ((countWordStart_spec _ (s.vowelCountPartial, s.firstOccur) 0
          (by rw [l1]; decide) (by rw [l2]; decide) VOWELNUM).2.1).trans l2
      · show incU32 s.wordCountPartial ≤ rd.2 + 1
        omega
      · show rd.2 + 1 ≤ chunkSize + 3
        omega
      · have hvj := hv j hj
        rw [hin2] at hvj
        simp only [Bool.false_eq_true, false_and, if_false] at hvj
        obtain ⟨_, _, h3, _⟩ := countWordStart_spec
          (isVowel rd.1 (if isAlpha rd.1 (size : Int) = true then (size : Int) else 1))
          (s.vowelCountPartial, s.firstOccur) j (by rw [l1]; exact hj) (by rw [l2]; exact hj)
          VOWELNUM
        obtain ⟨e1, e2⟩ := h3 hj
        dsimp only at e1 e2
        show (countWordStart _ _).1.getD j 0 +
          (if true = true ∧ (countWordStart _ _).2.getD j false = false then 1 else 0)
            ≤ incU32 s.wordCountPartial
        unfold countWordStart
        rw [e1, e2, hwc]
        have hle := incU32_le (s.vowelCountPartial.getD j 0)
        by_cases hc : isVowel rd.1 (if isAlpha rd.1 (size : Int) = true then (size : Int) else 1)
            = vowels.getD j 0
        · rw [if_pos hc, if_pos hc]
          simp only [Bool.true_eq_false, and_false, if_false]
          omega
        · rw [if_neg hc, if_neg hc]
          simp only [and_self, if_true]
          omega
      · show s.i + 1 ≤ rd.2 + 1
        omega
    · rw [if_neg hal]
      refine ⟨⟨l1, l2, ?_, ?_, fun j hj => ?_⟩, ?_⟩
      · show s.wordCountPartial ≤ rd.2 + 1
        omega
      · show rd.2 + 1 ≤ chunkSize + 3
        omega
      · exact hv j hj
      · show s.i + 1 ≤ rd.2 + 1
        omega

/-- The scan keeps its invariant, turn after turn, and `chunkSize` turns bring `i` to the end of
the chunk. -/
theorem scanLoop_inv (chunk : List Nat) (chunkSize : Nat) (h : chunkSize < 2147483648) :
    ∀ (turns : Nat) (s : Scan), ScanInv chunkSize s →
      ScanInv chunkSize (scanLoop turns chunk chunkSize s) ∧
      (chunkSize ≤ s.i + turns → chunkSize ≤ (scanLoop turns chunk chunkSize s).i) := by
  intro turns
  induction turns with
  | zero => intro s hI; exact ⟨hI, fun h => h⟩
  | succ n ih =>
    intro s hI
    unfold scanLoop
    by_cases hi : s.i < chunkSize
    · rw [if_pos hi]
      obtain ⟨t1, t2⟩ := scanTurn_inv chunk chunkSize h s hI hi
      obtain ⟨r1, r2⟩ := ih (scanTurn chunk s) t1
      exact ⟨r1, fun hle => r2 (by omega)⟩
    · rw [if_neg hi]
      exact ⟨hI, fun _ => by omega⟩

theorem scanInit_inv (chunkSize : Nat) : ScanInv chunkSize scanInit := by
  refine ⟨rfl, rfl, Nat.le_refl _, Nat.zero_le _, fun j hj => ?_⟩
  show (List.replicate VOWELNUM 0).getD j 0 + (if false = true ∧ _ then 1 else 0) ≤ 0
  simp [List.getD_eq_getElem?_getD, List.getElem?_replicate, hj]

/-- C30: in the scan of a chunk of `chunkSize < 2 ^ 31` bytes, after any number of turns and
for each of the six vowels, the number of words counted for the vowel is at most the number of
words counted, and at most one less while the current word has not yet shown the vowel; the scan
is over after at most `chunkSize` turns, so the same holds for the counts that the worker
hands over. -/
theorem C30_vowel_count_le_word_count (chunk : List Nat) (chunkSize : Nat)
    (h : chunkSize < 2147483648) (turns j : Nat) (hj : j < VOWELNUM) :
    (scanLoop turns chunk chunkSize scanInit).vowelCountPartial.getD j 0
      ≤ (scanLoop turns chunk chunkSize scanInit).wordCountPartial ∧
    ((scanLoop turns chunk chunkSize scanInit).inWord = true →
      (scanLoop turns chunk chunkSize scanInit).firstOccur.getD j false = false →
      (scanLoop turns chunk chunkSize scanInit).vowelCountPartial.getD j 0
        < (scanLoop turns chunk chunkSize scanInit).wordCountPartial) ∧
    chunkSize ≤ (scan chunk chunkSize).i ∧
    (scan chunk chunkSize).vowelCountPartial.getD j 0 ≤ (scan chunk chunkSize).wordCountPartial := by
  obtain ⟨⟨_, _, _, _, a5⟩, _⟩ := scanLoop_inv chunk chunkSize h turns scanInit
    (scanInit_inv chunkSize)
  obtain ⟨⟨_, _, _, _, b5⟩, b6⟩ := scanLoop_inv chunk chunkSize h chunkSize scanInit
    (scanInit_inv chunkSize)
  have ha := a5 j hj
  have hb := b5 j hj
  refine ⟨le_trans (Nat.le_add_right _ _) ha, fun h1 h2 => ?_, b6 (Nat.le_add_left _ _),
    le_trans (Nat.le_add_right _ _) hb⟩
  rw [if_pos ⟨h1, h2⟩] at ha
  omega

/-- C30, on an instance: the text `a_e a`, after three turns, the vowel e. -/
theorem C30_vowel_count_le_word_count_witness :
    (5 < 2147483648 ∧ 1 < VOWELNUM) ∧
    ((scanLoop 3 [0x61, 0x5F, 0x65, 0x20, 0x61] 5 scanInit).vowelCountPartial.getD 1 0
      ≤ (scanLoop 3 [0x61, 0x5F, 0x65, 0x20, 0x61] 5 scanInit).wordCountPartial ∧
    ((scanLoop 3 [0x61, 0x5F, 0x65, 0x20, 0x61] 5 scanInit).inWord = true →
      (scanLoop 3 [0x61, 0x5F, 0x65, 0x20, 0x61] 5 scanInit).firstOccur.getD 1 false = false →
      (scanLoop 3 [0x61, 0x5F, 0x65, 0x20, 0x61] 5 scanInit).vowelCountPartial.getD 1 0
        < (scanLoop 3 [0x61, 0x5F, 0x65, 0x20, 0x61] 5 scanInit).wordCountPartial) ∧
    5 ≤ (scan [0x61, 0x5F, 0x65, 0x20, 0x61] 5).i ∧
    (scan [0x61, 0x5F, 0x65, 0x20, 0x61] 5).vowelCountPartial.getD 1 0
      ≤ (scan [0x61, 0x5F, 0x65, 0x20, 0x61] 5).wordCountPartial) :=
  ⟨⟨by decide, by decide⟩,
    C30_vowel_count_le_word_count [0x61, 0x5F, 0x65, 0x20, 0x61] 5 (by decide) 3 1 (by decide)⟩

set_option maxRecDepth 100000 in
/-- The scan of the text `a_e a`: two words, both with an a, one with an e. -/
theorem scan_example :
    (scan [0x61, 0x5F, 0x65, 0x20, 0x61] 5).wordCountPartial = 2 ∧
    (scan [0x61, 0x5F, 0x65, 0x20, 0x61] 5).vowelCountPartial = [2, 1, 0, 0, 0, 0] := by
  decide

end Bitonic
